import Mathlib

/-!
# IlliniBook: a relationship graph and its breadth-first queries

A shallow embedding of `illini_book.cc`.

* `std::map<int, std::vector<...>>` is an association list kept sorted by key
  (`find`, `pushBack`); iteration over the map is iteration over that list.
* `std::set<int>` is a sorted duplicate-free list (`setInsert`, membership).
* `std::queue` is a list: the front is the head, `push` appends at the end.
* person IDs are `Int`.  The `int` distance of the queue of `GetRelated` is
  an `Int` kept in 32 bits: `dist + 1` is `wrapInt (dist + 1)`, the two's
  complement wrap-around.  The depth of the queue of `GetSteps` is compared
  with the `int` argument `n` before it is incremented, so it never exceeds
  `n`; it is a `Nat`.
* a `while (!q.empty())` loop is a function recursive on a fuel argument; the
  entry points supply the fuel themselves, and a run that exhausts it
  yields `Res.outOfFuel`.  `relations_.at(k)` on a missing key yields
  `Res.outOfRange` (the `std::out_of_range` exception).
-/

namespace IlliniBook

/-- Result of running a query: a returned value, the exception thrown by
`std::map::at`, or exhaustion of the fuel of the model. -/
inductive Res (α : Type) where
  | ok (a : α)
  | outOfRange
  | outOfFuel
  deriving DecidableEq

/-- Result of running the body of a `for` loop to its end: either the
enclosing function returned a value, or the loop finished in a state. -/
inductive Step (ρ σ : Type) where
  | ret (r : ρ)
  | next (s : σ)
  deriving DecidableEq

/-- The type `std::map<int, std::vector<β>>`: key/value pairs sorted by key. -/
abbrev AdjMap (β : Type) := List (Int × List β)

/-- The lookup `m.find(k)`: the vector stored under `k`, if any. -/
def find {β : Type} : AdjMap β → Int → Option (List β)
  | [], _ => none
  | (k', vs) :: rest, k => if k = k' then some vs else find rest k

/-- The statement `m[k].push_back(x)`: the entry of `k` is created empty when
it is missing (at its place in key order), then `x` is appended to it. -/
def pushBack {β : Type} : AdjMap β → Int → β → AdjMap β
  | [], k, x => [(k, [x])]
  | (k', vs) :: rest, k, x =>
    if k = k' then (k', vs ++ [x]) :: rest
    else if k < k' then (k, [x]) :: (k', vs) :: rest
    else (k', vs) :: pushBack rest k x

/-- The call `s.insert(x)` on a `std::set<int>`. -/
def setInsert (x : Int) : List Int → List Int
  | [] => [x]
  | y :: ys =>
    if x = y then y :: ys
    else if x < y then x :: y :: ys
    else y :: setInsert x ys

end IlliniBook

/-- The object state: the person list `people_` and the adjacency map
`relations_` from a person to its (neighbor, relationship) pairs. -/
structure IlliniBook where
  people_ : List Int
  relations_ : IlliniBook.AdjMap (Int × String)
  deriving DecidableEq

namespace IlliniBook

/-- One iteration of the relationship-loading loop of the constructor (lines
37-38): both half-edges of the triple `(uin_a, uin_b, relationship)`. -/
def addRelation (m : AdjMap (Int × String)) (t : Int × Int × String) : AdjMap (Int × String) :=
  pushBack (pushBack m t.1 (t.2.1, t.2.2)) t.2.1 (t.1, t.2.2)

/-- The constructor, on the already parsed person list and relationship
triples (reading and splitting the two files is the loader's work). -/
def build (people : List Int) (triples : List (Int × Int × String)) : IlliniBook :=
  { people_ := people, relations_ := triples.foldl addRelation [] }

/-- Fuel handed to each `while` loop: one more than the number of keys of
`relations_`. -/
def fuelOf (g : IlliniBook) : Nat := g.relations_.length + 1

/-! ### `AreRelated(uin_1, uin_2)` -/

/-- The `for` loop of lines 69-78 over the neighbors of the dequeued node;
the state is (queue, visited). -/
def AreRelated.scan (uin_2 : Int) :
    List (Int × String) → List Int → List Int → Step Bool (List Int × List Int)
  | [], q, visited => .next (q, visited)
  | pair :: rest, q, visited =>
    if pair.1 = uin_2 then .ret true
    else if pair.1 ∈ visited then AreRelated.scan uin_2 rest q visited
    else AreRelated.scan uin_2 rest (q ++ [pair.1]) (setInsert pair.1 visited)

/-- The `while` loop of lines 64-79. -/
def AreRelated.loop (relations_ : AdjMap (Int × String)) (uin_2 : Int) :
    Nat → List Int → List Int → Res Bool
  | _, [], _ => .ok false
  | 0, _ :: _, _ => .outOfFuel
  | fuel + 1, current :: q, visited =>
    match find relations_ current with
    | none => .outOfRange
    | some adj =>
      match AreRelated.scan uin_2 adj q visited with
      | .ret b => .ok b
      | .next (q', visited') => AreRelated.loop relations_ uin_2 fuel q' visited'

/-- The method `AreRelated(int, int)`. -/
def AreRelated (g : IlliniBook) (uin_1 uin_2 : Int) : Res Bool :=
  if uin_1 = uin_2 then .ok true
  else if (find g.relations_ uin_1).isNone || (find g.relations_ uin_2).isNone then .ok false
  else AreRelated.loop g.relations_ uin_2 (fuelOf g) [uin_1] (setInsert uin_1 [])

/-! ### `AreRelated(uin_1, uin_2, relationship)` -/

/-- The `for` loop of lines 104-116. -/
def AreRelatedRel.scan (uin_2 : Int) (relationship : String) :
    List (Int × String) → List Int → List Int → Step Bool (List Int × List Int)
  | [], q, visited => .next (q, visited)
  | pair :: rest, q, visited =>
    if pair.2 = relationship then
      if pair.1 = uin_2 then .ret true
      else if pair.1 ∈ visited then AreRelatedRel.scan uin_2 relationship rest q visited
      else AreRelatedRel.scan uin_2 relationship rest (q ++ [pair.1]) (setInsert pair.1 visited)
    else AreRelatedRel.scan uin_2 relationship rest q visited

/-- The `while` loop of lines 99-117. -/
def AreRelatedRel.loop (relations_ : AdjMap (Int × String)) (uin_2 : Int) (relationship : String) :
    Nat → List Int → List Int → Res Bool
  | _, [], _ => .ok false
  | 0, _ :: _, _ => .outOfFuel
  | fuel + 1, current :: q, visited =>
    match find relations_ current with
    | none => .outOfRange
    | some adj =>
      match AreRelatedRel.scan uin_2 relationship adj q visited with
      | .ret b => .ok b
      | .next (q', visited') => AreRelatedRel.loop relations_ uin_2 relationship fuel q' visited'

/-- The method `AreRelated(int, int, const std::string&)`. -/
def AreRelatedRel (g : IlliniBook) (uin_1 uin_2 : Int) (relationship : String) : Res Bool :=
  if uin_1 = uin_2 then .ok true
  else if (find g.relations_ uin_1).isNone || (find g.relations_ uin_2).isNone then .ok false
  else AreRelatedRel.loop g.relations_ uin_2 relationship (fuelOf g) [uin_1] (setInsert uin_1 [])

/-! ### `GetRelated(uin_1, uin_2)` -/

/-- The value of an `int` expression whose mathematical value is `x`: the
32-bit two's complement wrap-around (what the compiled addition yields
when the sum leaves the range of `int`). -/
def wrapInt (x : Int) : Int := (x + 2147483648) % 4294967296 - 2147483648

/-- The `for` loop of lines 140-147; `dist` is the `int` distance of the
dequeued node, the state is (queue of (node, distance), visited). -/
def GetRelated.scan (uin_2 : Int) (dist : Int) :
    List (Int × String) → List (Int × Int) → List Int → Step Int (List (Int × Int) × List Int)
  | [], q, visited => .next (q, visited)
  | pair :: rest, q, visited =>
    if pair.1 = uin_2 then .ret (wrapInt (dist + 1))
    else if pair.1 ∈ visited then GetRelated.scan uin_2 dist rest q visited
    else GetRelated.scan uin_2 dist rest (q ++ [(pair.1, wrapInt (dist + 1))])
      (setInsert pair.1 visited)

/-- The `while` loop of lines 135-148. -/
def GetRelated.loop (relations_ : AdjMap (Int × String)) (uin_2 : Int) :
    Nat → List (Int × Int) → List Int → Res Int
  | _, [], _ => .ok (-1)
  | 0, _ :: _, _ => .outOfFuel
  | fuel + 1, (current, dist) :: q, visited =>
    match find relations_ current with
    | none => .outOfRange
    | some adj =>
      match GetRelated.scan uin_2 dist adj q visited with
      | .ret d => .ok d
      | .next (q', visited') => GetRelated.loop relations_ uin_2 fuel q' visited'

/-- The method `GetRelated(int, int)`. -/
def GetRelated (g : IlliniBook) (uin_1 uin_2 : Int) : Res Int :=
  if uin_1 = uin_2 then .ok 0
  else if (find g.relations_ uin_1).isNone || (find g.relations_ uin_2).isNone then .ok (-1)
  else GetRelated.loop g.relations_ uin_2 (fuelOf g) [(uin_1, 0)] (setInsert uin_1 [])

/-! ### `GetRelated(uin_1, uin_2, relationship)` -/

/-- The `for` loop of lines 170-179; `dist` is the `int` distance of the
dequeued node. -/
def GetRelatedRel.scan (uin_2 : Int) (relationship : String) (dist : Int) :
    List (Int × String) → List (Int × Int) → List Int → Step Int (List (Int × Int) × List Int)
  | [], q, visited => .next (q, visited)
  | pair :: rest, q, visited =>
    if pair.2 = relationship then
      if pair.1 = uin_2 then .ret (wrapInt (dist + 1))
      else if pair.1 ∈ visited then GetRelatedRel.scan uin_2 relationship dist rest q visited
      else GetRelatedRel.scan uin_2 relationship dist rest
        (q ++ [(pair.1, wrapInt (dist + 1))]) (setInsert pair.1 visited)
    else GetRelatedRel.scan uin_2 relationship dist rest q visited

/-- The `while` loop of lines 165-180. -/
def GetRelatedRel.loop (relations_ : AdjMap (Int × String)) (uin_2 : Int) (relationship : String) :
    Nat → List (Int × Int) → List Int → Res Int
  | _, [], _ => .ok (-1)
  | 0, _ :: _, _ => .outOfFuel
  | fuel + 1, (current, dist) :: q, visited =>
    match find relations_ current with
    | none => .outOfRange
    | some adj =>
      match GetRelatedRel.scan uin_2 relationship dist adj q visited with
      | .ret d => .ok d
      | .next (q', visited') => GetRelatedRel.loop relations_ uin_2 relationship fuel q' visited'

/-- The method `GetRelated(int, int, const std::string&)`. -/
def GetRelatedRel (g : IlliniBook) (uin_1 uin_2 : Int) (relationship : String) : Res Int :=
  if uin_1 = uin_2 then .ok 0
  else if (find g.relations_ uin_1).isNone || (find g.relations_ uin_2).isNone then .ok (-1)
  else GetRelatedRel.loop g.relations_ uin_2 relationship (fuelOf g) [(uin_1, 0)]
    (setInsert uin_1 [])

/-! ### `GetSteps(uin, n)` -/

/-- The `for` loop of lines 204-209. -/
def GetSteps.scan (depth : Nat) :
    List (Int × String) → List (Int × Nat) → List Int → List (Int × Nat) × List Int
  | [], q, visited => (q, visited)
  | relation :: rest, q, visited =>
    if relation.1 ∈ visited then GetSteps.scan depth rest q visited
    else GetSteps.scan depth rest (q ++ [(relation.1, depth + 1)]) (setInsert relation.1 visited)

/-- The `while` loop of lines 193-210; the state is (queue, visited, result). -/
def GetSteps.loop (relations_ : AdjMap (Int × String)) (n : Int) :
    Nat → List (Int × Nat) → List Int → List Int → Res (List Int)
  | _, [], _, result => .ok result
  | 0, _ :: _, _, _ => .outOfFuel
  | fuel + 1, (current, depth) :: q, visited, result =>
    if (depth : Int) = n then GetSteps.loop relations_ n fuel q visited (result ++ [current])
    else
      match find relations_ current with
      | none => .outOfRange
      | some adj =>
        GetSteps.loop relations_ n fuel (GetSteps.scan depth adj q visited).1
          (GetSteps.scan depth adj q visited).2 result

/-- The method `GetSteps(int, int)`. -/
def GetSteps (g : IlliniBook) (uin : Int) (n : Int) : Res (List Int) :=
  if (find g.relations_ uin).isNone || n < 0 then .ok []
  else
    match GetSteps.loop g.relations_ n (fuelOf g) [(uin, 0)] (setInsert uin []) [] with
    | .ok result => if n = 0 then .ok [uin] else .ok result
    | .outOfRange => .outOfRange
    | .outOfFuel => .outOfFuel

/-! ### `CountGroups()` -/

/-- The node set `all_nodes` of lines 220-229: every key of `relations_`,
every neighbor stored under it, and every listed person. -/
def CountGroups.allNodes (g : IlliniBook) : List Int :=
  g.people_.foldl (fun all_nodes node => setInsert node all_nodes)
    (g.relations_.foldl
      (fun all_nodes rel =>
        rel.2.foldl (fun all_nodes edge => setInsert edge.1 all_nodes) (setInsert rel.1 all_nodes))
      [])

/-- The `for` loop of lines 243-248; the state is (queue, visited). -/
def CountGroups.scan : List (Int × String) → List Int → List Int → List Int × List Int
  | [], queue, visited => (queue, visited)
  | relation :: rest, queue, visited =>
    if relation.1 ∈ visited then CountGroups.scan rest queue visited
    else CountGroups.scan rest (queue ++ [relation.1]) (setInsert relation.1 visited)

/-- The `while` loop of lines 237-250; it returns the visited set. -/
def CountGroups.bfs (relations_ : AdjMap (Int × String)) :
    Nat → List Int → List Int → Res (List Int)
  | _, [], visited => .ok visited
  | 0, _ :: _, _ => .outOfFuel
  | fuel + 1, current :: queue, visited =>
    match find relations_ current with
    | none => CountGroups.bfs relations_ fuel queue visited
    | some adj =>
      CountGroups.bfs relations_ fuel (CountGroups.scan adj queue visited).1
        (CountGroups.scan adj queue visited).2

/-- The `for` loop of lines 230-252 over `all_nodes`; the state is
(visited, number_of_groups). -/
def CountGroups.outer (relations_ : AdjMap (Int × String)) (fuel : Nat) :
    List Int → List Int → Nat → Res Nat
  | [], _, number_of_groups => .ok number_of_groups
  | node :: rest, visited, number_of_groups =>
    if node ∈ visited then CountGroups.outer relations_ fuel rest visited number_of_groups
    else
      match CountGroups.bfs relations_ fuel [node] (setInsert node visited) with
      | .ok visited' => CountGroups.outer relations_ fuel rest visited' (number_of_groups + 1)
      | .outOfRange => .outOfRange
      | .outOfFuel => .outOfFuel

/-- The method `CountGroups()`. -/
def CountGroups (g : IlliniBook) : Res Nat :=
  CountGroups.outer g.relations_ (fuelOf g) (CountGroups.allNodes g) [] 0

/-! ### `CountGroups(relationship)` -/

/-- The expression `m[k]` used as a value: the entry of `k` is created
empty when it is missing. -/
def touch {β : Type} : AdjMap β → Int → AdjMap β
  | [], k => [(k, [])]
  | (k', vs) :: rest, k =>
    if k = k' then (k', vs) :: rest
    else if k < k' then (k, []) :: (k', vs) :: rest
    else (k', vs) :: touch rest k

/-- The map `connections_by_relationship` built by lines 262-271. -/
def CountGroupsRel.connections (relations_ : AdjMap (Int × String)) (relationship : String) :
    AdjMap Int :=
  relations_.foldl
    (fun conn pair =>
      pair.2.foldl
        (fun conn rel =>
          if rel.2 = relationship then pushBack (pushBack conn pair.1 rel.1) rel.1 pair.1
          else conn)
        conn)
    []

/-- The `for` loop of lines 286-291; the state is (queue, visited). -/
def CountGroupsRel.scan : List Int → List Int → List Int → List Int × List Int
  | [], queue, visited => (queue, visited)
  | neighbor :: rest, queue, visited =>
    if neighbor ∈ visited then CountGroupsRel.scan rest queue visited
    else CountGroupsRel.scan rest (queue ++ [neighbor]) (setInsert neighbor visited)

/-- The `while` loop of lines 281-292; the state is (connections, queue,
visited), it returns the map and the visited set. -/
def CountGroupsRel.bfs : Nat → AdjMap Int → List Int → List Int → Res (AdjMap Int × List Int)
  | _, conn, [], visited => .ok (conn, visited)
  | 0, _, _ :: _, _ => .outOfFuel
  | fuel + 1, conn, current :: queue, visited =>
    CountGroupsRel.bfs fuel (touch conn current)
      (CountGroupsRel.scan ((find (touch conn current) current).getD []) queue visited).1
      (CountGroupsRel.scan ((find (touch conn current) current).getD []) queue visited).2

/-- The `for` loop of lines 274-294 over `people_`; the state is
(connections, visited, number_of_groups). -/
def CountGroupsRel.outer (fuel : Nat) : List Int → AdjMap Int → List Int → Nat → Res Nat
  | [], _, _, number_of_groups => .ok number_of_groups
  | uin :: rest, conn, visited, number_of_groups =>
    if uin ∈ visited then CountGroupsRel.outer fuel rest conn visited number_of_groups
    else
      match CountGroupsRel.bfs fuel conn [uin] (setInsert uin visited) with
      | .ok (conn', visited') => CountGroupsRel.outer fuel rest conn' visited' (number_of_groups + 1)
      | .outOfRange => .outOfRange
      | .outOfFuel => .outOfFuel

/-- The method `CountGroups(const std::string&)`. -/
def CountGroupsRel (g : IlliniBook) (relationship : String) : Res Nat :=
  CountGroupsRel.outer (fuelOf g) g.people_
    (CountGroupsRel.connections g.relations_ relationship) [] 0

/-! ### `CountGroups(relationships)` -/

/-- The `for` loop of lines 317-327; the state is (processing_queue,
visited_nodes). -/
def CountGroupsRels.scan (relationships : List String) :
    List (Int × String) → List Int → List Int → List Int × List Int
  | [], processing_queue, visited_nodes => (processing_queue, visited_nodes)
  | relation :: rest, processing_queue, visited_nodes =>
    if relation.1 ∉ visited_nodes ∧ relation.2 ∈ relationships then
      CountGroupsRels.scan relationships rest (processing_queue ++ [relation.1])
        (setInsert relation.1 visited_nodes)
    else CountGroupsRels.scan relationships rest processing_queue visited_nodes

/-- The `while` loop of lines 311-329; it returns the visited set. -/
def CountGroupsRels.bfs (relations_ : AdjMap (Int × String)) (relationships : List String) :
    Nat → List Int → List Int → Res (List Int)
  | _, [], visited_nodes => .ok visited_nodes
  | 0, _ :: _, _ => .outOfFuel
  | fuel + 1, current_node :: processing_queue, visited_nodes =>
    match find relations_ current_node with
    | none => CountGroupsRels.bfs relations_ relationships fuel processing_queue visited_nodes
    | some adj =>
      CountGroupsRels.bfs relations_ relationships fuel
        (CountGroupsRels.scan relationships adj processing_queue visited_nodes).1
        (CountGroupsRels.scan relationships adj processing_queue visited_nodes).2

/-- The `for` loop of lines 304-331 over `people_`; the state is
(visited_nodes, group_count). -/
def CountGroupsRels.outer (relations_ : AdjMap (Int × String)) (relationships : List String)
    (fuel : Nat) : List Int → List Int → Nat → Res Nat
  | [], _, group_count => .ok group_count
  | unique_id :: rest, visited_nodes, group_count =>
    if unique_id ∈ visited_nodes then
      CountGroupsRels.outer relations_ relationships fuel rest visited_nodes group_count
    else
      match CountGroupsRels.bfs relations_ relationships fuel [unique_id]
          (setInsert unique_id visited_nodes) with
      | .ok visited' =>
        CountGroupsRels.outer relations_ relationships fuel rest visited' (group_count + 1)
      | .outOfRange => .outOfRange
      | .outOfFuel => .outOfFuel

/-- The method `CountGroups(const std::vector<std::string>&)`. -/
def CountGroupsRels (g : IlliniBook) (relationships : List String) : Res Nat :=
  CountGroupsRels.outer g.relations_ relationships (fuelOf g) g.people_ [] 0

/-! ## Specification side: walks over the declared edges -/

/-- Two persons are adjacent when some declared triple joins them, in either
order, with a label accepted by `keep`. -/
def Adj (triples : List (Int × Int × String)) (keep : String → Prop) (a b : Int) : Prop :=
  ∃ l, keep l ∧ ((a, b, l) ∈ triples ∨ (b, a, l) ∈ triples)

/-- The proposition `Walk E a n b`: there is a sequence of `n` edges of `E` leading from `a` to
`b`. -/
inductive Walk (E : Int → Int → Prop) (a : Int) : Nat → Int → Prop where
  | nil : Walk E a 0 a
  | snoc {n : Nat} {b c : Int} : Walk E a n b → E b c → Walk E a (n + 1) c

/-- Some path leads from `a` to `b`. -/
def Reach (E : Int → Int → Prop) (a b : Int) : Prop := ∃ n, Walk E a n b

/-- The shortest path from `a` to `b` has exactly `d` edges. -/
def Dist (E : Int → Int → Prop) (a b : Int) (d : Nat) : Prop :=
  Walk E a d b ∧ ∀ m, Walk E a m b → d ≤ m

/-- Every label is accepted: the unfiltered queries. -/
def anyLabel : String → Prop := fun _ => True

/-- Only the label `rel` is accepted: the single-relationship queries. -/
def onlyLabel (rel : String) : String → Prop := fun l => l = rel

/-- The labels of the collection `rels` are accepted. -/
def inLabels (rels : List String) : String → Prop := fun l => l ∈ rels

/-- The ID `p` has an entry in the adjacency map. -/
def hasEntry (g : IlliniBook) (p : Int) : Prop := (find g.relations_ p).isSome = true

instance (g : IlliniBook) (p : Int) : Decidable (hasEntry g p) := by
  unfold hasEntry
  infer_instance

/-- The node universe of the unfiltered group count: listed persons and
endpoints of declared triples. -/
def isNode (people : List Int) (triples : List (Int × Int × String)) (v : Int) : Prop :=
  v ∈ people ∨ ∃ t ∈ triples, v = t.1 ∨ v = t.2.1

/-- The list `reps` holds exactly one member of every class of the members of `nodes`
under the equivalence `R`. -/
def IsRepSystem (R : Int → Int → Prop) (nodes : Int → Prop) (reps : List Int) : Prop :=
  (∀ r ∈ reps, nodes r) ∧ reps.Pairwise (fun a b => ¬ R a b) ∧ ∀ v, nodes v → ∃ r ∈ reps, R r v

/-! ## One breadth-first search for all queries

The loops of the eight methods are instances of a single search over a
neighbor function, with an optional target test and an optional depth at
which nodes are collected instead of expanded.  The invariants are proved
once, for this search. -/

namespace Bfs

/-- What the search ends with: a target found at some depth, or the
frontier exhausted with a visited set and the collected nodes. -/
inductive Out where
  | found (k : Nat)
  | done (visited : List Int) (result : List Int)

/-- The neighbors `ns` of a node of depth `d` are looked at in turn. -/
def scan (tgt : Int → Bool) (d : Nat) :
    List Int → List (Int × Nat) → List Int → Step Nat (List (Int × Nat) × List Int)
  | [], q, V => .next (q, V)
  | w :: rest, q, V =>
    if tgt w then .ret (d + 1)
    else if w ∈ V then scan tgt d rest q V
    else scan tgt d rest (q ++ [(w, d + 1)]) (setInsert w V)

/-- The search itself. -/
def loop (N : Int → Option (List Int)) (tgt : Int → Bool) (stop : Nat → Bool) :
    Nat → List (Int × Nat) → List Int → List Int → Res Out
  | _, [], V, res => .ok (.done V res)
  | 0, _ :: _, _, _ => .outOfFuel
  | fuel + 1, (u, d) :: q, V, res =>
    if stop d then loop N tgt stop fuel q V (res ++ [u])
    else
      match N u with
      | none => .outOfRange
      | some ns =>
        match scan tgt d ns q V with
        | .ret k => .ok (.found k)
        | .next (q', V') => loop N tgt stop fuel q' V' res

/-- Number of members of `U` that are not yet visited. -/
def unseen (U V : List Int) : Nat := (U.filter (fun x => decide (x ∉ V))).length

/-- The facts about the graph that the search relies on. -/
structure Graph (E : Int → Int → Prop) (N : Int → Option (List Int)) (U V0 : List Int) : Prop where
  nbr : ∀ u ns, N u = some ns → ∀ w, w ∈ ns ↔ E u w
  entry : ∀ u w, E u w → (N w).isSome = true
  univ : ∀ u w, E u w → w ∈ U
  closed : ∀ v ∈ V0, ∀ w, E v w → w ∈ V0

/-- The invariant of the search from `s`, while the neighbors `pend` of the
node `cur` of depth `d` are still to be looked at. -/
structure Inv (E : Int → Int → Prop) (N : Int → Option (List Int)) (tgt : Int → Bool)
    (stop : Nat → Bool) (s : Int) (V0 : List Int) (cur : Int) (pend : List Int) (d : Nat)
    (q : List (Int × Nat)) (V res : List Int) : Prop where
  src : s ∈ V
  base : ∀ v ∈ V0, v ∈ V
  notgt : ∀ v ∈ V, tgt v = false
  cover : ∀ v ∈ V, v ∈ V0 ∨ (∃ k, (v, k) ∈ q) ∨ v ∈ res ∨
    ∃ k, Dist E s v k ∧ stop k = false ∧ ∀ w, E v w → w ∈ V ∨ (v = cur ∧ w ∈ pend)
  queue : ∀ v k, (v, k) ∈ q →
    v ∈ V ∧ Dist E s v k ∧ d ≤ k ∧ k ≤ d + 1 ∧ (∀ j, j < k → stop j = false) ∧ (N v).isSome = true
  sorted : q.Pairwise (fun a b => a.2 ≤ b.2)
  result : ∀ x ∈ res, ∃ k, Dist E s x k ∧ stop k = true
  pending : ∀ w ∈ pend, E cur w ∧ Dist E s cur d ∧ stop d = false
  below : ∀ j, j < d → stop j = false

/-- What a finished search guarantees. -/
def Post (E : Int → Int → Prop) (N : Int → Option (List Int)) (tgt : Int → Bool)
    (stop : Nat → Bool) (s : Int) (V0 : List Int) : Out → Prop
  | .found k => ∃ t, tgt t = true ∧ Dist E s t k
  | .done V res => ∃ cur d, Inv E N tgt stop s V0 cur [] d [] V res

end Bfs

/-! ## Auxiliary notions for the adjacency map -/

/-- The keys of the map are strictly increasing. -/
def KeySorted {β : Type} (m : AdjMap β) : Prop := m.Pairwise (fun a b => a.1 < b.1)

/-- An entry after appending `l` to it: it stays missing when nothing is appended. -/
def extendWith {β : Type} (o : Option (List β)) : List β → Option (List β)
  | [] => o
  | x :: l => some (o.getD [] ++ x :: l)

/-- The half-edges leaving `p`, in declaration order: for each triple
`(a, b, label)` first `a -> (b, label)`, then `b -> (a, label)`. -/
def halfEdgesOf (p : Int) : List (Int × Int × String) → List (Int × String)
  | [] => []
  | t :: ts =>
    (if t.1 = p then [(t.2.1, t.2.2)] else []) ++ (if t.2.1 = p then [(t.1, t.2.2)] else [])
      ++ halfEdgesOf p ts

/-- The keys of the map, in order. -/
def keysOf {β : Type} (m : AdjMap β) : List Int := m.map Prod.fst

/-- The nodes that the loop over `relations_.at(u)` reaches through a
half-edge whose label passes `keep`; nothing when `u` has no entry. -/
def nbrsAt (relations_ : AdjMap (Int × String)) (keep : String → Bool) (u : Int) :
    Option (List Int) :=
  (find relations_ u).map (fun adj => (adj.filter (fun pair => keep pair.2)).map Prod.fst)

/-- The same behind the guard `relations_.find(u) != relations_.end()`: a
node without entry has no neighbor. -/
def nbrsOf (relations_ : AdjMap (Int × String)) (keep : String → Bool) (u : Int) :
    Option (List Int) :=
  some ((((find relations_ u).getD []).filter (fun pair => keep pair.2)).map Prod.fst)

/-- The neighbors read from `connections_by_relationship[u]`. -/
def connNbrs (conn : AdjMap Int) (u : Int) : Option (List Int) := some ((find conn u).getD [])

/-- The search result read as the result of `GetRelated`. -/
def distOut : Res Bfs.Out → Res Int
  | .ok (.found k) => .ok (k : Int)
  | .ok (.done _ _) => .ok (-1)
  | .outOfRange => .outOfRange
  | .outOfFuel => .outOfFuel

/-- The search result read as the result of `AreRelated`. -/
def boolOut : Res Bfs.Out → Res Bool
  | .ok (.found _) => .ok true
  | .ok (.done _ _) => .ok false
  | .outOfRange => .outOfRange
  | .outOfFuel => .outOfFuel

/-- The search result read as the result list of the loop of `GetSteps`. -/
def stepsOut : Res Bfs.Out → Res (List Int)
  | .ok (.found _) => .ok []
  | .ok (.done _ res) => .ok res
  | .outOfRange => .outOfRange
  | .outOfFuel => .outOfFuel

/-- The search result read as the visited set of a component search. -/
def visitedOut : Res Bfs.Out → Res (List Int)
  | .ok (.found _) => .ok []
  | .ok (.done V _) => .ok V
  | .outOfRange => .outOfRange
  | .outOfFuel => .outOfFuel

/-- A `for` loop result with its returned value converted. -/
def Step.mapRet {ρ ρ' σ : Type} (f : ρ → ρ') : Step ρ σ → Step ρ' σ
  | .ret r => .ret (f r)
  | .next s => .next s

/-- A `for` loop result over a queue with depths, with the depths erased. -/
def Step.erase {ρ : Type} : Step ρ (List (Int × Nat) × List Int) → Step ρ (List Int × List Int)
  | .ret r => .ret r
  | .next s => .next (s.1.map Prod.fst, s.2)

/-- The component count shared by the three `CountGroups` methods: every
seed that is not visited yet starts a search and counts for one group. -/
def componentCount (N : Int → Option (List Int)) (fuel : Nat) : List Int → List Int → Nat → Res Nat
  | [], _, n => .ok n
  | s :: rest, V, n =>
    if s ∈ V then componentCount N fuel rest V n
    else
      match visitedOut (Bfs.loop N (fun _ => false) (fun _ => false) fuel [(s, 0)]
          (setInsert s V) []) with
      | .ok V' => componentCount N fuel rest V' (n + 1)
      | .outOfRange => .outOfRange
      | .outOfFuel => .outOfFuel

/-- A result with its value converted. -/
def Res.map {α β : Type} (f : α → β) : Res α → Res β
  | .ok a => .ok (f a)
  | .outOfRange => .outOfRange
  | .outOfFuel => .outOfFuel

/-- The half-edges declared by the triples, as (source, neighbor, label), in
declaration order: each triple `(a, b, label)` gives `a -> (b, label)`
followed by `b -> (a, label)`. -/
def halfEdges : List (Int × Int × String) → List (Int × Int × String)
  | [] => []
  | t :: ts => (t.1, t.2.1, t.2.2) :: (t.2.1, t.1, t.2.2) :: halfEdges ts

/-- The declared half-edges whose source is `p`, as (neighbor, label) pairs,
in declaration order and with repetitions. -/
def declaredFrom (p : Int) (ts : List (Int × Int × String)) : List (Int × String) :=
  ((halfEdges ts).filter (fun h => decide (h.1 = p))).map (fun h => h.2)

/-- A queue entry of the search with its depth kept in 32 bits. -/
def wrapEntry (e : Int × Nat) : Int × Int := (e.1, wrapInt (e.2 : Int))

/-- A `for` loop result of the search with its depths kept in 32 bits. -/
def Step.wrap : Step Nat (List (Int × Nat) × List Int) → Step Int (List (Int × Int) × List Int)
  | .ret k => .ret (wrapInt (k : Int))
  | .next s => .next (s.1.map wrapEntry, s.2)

/-- The ID fits the type `int`. -/
def isInt (x : Int) : Prop := -2147483648 ≤ x ∧ x ≤ 2147483647

instance (x : Int) : Decidable (isInt x) := by
  unfold isInt
  infer_instance

/-- The path of `n` edges labelled "e" through the consecutive IDs `a`,
`a + 1`, ..., `a + n`. -/
def pathFrom (a : Int) : Nat → List (Int × Int × String)
  | 0 => []
  | n + 1 => (a, a + 1, "e") :: pathFrom (a + 1) n

/-! ## Sets and walks -/

theorem mem_setInsert (a x : Int) (l : List Int) : a ∈ setInsert x l ↔ a = x ∨ a ∈ l := by
  induction l with
  | nil => simp [setInsert]
  | cons y ys ih =>
    unfold setInsert
    by_cases h1 : x = y
    · subst h1
      simp
    · by_cases h2 : x < y
      · simp [h1, h2]
      · simp only [h1, h2, if_false, List.mem_cons, ih]
        tauto

theorem unseen_setInsert_le (U V : List Int) (w : Int) :
    Bfs.unseen U (setInsert w V) ≤ Bfs.unseen U V := by
  induction U with
  | nil => simp [Bfs.unseen]
  | cons u us ih =>
    simp only [Bfs.unseen, List.filter_cons] at ih ⊢
    by_cases h1 : u ∈ V
    · have h2 : u ∈ setInsert w V := (mem_setInsert u w V).2 (Or.inr h1)
      simpa [h1, h2] using ih
    · by_cases h2 : u ∈ setInsert w V
      · simp only [h1, h2, not_true_eq_false, not_false_eq_true, decide_True, decide_False,
          if_true, List.length_cons]
        simp only [Bool.false_eq_true, if_false]
        omega
      · simpa [h1, h2] using ih

theorem unseen_setInsert_lt (U V : List Int) (w : Int) (hU : w ∈ U) (hV : w ∉ V) :
    Bfs.unseen U (setInsert w V) < Bfs.unseen U V := by
  induction U with
  | nil => simp at hU
  | cons u us ih =>
    have hle := unseen_setInsert_le us V w
    simp only [Bfs.unseen, List.filter_cons] at ih hle ⊢
    by_cases huw : u = w
    · subst huw
      have h2 : u ∈ setInsert u V := (mem_setInsert u u V).2 (Or.inl rfl)
      simp only [hV, h2, not_true_eq_false, not_false_eq_true, decide_True, decide_False,
        if_true, List.length_cons]
      simp only [Bool.false_eq_true, if_false]
      omega
    · have hU2 : w ∈ us := by
        rcases List.mem_cons.1 hU with h | h
        · exact absurd h.symm huw
        · exact h
      have ih2 := ih hU2
      by_cases h1 : u ∈ V
      · have h2 : u ∈ setInsert w V := (mem_setInsert u w V).2 (Or.inr h1)
        simpa [h1, h2] using ih2
      · have h2 : u ∉ setInsert w V := by
          intro h
          rcases (mem_setInsert u w V).1 h with h | h
          · exact huw h
          · exact h1 h
        simpa [h1, h2] using ih2

theorem unseen_le_length (U V : List Int) : Bfs.unseen U V ≤ U.length := by
  unfold Bfs.unseen
  exact List.length_filter_le _ _

theorem Walk.zero_eq {E : Int → Int → Prop} {a b : Int} (h : Walk E a 0 b) : b = a := by
  cases h
  rfl

theorem Walk.cons {E : Int → Int → Prop} {a b c : Int} {n : Nat} (h1 : E a b)
    (h2 : Walk E b n c) : Walk E a (n + 1) c := by
  induction h2 with
  | nil => exact Walk.snoc Walk.nil h1
  | snoc _ he ih => exact Walk.snoc ih he

theorem Walk.reverse {E : Int → Int → Prop} (hs : ∀ x y, E x y → E y x) {a b : Int} {n : Nat}
    (h : Walk E a n b) : Walk E b n a := by
  induction h with
  | nil => exact Walk.nil
  | snoc _ he ih => exact Walk.cons (hs _ _ he) ih

theorem Walk.append {E : Int → Int → Prop} {a b c : Int} {n m : Nat} (h1 : Walk E a n b)
    (h2 : Walk E b m c) : Walk E a (n + m) c := by
  induction h2 with
  | nil => exact h1
  | snoc _ he ih => exact Walk.snoc ih he

theorem Walk.mono {E F : Int → Int → Prop} (hEF : ∀ x y, E x y → F x y) {a b : Int} {n : Nat}
    (h : Walk E a n b) : Walk F a n b := by
  induction h with
  | nil => exact Walk.nil
  | snoc _ he ih => exact Walk.snoc ih (hEF _ _ he)

/-- A walk can be shortened to a shortest one. -/
theorem Walk.exists_dist {E : Int → Int → Prop} {a b : Int} {n : Nat} (h : Walk E a n b) :
    ∃ d, d ≤ n ∧ Dist E a b d := by
  classical
  have hex : ∃ m, Walk E a m b := ⟨n, h⟩
  refine ⟨Nat.find hex, Nat.find_min' hex h, Nat.find_spec hex, ?_⟩
  intro m hm
  exact Nat.find_min' hex hm

theorem Dist.unique {E : Int → Int → Prop} {a b : Int} {d e : Nat} (h1 : Dist E a b d)
    (h2 : Dist E a b e) : d = e :=
  Nat.le_antisymm (h1.2 e h2.1) (h2.2 d h1.1)

theorem Dist.zero_iff {E : Int → Int → Prop} {a b : Int} : Dist E a b 0 ↔ b = a := by
  constructor
  · intro h
    exact h.1.zero_eq
  · intro h
    subst h
    exact ⟨Walk.nil, fun m _ => Nat.zero_le m⟩

/-- The node before the last on a shortest path is at distance one less. -/
theorem Dist.pred {E : Int → Int → Prop} {a c : Int} {k : Nat} (h : Dist E a c (k + 1)) :
    ∃ b, Dist E a b k ∧ E b c := by
  obtain ⟨hw, hmin⟩ := h
  cases hw with
  | snoc hb he =>
    refine ⟨_, ⟨hb, ?_⟩, he⟩
    intro m hm
    have := hmin (m + 1) (Walk.snoc hm he)
    omega

theorem Dist.swap {E : Int → Int → Prop} (hs : ∀ x y, E x y → E y x) {a b : Int} {d : Nat}
    (h : Dist E a b d) : Dist E b a d :=
  ⟨h.1.reverse hs, fun m hm => h.2 m (hm.reverse hs)⟩

theorem Reach.refl (E : Int → Int → Prop) (a : Int) : Reach E a a := ⟨0, Walk.nil⟩

theorem Reach.inv {E : Int → Int → Prop} (hs : ∀ x y, E x y → E y x) {a b : Int}
    (h : Reach E a b) : Reach E b a := by
  obtain ⟨n, hn⟩ := h
  exact ⟨n, hn.reverse hs⟩

theorem Reach.trans {E : Int → Int → Prop} {a b c : Int} (h1 : Reach E a b) (h2 : Reach E b c) :
    Reach E a c := by
  obtain ⟨n, hn⟩ := h1
  obtain ⟨m, hm⟩ := h2
  exact ⟨n + m, hn.append hm⟩

theorem Reach.step {E : Int → Int → Prop} {a b c : Int} (h1 : Reach E a b) (h2 : E b c) :
    Reach E a c := by
  obtain ⟨n, hn⟩ := h1
  exact ⟨n + 1, Walk.snoc hn h2⟩

theorem Adj.symm {triples : List (Int × Int × String)} {keep : String → Prop} (x y : Int)
    (h : Adj triples keep x y) : Adj triples keep y x := by
  obtain ⟨l, hk, h⟩ := h
  exact ⟨l, hk, h.symm⟩

/-! ## The invariant of the search -/

namespace Bfs

variable {E : Int → Int → Prop} {N : Int → Option (List Int)} {tgt : Int → Bool}
  {stop : Nat → Bool} {s : Int} {U V0 : List Int}

/-- Every node whose distance lies below the depths still in the queue has
been visited. -/
theorem Inv.complete {cur : Int} {pend : List Int} {d : Nat} {q : List (Int × Nat)}
    {V res : List Int} (G : Graph E N U V0) (I : Inv E N tgt stop s V0 cur pend d q V res) :
    ∀ k, (∀ v k', (v, k') ∈ q → k ≤ k') → (pend ≠ [] → k ≤ d) →
      (∀ j, j < k → stop j = false) → ∀ w, Dist E s w k → w ∈ V := by
  intro k
  induction k with
  | zero =>
    intro _ _ _ w hw
    rw [Dist.zero_iff.1 hw]
    exact I.src
  | succ k ih =>
    intro hq hp hs w hw
    obtain ⟨u, hu, huw⟩ := hw.pred
    have huV : u ∈ V :=
      ih (fun v k' h => by have := hq v k' h; omega) (fun h => by have := hp h; omega)
        (fun j hj => hs j (by omega)) u hu
    rcases I.cover u huV with h | ⟨k', h⟩ | h | ⟨k', _, _, h⟩
    · exact I.base w (G.closed u h w huw)
    · have h1 := hu.unique (I.queue u k' h).2.1
      have h2 := hq u k' h
      omega
    · obtain ⟨k', hd, hst⟩ := I.result u h
      have h1 := hu.unique hd
      subst h1
      have h2 := hs k (by omega)
      rw [h2] at hst
      exact absurd hst (by simp)
    · rcases h w huw with h | ⟨hc, hm⟩
      · exact h
      · have hne : pend ≠ [] := by
          intro h0
          rw [h0] at hm
          simp at hm
        have h1 := (I.pending w hm).2.1
        subst hc
        have h2 := hu.unique h1
        have h3 := hp hne
        omega

/-- A neighbor of the current node that is not visited yet is one step
further than the current node. -/
theorem Inv.new_dist {cur w : Int} {pend : List Int} {d : Nat} {q : List (Int × Nat)}
    {V res : List Int} (G : Graph E N U V0)
    (I : Inv E N tgt stop s V0 cur (w :: pend) d q V res) (hw : w ∉ V) : Dist E s w (d + 1) := by
  obtain ⟨hE, hD, _⟩ := I.pending w (List.mem_cons_self _ _)
  obtain ⟨m, hm, hDm⟩ := (Walk.snoc hD.1 hE).exists_dist
  by_cases h : m ≤ d
  · exfalso
    apply hw
    exact I.complete G m (fun v k' h' => by have := (I.queue v k' h').2.2.1; omega) (fun _ => h)
      (fun j hj => I.below j (by omega)) w hDm
  · have h1 : m = d + 1 := by omega
    subst h1
    exact hDm

theorem Inv.seen {cur w : Int} {pend : List Int} {d : Nat} {q : List (Int × Nat)}
    {V res : List Int} (I : Inv E N tgt stop s V0 cur (w :: pend) d q V res) (hw : w ∈ V) :
    Inv E N tgt stop s V0 cur pend d q V res where
  src := I.src
  base := I.base
  notgt := I.notgt
  cover := by
    intro v hv
    rcases I.cover v hv with h | h | h | ⟨k, h1, h2, h3⟩
    · exact Or.inl h
    · exact Or.inr (Or.inl h)
    · exact Or.inr (Or.inr (Or.inl h))
    · refine Or.inr (Or.inr (Or.inr ⟨k, h1, h2, ?_⟩))
      intro x hx
      rcases h3 x hx with h | ⟨hc, hm⟩
      · exact Or.inl h
      · rcases List.mem_cons.1 hm with h | h
        · subst h
          exact Or.inl hw
        · exact Or.inr ⟨hc, h⟩
  queue := I.queue
  sorted := I.sorted
  result := I.result
  pending := fun x hx => I.pending x (List.mem_cons_of_mem _ hx)
  below := I.below

theorem Inv.visit {cur w : Int} {pend : List Int} {d : Nat} {q : List (Int × Nat)}
    {V res : List Int} (G : Graph E N U V0)
    (I : Inv E N tgt stop s V0 cur (w :: pend) d q V res) (hw : w ∉ V) (ht : tgt w = false) :
    Inv E N tgt stop s V0 cur pend d (q ++ [(w, d + 1)]) (setInsert w V) res where
  src := (mem_setInsert _ _ _).2 (Or.inr I.src)
  base := fun v hv => (mem_setInsert _ _ _).2 (Or.inr (I.base v hv))
  notgt := by
    intro v hv
    rcases (mem_setInsert _ _ _).1 hv with h | h
    · subst h
      exact ht
    · exact I.notgt v h
  cover := by
    intro v hv
    rcases (mem_setInsert _ _ _).1 hv with h | h
    · subst h
      exact Or.inr (Or.inl ⟨d + 1, by simp⟩)
    · rcases I.cover v h with h | ⟨k, h⟩ | h | ⟨k, h1, h2, h3⟩
      · exact Or.inl h
      · exact Or.inr (Or.inl ⟨k, by simp [h]⟩)
      · exact Or.inr (Or.inr (Or.inl h))
      · refine Or.inr (Or.inr (Or.inr ⟨k, h1, h2, ?_⟩))
        intro x hx
        rcases h3 x hx with h | ⟨hc, hm⟩
        · exact Or.inl ((mem_setInsert _ _ _).2 (Or.inr h))
        · rcases List.mem_cons.1 hm with h | h
          · subst h
            exact Or.inl ((mem_setInsert _ _ _).2 (Or.inl rfl))
          · exact Or.inr ⟨hc, h⟩
  queue := by
    intro v k hvk
    rcases List.mem_append.1 hvk with h | h
    · obtain ⟨h1, h2⟩ := I.queue v k h
      exact ⟨(mem_setInsert _ _ _).2 (Or.inr h1), h2⟩
    · have h0 : (v, k) = (w, d + 1) := by simpa using h
      obtain ⟨hv, hk⟩ := Prod.mk.inj h0
      subst hv
      subst hk
      obtain ⟨hE, _, hst⟩ := I.pending v (List.mem_cons_self _ _)
      refine ⟨(mem_setInsert _ _ _).2 (Or.inl rfl), I.new_dist G hw, by omega, by omega, ?_,
        G.entry cur v hE⟩
      intro j hj
      by_cases h1 : j = d
      · subst h1
        exact hst
      · exact I.below j (by omega)
  sorted := by
    rw [List.pairwise_append]
    refine ⟨I.sorted, List.pairwise_singleton _ _, ?_⟩
    intro a ha b hb
    have h0 : b = (w, d + 1) := by simpa using hb
    subst h0
    have := (I.queue a.1 a.2 ha).2.2.2.1
    exact this
  result := I.result
  pending := fun x hx => I.pending x (List.mem_cons_of_mem _ hx)
  below := I.below

theorem Inv.pop_expand {cur u : Int} {d k : Nat} {q : List (Int × Nat)} {V res ns : List Int}
    (G : Graph E N U V0) (I : Inv E N tgt stop s V0 cur [] d ((u, k) :: q) V res)
    (hst : stop k = false) (hN : N u = some ns) : Inv E N tgt stop s V0 u ns k q V res where
  src := I.src
  base := I.base
  notgt := I.notgt
  cover := by
    intro v hv
    rcases I.cover v hv with h | ⟨k', h⟩ | h | ⟨k', h1, h2, h3⟩
    · exact Or.inl h
    · rcases List.mem_cons.1 h with h | h
      · obtain ⟨hv, hk⟩ := Prod.mk.inj h
        subst hv
        subst hk
        refine Or.inr (Or.inr (Or.inr ⟨k', (I.queue v k' (List.mem_cons_self _ _)).2.1, hst, ?_⟩))
        intro x hx
        exact Or.inr ⟨rfl, (G.nbr v ns hN x).2 hx⟩
      · exact Or.inr (Or.inl ⟨k', h⟩)
    · exact Or.inr (Or.inr (Or.inl h))
    · refine Or.inr (Or.inr (Or.inr ⟨k', h1, h2, ?_⟩))
      intro x hx
      rcases h3 x hx with h | ⟨_, hm⟩
      · exact Or.inl h
      · simp at hm
  queue := by
    intro v k' hvk
    obtain ⟨h1, h2, h3, h4, h5, h6⟩ := I.queue v k' (List.mem_cons_of_mem _ hvk)
    have hd := (I.queue u k (List.mem_cons_self _ _)).2.2.1
    have hs := (List.pairwise_cons.1 I.sorted).1 (v, k') hvk
    simp only at hs
    exact ⟨h1, h2, hs, by omega, h5, h6⟩
  sorted := (List.pairwise_cons.1 I.sorted).2
  result := I.result
  pending := by
    intro x hx
    exact ⟨(G.nbr u ns hN x).1 hx, (I.queue u k (List.mem_cons_self _ _)).2.1, hst⟩
  below := (I.queue u k (List.mem_cons_self _ _)).2.2.2.2.1

theorem Inv.pop_stop {cur u : Int} {d k : Nat} {q : List (Int × Nat)} {V res : List Int}
    (I : Inv E N tgt stop s V0 cur [] d ((u, k) :: q) V res) (hst : stop k = true) :
    Inv E N tgt stop s V0 u [] k q V (res ++ [u]) where
  src := I.src
  base := I.base
  notgt := I.notgt
  cover := by
    intro v hv
    rcases I.cover v hv with h | ⟨k', h⟩ | h | ⟨k', h1, h2, h3⟩
    · exact Or.inl h
    · rcases List.mem_cons.1 h with h | h
      · obtain ⟨hv, _⟩ := Prod.mk.inj h
        subst hv
        exact Or.inr (Or.inr (Or.inl (by simp)))
      · exact Or.inr (Or.inl ⟨k', h⟩)
    · exact Or.inr (Or.inr (Or.inl (by simp [h])))
    · refine Or.inr (Or.inr (Or.inr ⟨k', h1, h2, ?_⟩))
      intro x hx
      rcases h3 x hx with h | ⟨_, hm⟩
      · exact Or.inl h
      · simp at hm
  queue := by
    intro v k' hvk
    obtain ⟨h1, h2, h3, h4, h5, h6⟩ := I.queue v k' (List.mem_cons_of_mem _ hvk)
    have hd := (I.queue u k (List.mem_cons_self _ _)).2.2.1
    have hs := (List.pairwise_cons.1 I.sorted).1 (v, k') hvk
    simp only at hs
    exact ⟨h1, h2, hs, by omega, h5, h6⟩
  sorted := (List.pairwise_cons.1 I.sorted).2
  result := by
    intro x hx
    rcases List.mem_append.1 hx with h | h
    · exact I.result x h
    · have h0 : x = u := by simpa using h
      subst h0
      exact ⟨k, (I.queue x k (List.mem_cons_self _ _)).2.1, hst⟩
  pending := by
    intro x hx
    simp at hx
  below := (I.queue u k (List.mem_cons_self _ _)).2.2.2.2.1

theorem Inv.init (hs : tgt s = false) (h0 : ∀ v ∈ V0, tgt v = false)
    (hN : (N s).isSome = true) :
    Inv E N tgt stop s V0 s [] 0 [(s, 0)] (setInsert s V0) [] where
  src := (mem_setInsert _ _ _).2 (Or.inl rfl)
  base := fun v hv => (mem_setInsert _ _ _).2 (Or.inr hv)
  notgt := by
    intro v hv
    rcases (mem_setInsert _ _ _).1 hv with h | h
    · subst h
      exact hs
    · exact h0 v h
  cover := by
    intro v hv
    rcases (mem_setInsert _ _ _).1 hv with h | h
    · subst h
      exact Or.inr (Or.inl ⟨0, by simp⟩)
    · exact Or.inl h
  queue := by
    intro v k hvk
    have h0 : (v, k) = (s, 0) := by simpa using hvk
    obtain ⟨hv, hk⟩ := Prod.mk.inj h0
    subst hv
    subst hk
    exact ⟨(mem_setInsert _ _ _).2 (Or.inl rfl), Dist.zero_iff.2 rfl, Nat.le_refl _, by omega,
      fun j hj => absurd hj (Nat.not_lt_zero j), hN⟩
  sorted := List.pairwise_singleton _ _
  result := by
    intro x hx
    simp at hx
  pending := by
    intro x hx
    simp at hx
  below := fun j hj => absurd hj (Nat.not_lt_zero j)

theorem scan_spec (G : Graph E N U V0) {cur : Int} {d F : Nat} {res : List Int} :
    ∀ (pend : List Int) (q : List (Int × Nat)) (V : List Int),
      Inv E N tgt stop s V0 cur pend d q V res → q.length + unseen U V ≤ F →
      (∀ k, scan tgt d pend q V = .ret k → ∃ t, tgt t = true ∧ Dist E s t k) ∧
      (∀ q' V', scan tgt d pend q V = .next (q', V') →
        Inv E N tgt stop s V0 cur [] d q' V' res ∧ q'.length + unseen U V' ≤ F) := by
  intro pend
  induction pend with
  | nil =>
    intro q V I hF
    constructor
    · intro k h
      simp [scan] at h
    · intro q' V' h
      simp only [scan, Step.next.injEq, Prod.mk.injEq] at h
      obtain ⟨h1, h2⟩ := h
      subst h1
      subst h2
      exact ⟨I, hF⟩
  | cons w rest ih =>
    intro q V I hF
    by_cases ht : tgt w = true
    · have hw : w ∉ V := by
        intro hw
        have := I.notgt w hw
        rw [this] at ht
        exact absurd ht (by simp)
      constructor
      · intro k h
        simp only [scan, ht, if_true, Step.ret.injEq] at h
        subst h
        exact ⟨w, ht, I.new_dist G hw⟩
      · intro q' V' h
        simp [scan, ht] at h
    · have ht' : tgt w = false := by simpa using ht
      by_cases hw : w ∈ V
      · have h1 : scan tgt d (w :: rest) q V = scan tgt d rest q V := by
          simp [scan, ht', hw]
        rw [h1]
        exact ih q V (I.seen hw) hF
      · have h1 : scan tgt d (w :: rest) q V
            = scan tgt d rest (q ++ [(w, d + 1)]) (setInsert w V) := by
          simp [scan, ht', hw]
        rw [h1]
        refine ih _ _ (I.visit G hw ht') ?_
        have hU : w ∈ U := G.univ cur w (I.pending w (List.mem_cons_self _ _)).1
        have := unseen_setInsert_lt U V w hU hw
        simp only [List.length_append, List.length_singleton]
        omega

theorem loop_spec (G : Graph E N U V0) :
    ∀ (fuel : Nat) (cur : Int) (d : Nat) (q : List (Int × Nat)) (V res : List Int),
      Inv E N tgt stop s V0 cur [] d q V res → q.length + unseen U V ≤ fuel →
      ∃ out, loop N tgt stop fuel q V res = .ok out ∧ Post E N tgt stop s V0 out := by
  intro fuel
  induction fuel with
  | zero =>
    intro cur d q V res I hF
    cases q with
    | nil => exact ⟨.done V res, by simp [loop], cur, d, I⟩
    | cons a q => simp at hF
  | succ fuel ih =>
    intro cur d q V res I hF
    cases q with
    | nil => exact ⟨.done V res, by simp [loop], cur, d, I⟩
    | cons a q =>
      obtain ⟨u, k⟩ := a
      simp only [List.length_cons] at hF
      by_cases hst : stop k = true
      · have h1 : loop N tgt stop (fuel + 1) ((u, k) :: q) V res
            = loop N tgt stop fuel q V (res ++ [u]) := by
          simp [loop, hst]
        rw [h1]
        exact ih u k q V _ (I.pop_stop hst) (by omega)
      · have hst' : stop k = false := by simpa using hst
        have hsome := (I.queue u k (List.mem_cons_self _ _)).2.2.2.2.2
        obtain ⟨ns, hns⟩ := Option.isSome_iff_exists.1 hsome
        have I2 := I.pop_expand G hst' hns
        have hsp := scan_spec G ns q V I2 (F := fuel) (by omega)
        cases hsc : scan tgt k ns q V with
        | ret r =>
          refine ⟨.found r, ?_, hsp.1 r hsc⟩
          simp [loop, hst', hns, hsc]
        | next st =>
          obtain ⟨q', V'⟩ := st
          have h1 : loop N tgt stop (fuel + 1) ((u, k) :: q) V res
              = loop N tgt stop fuel q' V' res := by
            simp [loop, hst', hns, hsc]
          rw [h1]
          obtain ⟨I3, hF3⟩ := hsp.2 q' V' hsc
          exact ih u k q' V' res I3 hF3

/-- A search started from `s` ends, without exhausting a fuel above the
size of the universe and without a failed lookup. -/
theorem run_spec (G : Graph E N U V0) (hs : tgt s = false) (h0 : ∀ v ∈ V0, tgt v = false)
    (hN : (N s).isSome = true) (fuel : Nat) (hF : U.length + 1 ≤ fuel) :
    ∃ out, loop N tgt stop fuel [(s, 0)] (setInsert s V0) [] = .ok out ∧
      Post E N tgt stop s V0 out := by
  refine loop_spec G fuel s 0 _ _ _ (Inv.init hs h0 hN) ?_
  have := unseen_le_length U (setInsert s V0)
  simp only [List.length_singleton]
  omega

/-- Without a collecting depth, an exhausted search has visited exactly the
initial set and what the source reaches. -/
theorem done_reach (G : Graph E N U V0) (hstop : ∀ j, stop j = false) {cur : Int} {d : Nat}
    {V res : List Int} (I : Inv E N tgt stop s V0 cur [] d [] V res) (x : Int) :
    x ∈ V ↔ x ∈ V0 ∨ Reach E s x := by
  constructor
  · intro hx
    rcases I.cover x hx with h | ⟨k, h⟩ | h | ⟨k, h, _⟩
    · exact Or.inl h
    · simp at h
    · obtain ⟨k, _, hk⟩ := I.result x h
      rw [hstop k] at hk
      exact absurd hk (by simp)
    · exact Or.inr ⟨k, h.1⟩
  · intro hx
    rcases hx with h | ⟨n, hn⟩
    · exact I.base x h
    · obtain ⟨m, _, hm⟩ := hn.exists_dist
      refine I.complete G m ?_ (fun h => absurd rfl h) (fun j _ => hstop j) x hm
      intro v k' h
      simp at h

/-- Collecting at depth `n`, an exhausted search has collected exactly the
nodes at distance `n`. -/
theorem done_steps (G : Graph E N U []) (n : Nat) (hstop : ∀ j, stop j = true ↔ j = n)
    {cur : Int} {d : Nat} {V res : List Int} (I : Inv E N tgt stop s [] cur [] d [] V res)
    (x : Int) : x ∈ res ↔ Dist E s x n := by
  constructor
  · intro hx
    obtain ⟨k, hk, hst⟩ := I.result x hx
    rw [(hstop k).1 hst] at hk
    exact hk
  · intro hx
    have hV : x ∈ V := by
      refine I.complete G n ?_ (fun h => absurd rfl h) ?_ x hx
      · intro v k' h
        simp at h
      · intro j hj
        by_contra hc
        have := (hstop j).1 (by simpa using hc)
        omega
    rcases I.cover x hV with h | ⟨k, h⟩ | h | ⟨k, h, hk, _⟩
    · simp at h
    · simp at h
    · exact h
    · have := hx.unique h
      subst this
      rw [(hstop n).2 rfl] at hk
      exact absurd hk (by simp)

end Bfs

/-! ## The adjacency map -/

theorem find_eq_none_of_lt {β : Type} (m : AdjMap β) (k : Int) (h : ∀ e ∈ m, k < e.1) :
    find m k = none := by
  induction m with
  | nil => rfl
  | cons e rest ih =>
    obtain ⟨k', vs⟩ := e
    have h1 : k < k' := h (k', vs) (List.mem_cons_self _ _)
    have h2 : k ≠ k' := by omega
    simp only [find, h2, if_false]
    exact ih (fun e he => h e (List.mem_cons_of_mem _ he))

theorem find_isSome_iff {β : Type} (m : AdjMap β) (k : Int) :
    (find m k).isSome = true ↔ k ∈ m.map Prod.fst := by
  induction m with
  | nil => simp [find]
  | cons e rest ih =>
    obtain ⟨k', vs⟩ := e
    by_cases h : k = k'
    · simp [find, h]
    · simp [find, h, ih]

theorem find_pushBack {β : Type} (m : AdjMap β) (hm : KeySorted m) (k : Int) (x : β) (p : Int) :
    find (pushBack m k x) p = if p = k then some ((find m k).getD [] ++ [x]) else find m p := by
  induction m with
  | nil => simp [find, pushBack]
  | cons e rest ih =>
    obtain ⟨k', vs⟩ := e
    have hs := List.pairwise_cons.1 hm
    by_cases h1 : k = k'
    · subst h1
      by_cases h2 : p = k <;> simp [find, pushBack, h2]
    · by_cases h2 : k < k'
      · have h3 : find ((k', vs) :: rest) k = none := by
          apply find_eq_none_of_lt
          intro e he
          rcases List.mem_cons.1 he with h | h
          · rw [h]
            exact h2
          · have := hs.1 e h
            simp only at this
            omega
        by_cases h4 : p = k
        · subst h4
          simp only [find, h1, if_false] at h3
          simp [pushBack, h1, h2, h3, find]
        · simp [pushBack, h1, h2, find, h4]
      · have ih2 := ih hs.2
        by_cases h4 : p = k
        · subst h4
          simp [pushBack, h1, h2, find, ih2]
        · by_cases h5 : p = k'
          · have h6 : ¬ k' = k := fun h => h1 h.symm
            simp [pushBack, h1, h2, find, h5, h6]
          · simp [pushBack, h1, h2, find, h4, h5, ih2]

theorem key_of_mem_pushBack {β : Type} (m : AdjMap β) (k : Int) (x : β) (e : Int × List β)
    (he : e ∈ pushBack m k x) : e.1 = k ∨ ∃ e' ∈ m, e'.1 = e.1 := by
  induction m with
  | nil =>
    simp only [pushBack, List.mem_singleton] at he
    subst he
    exact Or.inl rfl
  | cons a rest ih =>
    obtain ⟨k', vs⟩ := a
    by_cases h1 : k = k'
    · subst h1
      simp only [pushBack, if_true, List.mem_cons] at he
      rcases he with h | h
      · subst h
        exact Or.inl rfl
      · exact Or.inr ⟨e, List.mem_cons_of_mem _ h, rfl⟩
    · by_cases h2 : k < k'
      · simp only [pushBack, h1, h2, if_true, if_false, List.mem_cons] at he
        rcases he with h | h | h
        · subst h
          exact Or.inl rfl
        · subst h
          exact Or.inr ⟨(k', vs), List.mem_cons_self _ _, rfl⟩
        · exact Or.inr ⟨e, List.mem_cons_of_mem _ h, rfl⟩
      · simp only [pushBack, h1, h2, if_false, List.mem_cons] at he
        rcases he with h | h
        · subst h
          exact Or.inr ⟨(k', vs), List.mem_cons_self _ _, rfl⟩
        · rcases ih h with h | ⟨e', he', h⟩
          · exact Or.inl h
          · exact Or.inr ⟨e', List.mem_cons_of_mem _ he', h⟩

theorem keySorted_pushBack {β : Type} (m : AdjMap β) (hm : KeySorted m) (k : Int) (x : β) :
    KeySorted (pushBack m k x) := by
  induction m with
  | nil => simp [pushBack, KeySorted]
  | cons a rest ih =>
    obtain ⟨k', vs⟩ := a
    have hs := List.pairwise_cons.1 hm
    by_cases h1 : k = k'
    · subst h1
      simp only [pushBack, if_true]
      exact List.pairwise_cons.2 ⟨hs.1, hs.2⟩
    · by_cases h2 : k < k'
      · simp only [pushBack, h1, h2, if_true, if_false]
        refine List.pairwise_cons.2 ⟨?_, hm⟩
        intro e he
        rcases List.mem_cons.1 he with h | h
        · subst h
          exact h2
        · have := hs.1 e h
          simp only at this ⊢
          omega
      · simp only [pushBack, h1, h2, if_false]
        refine List.pairwise_cons.2 ⟨?_, ih hs.2⟩
        intro e he
        rcases key_of_mem_pushBack rest k x e he with h | ⟨e', he', h⟩
        · simp only
          omega
        · have := hs.1 e' he'
          simp only at this ⊢
          omega

theorem extendWith_append {β : Type} (o : Option (List β)) (l1 l2 : List β) :
    extendWith (extendWith o l1) l2 = extendWith o (l1 ++ l2) := by
  cases l1 with
  | nil => simp [extendWith]
  | cons a l1 =>
    cases l2 with
    | nil => simp [extendWith]
    | cons b l2 => simp [extendWith]

theorem find_addRelation (m : AdjMap (Int × String)) (hm : KeySorted m) (t : Int × Int × String)
    (p : Int) : find (addRelation m t) p = extendWith (find m p) (halfEdgesOf p [t]) := by
  unfold addRelation
  rw [find_pushBack _ (keySorted_pushBack m hm _ _), find_pushBack m hm, find_pushBack m hm]
  by_cases h1 : p = t.2.1
  · by_cases h2 : p = t.1
    · subst h2
      simp [halfEdgesOf, extendWith, ← h1]
    · have h3 : ¬ t.2.1 = t.1 := fun h => h2 (h1.trans h)
      have h4 : ¬ t.1 = p := fun h => h2 h.symm
      simp [halfEdgesOf, extendWith, h1, h3, h4]
      subst h1
      simp [halfEdgesOf, extendWith, h3, h4]
  · have h1' : ¬ t.2.1 = p := fun h => h1 h.symm
    by_cases h2 : p = t.1
    · subst h2
      simp [halfEdgesOf, extendWith, h1, h1']
    · have h4 : ¬ t.1 = p := fun h => h2 h.symm
      simp [halfEdgesOf, extendWith, h1, h1', h2, h4]

theorem keySorted_addRelation (m : AdjMap (Int × String)) (hm : KeySorted m)
    (t : Int × Int × String) : KeySorted (addRelation m t) :=
  keySorted_pushBack _ (keySorted_pushBack m hm _ _) _ _

theorem halfEdgesOf_cons (p : Int) (t : Int × Int × String) (ts : List (Int × Int × String)) :
    halfEdgesOf p (t :: ts) = halfEdgesOf p [t] ++ halfEdgesOf p ts := by
  simp [halfEdgesOf]

theorem find_foldl_addRelation (ts : List (Int × Int × String)) :
    ∀ (m : AdjMap (Int × String)), KeySorted m → ∀ p,
      find (ts.foldl addRelation m) p = extendWith (find m p) (halfEdgesOf p ts) := by
  induction ts with
  | nil =>
    intro m _ p
    simp [halfEdgesOf, extendWith]
  | cons t ts ih =>
    intro m hm p
    rw [List.foldl_cons, ih _ (keySorted_addRelation m hm t), find_addRelation m hm,
      extendWith_append, ← halfEdgesOf_cons]

theorem keySorted_foldl_addRelation (ts : List (Int × Int × String)) :
    ∀ (m : AdjMap (Int × String)), KeySorted m → KeySorted (ts.foldl addRelation m) := by
  induction ts with
  | nil =>
    intro m hm
    exact hm
  | cons t ts ih =>
    intro m hm
    rw [List.foldl_cons]
    exact ih _ (keySorted_addRelation m hm t)

theorem keySorted_build (people : List Int) (ts : List (Int × Int × String)) :
    KeySorted (build people ts).relations_ :=
  keySorted_foldl_addRelation ts [] List.Pairwise.nil

/-- The entry of `p` in the map of a built graph is the list of half-edges leaving
`p`; it is missing when there is none. -/
theorem find_build (people : List Int) (ts : List (Int × Int × String)) (p : Int) :
    find (build people ts).relations_ p = extendWith none (halfEdgesOf p ts) := by
  unfold build
  simp only
  rw [find_foldl_addRelation ts [] List.Pairwise.nil p]
  rfl

theorem mem_halfEdgesOf (p w : Int) (l : String) (ts : List (Int × Int × String)) :
    (w, l) ∈ halfEdgesOf p ts ↔ (p, w, l) ∈ ts ∨ (w, p, l) ∈ ts := by
  induction ts with
  | nil => simp [halfEdgesOf]
  | cons t ts ih =>
    obtain ⟨a, b, c⟩ := t
    simp only [halfEdgesOf, List.mem_append, ih, List.mem_cons, Prod.mk.injEq]
    by_cases h1 : a = p <;> by_cases h2 : b = p <;> simp [h1, h2] <;> tauto

theorem build_find_some {people : List Int} {ts : List (Int × Int × String)} {u : Int}
    {adj : List (Int × String)} (h : find (build people ts).relations_ u = some adj) (w : Int)
    (l : String) : (w, l) ∈ adj ↔ (u, w, l) ∈ ts ∨ (w, u, l) ∈ ts := by
  rw [find_build] at h
  rw [← mem_halfEdgesOf]
  cases hh : halfEdgesOf u ts with
  | nil =>
    rw [hh] at h
    simp [extendWith] at h
  | cons a r =>
    rw [hh] at h
    simp only [extendWith, Option.getD_none, List.nil_append, Option.some.injEq] at h
    rw [h]

theorem build_find_none {people : List Int} {ts : List (Int × Int × String)} {u : Int}
    (h : find (build people ts).relations_ u = none) (w : Int) (l : String) :
    ¬ ((u, w, l) ∈ ts ∨ (w, u, l) ∈ ts) := by
  rw [find_build] at h
  rw [← mem_halfEdgesOf]
  cases hh : halfEdgesOf u ts with
  | nil => simp
  | cons a r =>
    rw [hh] at h
    simp [extendWith] at h

theorem build_entry {people : List Int} {ts : List (Int × Int × String)} {u w : Int} {l : String}
    (h : (u, w, l) ∈ ts ∨ (w, u, l) ∈ ts) : (find (build people ts).relations_ u).isSome = true := by
  cases hf : find (build people ts).relations_ u with
  | none => exact absurd h (build_find_none hf w l)
  | some adj => rfl

/-! ## The built graph as a search graph -/

theorem keysOf_length {β : Type} (m : AdjMap β) : (keysOf m).length = m.length := by
  simp [keysOf]

theorem adj_entry (people : List Int) {ts : List (Int × Int × String)} {keep : String → Prop}
    {u w : Int} (h : Adj ts keep u w) :
    (find (build people ts).relations_ u).isSome = true ∧
      (find (build people ts).relations_ w).isSome = true := by
  obtain ⟨l, _, h⟩ := h
  exact ⟨build_entry h, build_entry h.symm⟩

theorem mem_nbrs_iff {people : List Int} {ts : List (Int × Int × String)} {keepB : String → Bool}
    {keep : String → Prop} (hk : ∀ l, keepB l = true ↔ keep l) {u : Int}
    {adj : List (Int × String)} (h : find (build people ts).relations_ u = some adj) (w : Int) :
    w ∈ (adj.filter (fun pair => keepB pair.2)).map Prod.fst ↔ Adj ts keep u w := by
  simp only [List.mem_map, List.mem_filter, Prod.exists, exists_and_right, exists_eq_right]
  constructor
  · rintro ⟨l, hl, hkl⟩
    exact ⟨l, (hk l).1 hkl, (build_find_some h w l).1 hl⟩
  · rintro ⟨l, hkl, hl⟩
    exact ⟨l, (build_find_some h w l).2 hl, (hk l).2 hkl⟩

theorem graph_nbrsAt (people : List Int) (ts : List (Int × Int × String)) (keepB : String → Bool)
    (keep : String → Prop) (hk : ∀ l, keepB l = true ↔ keep l) (V0 : List Int)
    (hV0 : ∀ v ∈ V0, ∀ w, Adj ts keep v w → w ∈ V0) :
    Bfs.Graph (Adj ts keep) (nbrsAt (build people ts).relations_ keepB)
      (keysOf (build people ts).relations_) V0 where
  nbr := by
    intro u ns hns w
    unfold nbrsAt at hns
    cases hf : find (build people ts).relations_ u with
    | none =>
      rw [hf] at hns
      simp at hns
    | some adj =>
      rw [hf] at hns
      simp only [Option.map_some', Option.some.injEq] at hns
      subst hns
      exact mem_nbrs_iff hk hf w
  entry := by
    intro u w h
    unfold nbrsAt
    rw [Option.isSome_map']
    exact (adj_entry people h).2
  univ := by
    intro u w h
    exact (find_isSome_iff _ _).1 (adj_entry people h).2
  closed := hV0

theorem graph_nbrsOf (people : List Int) (ts : List (Int × Int × String)) (keepB : String → Bool)
    (keep : String → Prop) (hk : ∀ l, keepB l = true ↔ keep l) (V0 : List Int)
    (hV0 : ∀ v ∈ V0, ∀ w, Adj ts keep v w → w ∈ V0) :
    Bfs.Graph (Adj ts keep) (nbrsOf (build people ts).relations_ keepB)
      (keysOf (build people ts).relations_) V0 where
  nbr := by
    intro u ns hns w
    unfold nbrsOf at hns
    simp only [Option.some.injEq] at hns
    subst hns
    cases hf : find (build people ts).relations_ u with
    | none =>
      simp only [Option.getD_none, List.filter_nil, List.map_nil, List.not_mem_nil, false_iff]
      rintro ⟨l, _, hl⟩
      exact build_find_none hf w l hl
    | some adj =>
      simp only [Option.getD_some]
      exact mem_nbrs_iff hk hf w
  entry := by
    intro u w _
    rfl
  univ := by
    intro u w h
    exact (find_isSome_iff _ _).1 (adj_entry people h).2
  closed := hV0

/-- Two distinct nodes joined by a path both touch an edge. -/
theorem Reach.ends {E : Int → Int → Prop} (hs : ∀ x y, E x y → E y x) {a b : Int}
    (h : Reach E a b) (hne : a ≠ b) : (∃ c, E a c) ∧ (∃ c, E b c) := by
  have key : ∀ {x y : Int} {n : Nat}, Walk E x n y → x ≠ y → ∃ c, E y c := by
    intro x y n hw hxy
    cases hw with
    | nil => exact absurd rfl hxy
    | snoc _ he => exact ⟨_, hs _ _ he⟩
  obtain ⟨n, hn⟩ := h
  exact ⟨key (hn.reverse hs) (Ne.symm hne), key hn hne⟩

theorem not_reach_of_no_entry {people : List Int} {ts : List (Int × Int × String)}
    {keep : String → Prop} {a b : Int} (hne : a ≠ b)
    (h : (find (build people ts).relations_ a).isNone = true ∨
      (find (build people ts).relations_ b).isNone = true) : ¬ Reach (Adj ts keep) a b := by
  intro hr
  obtain ⟨⟨c, hc⟩, ⟨e, he⟩⟩ := hr.ends Adj.symm hne
  have h1 := (adj_entry people hc).1
  have h2 := (adj_entry people he).1
  rcases h with h | h
  · rw [Option.isNone_iff_eq_none] at h
    rw [h] at h1
    simp at h1
  · rw [Option.isNone_iff_eq_none] at h
    rw [h] at h2
    simp at h2

/-- The search of the distance and connectivity queries, on a built graph:
it ends, with the target found at its distance or with no path to it. -/
theorem search_target (people : List Int) (ts : List (Int × Int × String)) (keepB : String → Bool)
    (keep : String → Prop) (hk : ∀ l, keepB l = true ↔ keep l) (p1 p2 : Int) (hne : p1 ≠ p2)
    (h1 : (find (build people ts).relations_ p1).isSome = true) :
    ∃ out, Bfs.loop (nbrsAt (build people ts).relations_ keepB) (fun w => decide (w = p2))
        (fun _ => false) (fuelOf (build people ts)) [(p1, 0)] (setInsert p1 []) [] = .ok out ∧
      ((∃ k, out = .found k ∧ Dist (Adj ts keep) p1 p2 k) ∨
        (∃ V res, out = .done V res ∧ ¬ Reach (Adj ts keep) p1 p2)) := by
  have G := graph_nbrsAt people ts keepB keep hk [] (by simp)
  obtain ⟨out, hout, hpost⟩ := @Bfs.run_spec _ _ (fun w => decide (w = p2))
    (fun _ => false) p1 _ _ G (by simpa using hne) (by simp)
    (by unfold nbrsAt; rw [Option.isSome_map']; exact h1) (fuelOf (build people ts))
    (by rw [keysOf_length]; rfl)
  refine ⟨out, hout, ?_⟩
  cases out with
  | found k =>
    obtain ⟨t, ht, hd⟩ := hpost
    have : t = p2 := by simpa using ht
    subst this
    exact Or.inl ⟨k, rfl, hd⟩
  | done V res =>
    obtain ⟨cur, d, I⟩ := hpost
    refine Or.inr ⟨V, res, rfl, ?_⟩
    intro hr
    have hV : p2 ∈ V := (Bfs.done_reach G (fun _ => rfl) I p2).2 (Or.inr hr)
    have := I.notgt p2 hV
    simp at this

/-! ## The distance queries are instances of the search -/

theorem wrapInt_succ (x : Int) : wrapInt (wrapInt x + 1) = wrapInt (x + 1) := by
  unfold wrapInt
  omega

theorem wrapInt_of_small (x : Int) (h0 : -2147483648 ≤ x) (h1 : x ≤ 2147483647) :
    wrapInt x = x := by
  unfold wrapInt
  omega

theorem wrapInt_neg_one : wrapInt (-1) = -1 := by
  unfold wrapInt
  omega

theorem wrapInt_range (x : Int) : -2147483648 ≤ wrapInt x ∧ wrapInt x ≤ 2147483647 := by
  unfold wrapInt
  omega

theorem GetRelated_scan_eq (t : Int) (d : Nat) :
    ∀ (adj : List (Int × String)) (q : List (Int × Nat)) (V : List Int),
      GetRelated.scan t (wrapInt (d : Int)) adj (q.map wrapEntry) V = Step.wrap
        (Bfs.scan (fun w => decide (w = t)) d ((adj.filter (fun _ => true)).map Prod.fst) q V) := by
  intro adj
  induction adj with
  | nil =>
    intro q V
    simp [GetRelated.scan, Bfs.scan, Step.wrap]
  | cons pair rest ih =>
    intro q V
    have hw : wrapInt (wrapInt (d : Int) + 1) = wrapInt (((d + 1 : Nat) : Int)) := by
      rw [wrapInt_succ]
      rfl
    by_cases h1 : pair.1 = t
    · simp [GetRelated.scan, Bfs.scan, Step.wrap, h1, hw]
    · by_cases h2 : pair.1 ∈ V
      · simpa [GetRelated.scan, Bfs.scan, h1, h2] using ih q V
      · have h3 := ih (q ++ [(pair.1, d + 1)]) (setInsert pair.1 V)
        simp only [List.map_append, List.map_cons, List.map_nil, wrapEntry] at h3
        rw [← hw] at h3
        simpa [GetRelated.scan, Bfs.scan, h1, h2, wrapEntry] using h3

theorem GetRelated_loop_eq (relations_ : AdjMap (Int × String)) (t : Int) :
    ∀ (fuel : Nat) (q : List (Int × Nat)) (V : List Int),
      GetRelated.loop relations_ t fuel (q.map wrapEntry) V = Res.map wrapInt (distOut
        (Bfs.loop (nbrsAt relations_ (fun _ => true)) (fun w => decide (w = t)) (fun _ => false)
          fuel q V [])) := by
  intro fuel
  induction fuel with
  | zero =>
    intro q V
    cases q with
    | nil => simp [GetRelated.loop, Bfs.loop, distOut, Res.map, wrapInt_neg_one]
    | cons a q => simp [GetRelated.loop, Bfs.loop, distOut, Res.map]
  | succ fuel ih =>
    intro q V
    cases q with
    | nil => simp [GetRelated.loop, Bfs.loop, distOut, Res.map, wrapInt_neg_one]
    | cons a q =>
      obtain ⟨u, d⟩ := a
      cases hf : find relations_ u with
      | none => simp [GetRelated.loop, Bfs.loop, distOut, nbrsAt, hf, Res.map, wrapEntry]
      | some adj =>
        have hs := GetRelated_scan_eq t d adj q V
        cases hb : Bfs.scan (fun w => decide (w = t)) d
            ((adj.filter (fun _ => true)).map Prod.fst) q V with
        | ret k =>
          rw [hb] at hs
          simp only [List.map_cons, wrapEntry, GetRelated.loop, Bfs.loop, nbrsAt, hf,
            Option.map_some', hs, hb, Step.wrap, distOut, Res.map, Bool.false_eq_true, if_false]
        | next st =>
          rw [hb] at hs
          simp only [List.map_cons, wrapEntry, GetRelated.loop, Bfs.loop, nbrsAt, hf,
            Option.map_some', hs, hb, Step.wrap, Bool.false_eq_true, if_false]
          exact ih st.1 st.2

theorem GetRelatedRel_scan_eq (t : Int) (rel : String) (d : Nat) :
    ∀ (adj : List (Int × String)) (q : List (Int × Nat)) (V : List Int),
      GetRelatedRel.scan t rel (wrapInt (d : Int)) adj (q.map wrapEntry) V = Step.wrap
        (Bfs.scan (fun w => decide (w = t)) d
          ((adj.filter (fun pair => decide (pair.2 = rel))).map Prod.fst) q V) := by
  intro adj
  induction adj with
  | nil =>
    intro q V
    simp [GetRelatedRel.scan, Bfs.scan, Step.wrap]
  | cons pair rest ih =>
    intro q V
    have hw : wrapInt (wrapInt (d : Int) + 1) = wrapInt (((d + 1 : Nat) : Int)) := by
      rw [wrapInt_succ]
      rfl
    by_cases h0 : pair.2 = rel
    · by_cases h1 : pair.1 = t
      · simp [GetRelatedRel.scan, Bfs.scan, Step.wrap, h0, h1, hw]
      · by_cases h2 : pair.1 ∈ V
        · simpa [GetRelatedRel.scan, Bfs.scan, h0, h1, h2] using ih q V
        · have h3 := ih (q ++ [(pair.1, d + 1)]) (setInsert pair.1 V)
          simp only [List.map_append, List.map_cons, List.map_nil, wrapEntry] at h3
          rw [← hw] at h3
          simpa [GetRelatedRel.scan, Bfs.scan, h0, h1, h2, wrapEntry] using h3
    · simpa [GetRelatedRel.scan, h0] using ih q V

theorem GetRelatedRel_loop_eq (relations_ : AdjMap (Int × String)) (t : Int) (rel : String) :
    ∀ (fuel : Nat) (q : List (Int × Nat)) (V : List Int),
      GetRelatedRel.loop relations_ t rel fuel (q.map wrapEntry) V = Res.map wrapInt (distOut
        (Bfs.loop (nbrsAt relations_ (fun l => decide (l = rel))) (fun w => decide (w = t))
          (fun _ => false) fuel q V [])) := by
  intro fuel
  induction fuel with
  | zero =>
    intro q V
    cases q with
    | nil => simp [GetRelatedRel.loop, Bfs.loop, distOut, Res.map, wrapInt_neg_one]
    | cons a q => simp [GetRelatedRel.loop, Bfs.loop, distOut, Res.map]
  | succ fuel ih =>
    intro q V
    cases q with
    | nil => simp [GetRelatedRel.loop, Bfs.loop, distOut, Res.map, wrapInt_neg_one]
    | cons a q =>
      obtain ⟨u, d⟩ := a
      cases hf : find relations_ u with
      | none => simp [GetRelatedRel.loop, Bfs.loop, distOut, nbrsAt, hf, Res.map, wrapEntry]
      | some adj =>
        have hs := GetRelatedRel_scan_eq t rel d adj q V
        cases hb : Bfs.scan (fun w => decide (w = t)) d
            ((adj.filter (fun pair => decide (pair.2 = rel))).map Prod.fst) q V with
        | ret k =>
          rw [hb] at hs
          simp only [List.map_cons, wrapEntry, GetRelatedRel.loop, Bfs.loop, nbrsAt, hf,
            Option.map_some', hs, hb, Step.wrap, distOut, Res.map, Bool.false_eq_true, if_false]
        | next st =>
          rw [hb] at hs
          simp only [List.map_cons, wrapEntry, GetRelatedRel.loop, Bfs.loop, nbrsAt, hf,
            Option.map_some', hs, hb, Step.wrap, Bool.false_eq_true, if_false]
          exact ih st.1 st.2

/-- The value of a distance query between distinct persons, for the filter
`keep`: the length of the shortest path, or `-1` when there is none. -/
theorem dist_value (people : List Int) (ts : List (Int × Int × String)) (keepB : String → Bool)
    (keep : String → Prop) (hk : ∀ l, keepB l = true ↔ keep l) (p1 p2 : Int) (hne : p1 ≠ p2)
    (r : Res Int)
    (hr : r = if (find (build people ts).relations_ p1).isNone
          || (find (build people ts).relations_ p2).isNone then .ok (-1)
        else distOut (Bfs.loop (nbrsAt (build people ts).relations_ keepB)
          (fun w => decide (w = p2)) (fun _ => false) (fuelOf (build people ts)) [(p1, 0)]
          (setInsert p1 []) [])) :
    (∃ k : Nat, r = .ok (k : Int) ∧ Dist (Adj ts keep) p1 p2 k) ∨
      (r = .ok (-1) ∧ ¬ Reach (Adj ts keep) p1 p2) := by
  by_cases h : (find (build people ts).relations_ p1).isNone = true ∨
      (find (build people ts).relations_ p2).isNone = true
  · right
    refine ⟨?_, not_reach_of_no_entry hne h⟩
    rw [hr]
    rcases h with h | h <;> simp [h]
  · have h1 : (find (build people ts).relations_ p1).isNone = false := by
      cases hh : (find (build people ts).relations_ p1).isNone
      · rfl
      · exact absurd (Or.inl hh) h
    have h2 : (find (build people ts).relations_ p2).isNone = false := by
      cases hh : (find (build people ts).relations_ p2).isNone
      · rfl
      · exact absurd (Or.inr hh) h
    have h1' : (find (build people ts).relations_ p1).isSome = true := by
      cases hh : find (build people ts).relations_ p1 with
      | none => simp [hh] at h1
      | some a => rfl
    obtain ⟨out, hout, hcase⟩ := search_target people ts keepB keep hk p1 p2 hne h1'
    simp only [h1, h2, Bool.or_self, Bool.false_eq_true, if_false, hout] at hr
    rcases hcase with ⟨k, hk', hd⟩ | ⟨V, res, hk', hn⟩
    · subst hk'
      exact Or.inl ⟨k, hr, hd⟩
    · subst hk'
      exact Or.inr ⟨hr, hn⟩

theorem Dist.pos {E : Int → Int → Prop} {a b : Int} {d : Nat} (h : Dist E a b d) (hne : a ≠ b) :
    1 ≤ d := by
  rcases Nat.eq_zero_or_pos d with h0 | h0
  · subst h0
    exact absurd (Dist.zero_iff.1 h).symm hne
  · exact h0

/-- The two readings of a distance query's value, as equivalences. -/
theorem dist_value_iff {E : Int → Int → Prop} {p1 p2 : Int} (hne : p1 ≠ p2) {r : Res Int}
    (h : (∃ k : Nat, r = .ok (k : Int) ∧ Dist E p1 p2 k) ∨ (r = .ok (-1) ∧ ¬ Reach E p1 p2)) :
    (∃ v, r = .ok v) ∧ (∀ d : Nat, r = .ok (d : Int) ↔ 1 ≤ d ∧ Dist E p1 p2 d) ∧
      (r = .ok (-1) ↔ ¬ Reach E p1 p2) := by
  rcases h with ⟨k, hr, hd⟩ | ⟨hr, hn⟩
  · subst hr
    refine ⟨⟨_, rfl⟩, ?_⟩
    constructor
    · intro d
      constructor
      · intro h
        have : k = d := by
          have := Res.ok.inj h
          exact_mod_cast this
        subst this
        exact ⟨hd.pos hne, hd⟩
      · rintro ⟨_, h⟩
        rw [hd.unique h]
    · constructor
      · intro h
        have := Res.ok.inj h
        omega
      · intro h
        exact absurd ⟨k, hd.1⟩ h
  · subst hr
    refine ⟨⟨_, rfl⟩, ?_⟩
    constructor
    · intro d
      constructor
      · intro h
        have := Res.ok.inj h
        omega
      · rintro ⟨_, h⟩
        exact absurd ⟨d, h.1⟩ hn
    · exact ⟨fun _ => hn, fun _ => rfl⟩

/-! ## The connectivity queries are instances of the search -/

theorem AreRelated_scan_eq (t : Int) (d : Nat) :
    ∀ (adj : List (Int × String)) (q : List (Int × Nat)) (V : List Int),
      AreRelated.scan t adj (q.map Prod.fst) V = Step.erase (Step.mapRet (fun _ : Nat => true)
        (Bfs.scan (fun w => decide (w = t)) d ((adj.filter (fun _ => true)).map Prod.fst) q V)) := by
  intro adj
  induction adj with
  | nil =>
    intro q V
    simp [AreRelated.scan, Bfs.scan, Step.mapRet, Step.erase]
  | cons pair rest ih =>
    intro q V
    by_cases h1 : pair.1 = t
    · simp [AreRelated.scan, Bfs.scan, Step.mapRet, Step.erase, h1]
    · by_cases h2 : pair.1 ∈ V
      · simpa [AreRelated.scan, Bfs.scan, h1, h2] using ih q V
      · simpa [AreRelated.scan, Bfs.scan, h1, h2] using ih (q ++ [(pair.1, d + 1)]) _

theorem AreRelated_loop_eq (relations_ : AdjMap (Int × String)) (t : Int) :
    ∀ (fuel : Nat) (q : List (Int × Nat)) (V : List Int),
      AreRelated.loop relations_ t fuel (q.map Prod.fst) V = boolOut
        (Bfs.loop (nbrsAt relations_ (fun _ => true)) (fun w => decide (w = t)) (fun _ => false)
          fuel q V []) := by
  intro fuel
  induction fuel with
  | zero =>
    intro q V
    cases q with
    | nil => simp [AreRelated.loop, Bfs.loop, boolOut]
    | cons a q => simp [AreRelated.loop, Bfs.loop, boolOut]
  | succ fuel ih =>
    intro q V
    cases q with
    | nil => simp [AreRelated.loop, Bfs.loop, boolOut]
    | cons a q =>
      obtain ⟨u, d⟩ := a
      cases hf : find relations_ u with
      | none => simp [AreRelated.loop, Bfs.loop, boolOut, nbrsAt, hf]
      | some adj =>
        have hs := AreRelated_scan_eq t d adj q V
        cases hb : Bfs.scan (fun w => decide (w = t)) d
            ((adj.filter (fun _ => true)).map Prod.fst) q V with
        | ret k =>
          rw [hb] at hs
          simp only [List.map_cons, AreRelated.loop, Bfs.loop, nbrsAt, hf, Option.map_some', hs,
            hb, Step.mapRet, Step.erase, boolOut, Bool.false_eq_true, if_false]
        | next st =>
          rw [hb] at hs
          simp only [List.map_cons, AreRelated.loop, Bfs.loop, nbrsAt, hf, Option.map_some', hs,
            hb, Step.mapRet, Step.erase, Bool.false_eq_true, if_false]
          exact ih st.1 st.2

theorem AreRelatedRel_scan_eq (t : Int) (rel : String) (d : Nat) :
    ∀ (adj : List (Int × String)) (q : List (Int × Nat)) (V : List Int),
      AreRelatedRel.scan t rel adj (q.map Prod.fst) V = Step.erase
        (Step.mapRet (fun _ : Nat => true) (Bfs.scan (fun w => decide (w = t)) d
          ((adj.filter (fun pair => decide (pair.2 = rel))).map Prod.fst) q V)) := by
  intro adj
  induction adj with
  | nil =>
    intro q V
    simp [AreRelatedRel.scan, Bfs.scan, Step.mapRet, Step.erase]
  | cons pair rest ih =>
    intro q V
    by_cases h0 : pair.2 = rel
    · by_cases h1 : pair.1 = t
      · simp [AreRelatedRel.scan, Bfs.scan, Step.mapRet, Step.erase, h0, h1]
      · by_cases h2 : pair.1 ∈ V
        · simpa [AreRelatedRel.scan, Bfs.scan, h0, h1, h2] using ih q V
        · simpa [AreRelatedRel.scan, Bfs.scan, h0, h1, h2] using ih (q ++ [(pair.1, d + 1)]) _
    · simpa [AreRelatedRel.scan, h0] using ih q V

theorem AreRelatedRel_loop_eq (relations_ : AdjMap (Int × String)) (t : Int) (rel : String) :
    ∀ (fuel : Nat) (q : List (Int × Nat)) (V : List Int),
      AreRelatedRel.loop relations_ t rel fuel (q.map Prod.fst) V = boolOut
        (Bfs.loop (nbrsAt relations_ (fun l => decide (l = rel))) (fun w => decide (w = t))
          (fun _ => false) fuel q V []) := by
  intro fuel
  induction fuel with
  | zero =>
    intro q V
    cases q with
    | nil => simp [AreRelatedRel.loop, Bfs.loop, boolOut]
    | cons a q => simp [AreRelatedRel.loop, Bfs.loop, boolOut]
  | succ fuel ih =>
    intro q V
    cases q with
    | nil => simp [AreRelatedRel.loop, Bfs.loop, boolOut]
    | cons a q =>
      obtain ⟨u, d⟩ := a
      cases hf : find relations_ u with
      | none => simp [AreRelatedRel.loop, Bfs.loop, boolOut, nbrsAt, hf]
      | some adj =>
        have hs := AreRelatedRel_scan_eq t rel d adj q V
        cases hb : Bfs.scan (fun w => decide (w = t)) d
            ((adj.filter (fun pair => decide (pair.2 = rel))).map Prod.fst) q V with
        | ret k =>
          rw [hb] at hs
          simp only [List.map_cons, AreRelatedRel.loop, Bfs.loop, nbrsAt, hf, Option.map_some',
            hs, hb, Step.mapRet, Step.erase, boolOut, Bool.false_eq_true, if_false]
        | next st =>
          rw [hb] at hs
          simp only [List.map_cons, AreRelatedRel.loop, Bfs.loop, nbrsAt, hf, Option.map_some',
            hs, hb, Step.mapRet, Step.erase, Bool.false_eq_true, if_false]
          exact ih st.1 st.2

/-- The value of a connectivity query, for the filter `keep`. -/
theorem bool_value (people : List Int) (ts : List (Int × Int × String)) (keepB : String → Bool)
    (keep : String → Prop) (hk : ∀ l, keepB l = true ↔ keep l) (p1 p2 : Int) (r : Res Bool)
    (hr : r = if p1 = p2 then .ok true
        else if (find (build people ts).relations_ p1).isNone
          || (find (build people ts).relations_ p2).isNone then .ok false
        else boolOut (Bfs.loop (nbrsAt (build people ts).relations_ keepB)
          (fun w => decide (w = p2)) (fun _ => false) (fuelOf (build people ts)) [(p1, 0)]
          (setInsert p1 []) [])) :
    ∃ b, r = .ok b ∧ (b = true ↔ p1 = p2 ∨ Reach (Adj ts keep) p1 p2) := by
  by_cases hne : p1 = p2
  · refine ⟨true, ?_, by simp [hne]⟩
    rw [hr]
    simp [hne]
  · have hd := dist_value people ts keepB keep hk p1 p2 hne _ rfl
    simp only [hne, if_false] at hr
    by_cases h : ((find (build people ts).relations_ p1).isNone
          || (find (build people ts).relations_ p2).isNone) = true
    · simp only [h, if_true] at hr hd
      refine ⟨false, hr, ?_⟩
      rcases hd with ⟨k, hk', _⟩ | ⟨_, hn⟩
      · have := Res.ok.inj hk'
        omega
      · simp [hne, hn]
    · simp only [h, if_false] at hr hd
      cases hl : Bfs.loop (nbrsAt (build people ts).relations_ keepB)
          (fun w => decide (w = p2)) (fun _ => false) (fuelOf (build people ts)) [(p1, 0)]
          (setInsert p1 []) [] with
      | ok out =>
        rw [hl] at hr hd
        cases out with
        | found k =>
          refine ⟨true, hr, ?_⟩
          rcases hd with ⟨k', _, hd⟩ | ⟨hk', _⟩
          · simp only [true_iff]
            exact Or.inr ⟨k', hd.1⟩
          · simp only [distOut] at hk'
            have := Res.ok.inj hk'
            omega
        | done V res =>
          refine ⟨false, hr, ?_⟩
          rcases hd with ⟨k', hk', _⟩ | ⟨_, hn⟩
          · simp only [distOut] at hk'
            have := Res.ok.inj hk'
            omega
          · simp [hne, hn]
      | outOfRange =>
        rw [hl] at hd
        simp [distOut] at hd
      | outOfFuel =>
        rw [hl] at hd
        simp [distOut] at hd

/-! ## The value of the distance queries -/

theorem wrapped_value {E : Int → Int → Prop} {a b : Int} {r r' : Res Int}
    (h : (∃ k : Nat, r' = .ok (k : Int) ∧ Dist E a b k) ∨ (r' = .ok (-1) ∧ ¬ Reach E a b))
    (hr : r = Res.map wrapInt r') :
    (∃ k : Nat, r = .ok (wrapInt (k : Int)) ∧ Dist E a b k) ∨
      (r = .ok (-1) ∧ ¬ Reach E a b) := by
  rcases h with ⟨k, hk, hd⟩ | ⟨hk, hn⟩
  · left
    refine ⟨k, ?_, hd⟩
    rw [hr, hk]
    rfl
  · right
    refine ⟨?_, hn⟩
    rw [hr, hk]
    simp [Res.map, wrapInt_neg_one]

theorem wrapEntry_zero (a : Int) : [(a, (0 : Int))] = [((a, 0) : Int × Nat)].map wrapEntry := by
  simp [wrapEntry, wrapInt]

/-- The value of the unfiltered distance query between distinct persons of
a built graph: the length of the shortest path kept in 32 bits, or `-1`
when there is no path. -/
theorem GetRelated_value (people : List Int) (ts : List (Int × Int × String)) (a b : Int)
    (hne : a ≠ b) :
    (∃ k : Nat, GetRelated (build people ts) a b = .ok (wrapInt (k : Int)) ∧
        Dist (Adj ts anyLabel) a b k) ∨
      (GetRelated (build people ts) a b = .ok (-1) ∧ ¬ Reach (Adj ts anyLabel) a b) := by
  refine wrapped_value
    (dist_value people ts (fun _ => true) anyLabel (by simp [anyLabel]) a b hne _ rfl) ?_
  unfold GetRelated
  simp only [hne, if_false]
  rw [wrapEntry_zero, GetRelated_loop_eq]
  split
  · simp [Res.map, wrapInt_neg_one]
  · rfl

/-- The value of the filtered distance query between distinct persons of a
built graph. -/
theorem GetRelatedRel_value (people : List Int) (ts : List (Int × Int × String)) (rel : String)
    (a b : Int) (hne : a ≠ b) :
    (∃ k : Nat, GetRelatedRel (build people ts) a b rel = .ok (wrapInt (k : Int)) ∧
        Dist (Adj ts (onlyLabel rel)) a b k) ∨
      (GetRelatedRel (build people ts) a b rel = .ok (-1) ∧
        ¬ Reach (Adj ts (onlyLabel rel)) a b) := by
  refine wrapped_value
    (dist_value people ts (fun l => decide (l = rel)) (onlyLabel rel) (by simp [onlyLabel])
      a b hne _ rfl) ?_
  unfold GetRelatedRel
  simp only [hne, if_false]
  rw [wrapEntry_zero, GetRelatedRel_loop_eq]
  split
  · simp [Res.map, wrapInt_neg_one]
  · rfl

/-- A wrapped value read without wrapping, when the distance fits an `int`. -/
theorem unwrapped_value {E : Int → Int → Prop} {a b : Int} {r : Res Int}
    (hfit : ∀ k, Dist E a b k → k ≤ 2147483647)
    (h : (∃ k : Nat, r = .ok (wrapInt (k : Int)) ∧ Dist E a b k) ∨
      (r = .ok (-1) ∧ ¬ Reach E a b)) :
    (∃ k : Nat, r = .ok (k : Int) ∧ Dist E a b k) ∨ (r = .ok (-1) ∧ ¬ Reach E a b) := by
  rcases h with ⟨k, hk, hd⟩ | h
  · left
    refine ⟨k, ?_, hd⟩
    have := hfit k hd
    rw [hk, wrapInt_of_small (k : Int) (by omega) (by omega)]
  · exact Or.inr h

/-! ## Long paths -/

theorem mem_pathFrom (n : Nat) :
    ∀ (a : Int) (t : Int × Int × String),
      t ∈ pathFrom a n → t.2.1 = t.1 + 1 ∧ t.2.2 = "e" := by
  induction n with
  | zero =>
    intro a t h
    simp [pathFrom] at h
  | succ n ih =>
    intro a t h
    simp only [pathFrom, List.mem_cons] at h
    rcases h with h | h
    · subst h
      exact ⟨rfl, rfl⟩
    · exact ih (a + 1) t h

theorem adj_pathFrom {a : Int} {n : Nat} {keep : String → Prop} {x y : Int}
    (h : Adj (pathFrom a n) keep x y) : y ≤ x + 1 := by
  obtain ⟨l, _, h | h⟩ := h
  · have := (mem_pathFrom n a _ h).1
    simp only at this
    omega
  · have := (mem_pathFrom n a _ h).1
    simp only at this
    omega

theorem Walk.climb {E : Int → Int → Prop} (hE : ∀ x y, E x y → y ≤ x + 1) {a b : Int} {m : Nat}
    (h : Walk E a m b) : b ≤ a + m := by
  induction h with
  | nil => simp
  | snoc _ he ih =>
    have := hE _ _ he
    push_cast
    omega

theorem walk_pathFrom (keep : String → Prop) (hk : keep "e") (n : Nat) :
    ∀ a : Int, Walk (Adj (pathFrom a n) keep) a n (a + n) := by
  induction n with
  | zero =>
    intro a
    simpa using (Walk.nil : Walk (Adj (pathFrom a 0) keep) a 0 a)
  | succ n ih =>
    intro a
    have h1 : Adj (pathFrom a (n + 1)) keep a (a + 1) :=
      ⟨"e", hk, Or.inl (by simp [pathFrom])⟩
    have h2 : Walk (Adj (pathFrom a (n + 1)) keep) (a + 1) n (a + 1 + n) := by
      refine (ih (a + 1)).mono ?_
      rintro x y ⟨l, hl, h | h⟩
      · exact ⟨l, hl, Or.inl (by simp [pathFrom, h])⟩
      · exact ⟨l, hl, Or.inr (by simp [pathFrom, h])⟩
    have h3 := Walk.cons h1 h2
    have h4 : a + ((n + 1 : Nat) : Int) = a + 1 + n := by
      push_cast
      omega
    rw [h4]
    exact h3

/-- On the path of `n` edges from `a`, the shortest path from `a` to
`a + n` has `n` edges. -/
theorem dist_pathFrom (keep : String → Prop) (hk : keep "e") (a : Int) (n : Nat) :
    Dist (Adj (pathFrom a n) keep) a (a + n) n := by
  refine ⟨walk_pathFrom keep hk n a, ?_⟩
  intro m hm
  have := hm.climb (fun x y h => adj_pathFrom h)
  omega

/-! ## Distance and connectivity: the claims -/

/-- C1, as stated, fails: on the path of 2147483648 edges through the IDs
-1, 0, ..., 2147483647 the shortest path from -1 to 2147483647 has
2147483648 edges, a number that the `int` distance cannot hold;
`GetRelated(-1, 2147483647)` returns -2147483648. -/
theorem GetRelated_long_path :
    Dist (Adj (pathFrom (-1) 2147483648) anyLabel) (-1) 2147483647 2147483648 ∧
      GetRelated (build [] (pathFrom (-1) 2147483648)) (-1) 2147483647 = .ok (-2147483648) ∧
      GetRelated (build [] (pathFrom (-1) 2147483648)) (-1) 2147483647 ≠ .ok 2147483648 := by
  have hd : Dist (Adj (pathFrom (-1) 2147483648) anyLabel) (-1) 2147483647 2147483648 :=
    dist_pathFrom anyLabel trivial (-1) 2147483648
  have hv : GetRelated (build [] (pathFrom (-1) 2147483648)) (-1) 2147483647
      = .ok (-2147483648) := by
    rcases GetRelated_value [] (pathFrom (-1) 2147483648) (-1) 2147483647 (by omega) with
      ⟨k, hk, hk'⟩ | ⟨_, hn⟩
    · have := hk'.unique hd
      subst this
      rw [hk]
      rfl
    · exact absurd ⟨_, hd.1⟩ hn
  refine ⟨hd, hv, ?_⟩
  rw [hv]
  intro h
  have := Res.ok.inj h
  omega

/-- C1, amended: for a graph built from a person list and triples and IDs
`p1 ≠ p2` whose shortest path, when there is one, has at most 2147483647
edges (it fits the `int` distance): the unfiltered `GetRelated(p1, p2)`
returns; it returns `d ≥ 1` exactly when the shortest path between `p1` and
`p2` over the declared edges has `d` edges, and `-1` exactly when there is no
path. -/
theorem GetRelated_shortest_path (people : List Int) (ts : List (Int × Int × String))
    (p1 p2 : Int) (hne : p1 ≠ p2)
    (hfit : ∀ k, Dist (Adj ts anyLabel) p1 p2 k → k ≤ 2147483647) :
    (∃ v, GetRelated (build people ts) p1 p2 = .ok v) ∧
      (∀ d : Nat, GetRelated (build people ts) p1 p2 = .ok (d : Int) ↔
        1 ≤ d ∧ Dist (Adj ts anyLabel) p1 p2 d) ∧
      (GetRelated (build people ts) p1 p2 = .ok (-1) ↔ ¬ Reach (Adj ts anyLabel) p1 p2) :=
  dist_value_iff hne (unwrapped_value hfit (GetRelated_value people ts p1 p2 hne))

theorem scenario_fits (keep : String → Prop) (hs : keep "sibling") (hf : keep "friend") :
    ∀ k, Dist (Adj [(1, 2, "sibling"), (2, 3, "friend")] keep) 1 3 k → k ≤ 2147483647 := by
  intro k hk
  have h12 : Adj [(1, 2, "sibling"), (2, 3, "friend")] keep 1 2 :=
    ⟨"sibling", hs, Or.inl (by simp)⟩
  have h23 : Adj [(1, 2, "sibling"), (2, 3, "friend")] keep 2 3 :=
    ⟨"friend", hf, Or.inl (by simp)⟩
  have := hk.2 2 (Walk.snoc (Walk.snoc Walk.nil h12) h23)
  omega

theorem GetRelated_shortest_path_witness :
    (1 : Int) ≠ 3 ∧
      (∀ k, Dist (Adj [(1, 2, "sibling"), (2, 3, "friend")] anyLabel) 1 3 k → k ≤ 2147483647) ∧
      ((∃ v, GetRelated (build [1, 2, 3, 4] [(1, 2, "sibling"), (2, 3, "friend")]) 1 3 = .ok v) ∧
        (∀ d : Nat, GetRelated (build [1, 2, 3, 4] [(1, 2, "sibling"), (2, 3, "friend")]) 1 3
            = .ok (d : Int) ↔
          1 ≤ d ∧ Dist (Adj [(1, 2, "sibling"), (2, 3, "friend")] anyLabel) 1 3 d) ∧
        (GetRelated (build [1, 2, 3, 4] [(1, 2, "sibling"), (2, 3, "friend")]) 1 3 = .ok (-1) ↔
          ¬ Reach (Adj [(1, 2, "sibling"), (2, 3, "friend")] anyLabel) 1 3)) :=
  ⟨by decide, scenario_fits anyLabel trivial trivial,
    GetRelated_shortest_path [1, 2, 3, 4] [(1, 2, "sibling"), (2, 3, "friend")] 1 3
      (by decide) (scenario_fits anyLabel trivial trivial)⟩

/-- C2, as stated, fails: on the path of 2147483648 edges labelled "e"
through the IDs -1, 0, ..., 2147483647 the shortest path from -1 to
2147483647 over edges labelled "e" has 2147483648 edges;
`GetRelated(-1, 2147483647, "e")` returns -2147483648. -/
theorem GetRelatedRel_long_path :
    Dist (Adj (pathFrom (-1) 2147483648) (onlyLabel "e")) (-1) 2147483647 2147483648 ∧
      GetRelatedRel (build [] (pathFrom (-1) 2147483648)) (-1) 2147483647 "e"
        = .ok (-2147483648) ∧
      GetRelatedRel (build [] (pathFrom (-1) 2147483648)) (-1) 2147483647 "e"
        ≠ .ok 2147483648 := by
  have hd : Dist (Adj (pathFrom (-1) 2147483648) (onlyLabel "e")) (-1) 2147483647 2147483648 :=
    dist_pathFrom (onlyLabel "e") rfl (-1) 2147483648
  have hv : GetRelatedRel (build [] (pathFrom (-1) 2147483648)) (-1) 2147483647 "e"
      = .ok (-2147483648) := by
    rcases GetRelatedRel_value [] (pathFrom (-1) 2147483648) "e" (-1) 2147483647 (by omega) with
      ⟨k, hk, hk'⟩ | ⟨_, hn⟩
    · have := hk'.unique hd
      subst this
      rw [hk]
      rfl
    · exact absurd ⟨_, hd.1⟩ hn
  refine ⟨hd, hv, ?_⟩
  rw [hv]
  intro h
  have := Res.ok.inj h
  omega

/-- C2, amended: for a graph built from a person list and triples, a label
`rel` and IDs `p1 ≠ p2` whose shortest path over edges labelled `rel`, when
there is one, has at most 2147483647 edges: the filtered
`GetRelated(p1, p2, rel)` returns; it returns `d ≥ 1` exactly when the
shortest path between `p1` and `p2` that uses only edges labelled `rel` has
`d` edges, and `-1` exactly when there is no such path. -/
theorem GetRelatedRel_shortest_path (people : List Int) (ts : List (Int × Int × String))
    (rel : String) (p1 p2 : Int) (hne : p1 ≠ p2)
    (hfit : ∀ k, Dist (Adj ts (onlyLabel rel)) p1 p2 k → k ≤ 2147483647) :
    (∃ v, GetRelatedRel (build people ts) p1 p2 rel = .ok v) ∧
      (∀ d : Nat, GetRelatedRel (build people ts) p1 p2 rel = .ok (d : Int) ↔
        1 ≤ d ∧ Dist (Adj ts (onlyLabel rel)) p1 p2 d) ∧
      (GetRelatedRel (build people ts) p1 p2 rel = .ok (-1) ↔
        ¬ Reach (Adj ts (onlyLabel rel)) p1 p2) :=
  dist_value_iff hne (unwrapped_value hfit (GetRelatedRel_value people ts rel p1 p2 hne))

theorem sibling_unreachable :
    ∀ k, Dist (Adj [(1, 2, "sibling"), (2, 3, "friend")] (onlyLabel "sibling")) 1 3 k →
      k ≤ 2147483647 := by
  intro k hk
  exfalso
  have key : ∀ {b : Int} {m : Nat},
      Walk (Adj [(1, 2, "sibling"), (2, 3, "friend")] (onlyLabel "sibling")) 1 m b →
        b = 1 ∨ b = 2 := by
    intro b m hw
    induction hw with
    | nil => exact Or.inl rfl
    | snoc _ he ih =>
      obtain ⟨l, hl, h⟩ := he
      simp only [onlyLabel] at hl
      subst hl
      simp only [List.mem_cons, Prod.mk.injEq, List.mem_singleton, List.not_mem_nil,
        or_false] at h
      rcases h with (⟨h1, h2, _⟩ | ⟨_, _, h3⟩) | (⟨h1, h2, _⟩ | ⟨_, _, h3⟩)
      · exact Or.inr h2
      · exact absurd h3 (by decide)
      · exact Or.inl h1
      · exact absurd h3 (by decide)
  rcases key hk.1 with h | h <;> omega

theorem GetRelatedRel_shortest_path_witness :
    (1 : Int) ≠ 3 ∧
      (∀ k, Dist (Adj [(1, 2, "sibling"), (2, 3, "friend")] (onlyLabel "sibling")) 1 3 k →
        k ≤ 2147483647) ∧
      ((∃ v, GetRelatedRel (build [1, 2, 3, 4] [(1, 2, "sibling"), (2, 3, "friend")]) 1 3
          "sibling" = .ok v) ∧
        (∀ d : Nat, GetRelatedRel (build [1, 2, 3, 4] [(1, 2, "sibling"), (2, 3, "friend")]) 1 3
            "sibling" = .ok (d : Int) ↔
          1 ≤ d ∧ Dist (Adj [(1, 2, "sibling"), (2, 3, "friend")] (onlyLabel "sibling")) 1 3 d) ∧
        (GetRelatedRel (build [1, 2, 3, 4] [(1, 2, "sibling"), (2, 3, "friend")]) 1 3 "sibling"
            = .ok (-1) ↔
          ¬ Reach (Adj [(1, 2, "sibling"), (2, 3, "friend")] (onlyLabel "sibling")) 1 3)) :=
  ⟨by decide, sibling_unreachable,
    GetRelatedRel_shortest_path [1, 2, 3, 4] [(1, 2, "sibling"), (2, 3, "friend")]
      "sibling" 1 3 (by decide) sibling_unreachable⟩

/-- C3: for a graph built from a person list and triples and any IDs `p1`,
`p2`, the unfiltered `AreRelated(p1, p2)` returns a boolean, which is true if
and only if `p1 = p2` or a path of declared edges joins `p1` and `p2`. -/
theorem AreRelated_iff_path (people : List Int) (ts : List (Int × Int × String)) (p1 p2 : Int) :
    ∃ b, AreRelated (build people ts) p1 p2 = .ok b ∧
      (b = true ↔ p1 = p2 ∨ Reach (Adj ts anyLabel) p1 p2) := by
  refine bool_value people ts (fun _ => true) anyLabel (by simp [anyLabel]) p1 p2 _ ?_
  unfold AreRelated
  have h := AreRelated_loop_eq (build people ts).relations_ p2 (fuelOf (build people ts))
    [(p1, 0)] (setInsert p1 [])
  simp only [List.map_cons, List.map_nil] at h
  rw [h]

/-- C4: for a graph built from a person list and triples, a label `rel` and
any IDs `p1`, `p2`, the filtered `AreRelated(p1, p2, rel)` returns a boolean,
which is true if and only if `p1 = p2` or a path all of whose edges carry the
label `rel` joins `p1` and `p2`. -/
theorem AreRelatedRel_iff_path (people : List Int) (ts : List (Int × Int × String))
    (rel : String) (p1 p2 : Int) :
    ∃ b, AreRelatedRel (build people ts) p1 p2 rel = .ok b ∧
      (b = true ↔ p1 = p2 ∨ Reach (Adj ts (onlyLabel rel)) p1 p2) := by
  refine bool_value people ts (fun l => decide (l = rel)) (onlyLabel rel) (by simp [onlyLabel])
    p1 p2 _ ?_
  unfold AreRelatedRel
  have h := AreRelatedRel_loop_eq (build people ts).relations_ p2 rel (fuelOf (build people ts))
    [(p1, 0)] (setInsert p1 [])
  simp only [List.map_cons, List.map_nil] at h
  rw [h]

/-! ## The fixed-depth query -/

theorem GetSteps_scan_eq (d : Nat) :
    ∀ (adj : List (Int × String)) (q : List (Int × Nat)) (V : List Int),
      Bfs.scan (fun _ => false) d ((adj.filter (fun _ => true)).map Prod.fst) q V
        = .next (GetSteps.scan d adj q V) := by
  intro adj
  induction adj with
  | nil =>
    intro q V
    simp [GetSteps.scan, Bfs.scan]
  | cons pair rest ih =>
    intro q V
    by_cases h2 : pair.1 ∈ V
    · simpa [GetSteps.scan, Bfs.scan, h2] using ih q V
    · simpa [GetSteps.scan, Bfs.scan, h2] using ih _ _

theorem GetSteps_loop_eq (relations_ : AdjMap (Int × String)) (n : Int) :
    ∀ (fuel : Nat) (q : List (Int × Nat)) (V result : List Int),
      GetSteps.loop relations_ n fuel q V result = stepsOut
        (Bfs.loop (nbrsAt relations_ (fun _ => true)) (fun _ => false)
          (fun k => decide ((k : Int) = n)) fuel q V result) := by
  intro fuel
  induction fuel with
  | zero =>
    intro q V result
    cases q with
    | nil => simp [GetSteps.loop, Bfs.loop, stepsOut]
    | cons a q => simp [GetSteps.loop, Bfs.loop, stepsOut]
  | succ fuel ih =>
    intro q V result
    cases q with
    | nil => simp [GetSteps.loop, Bfs.loop, stepsOut]
    | cons a q =>
      obtain ⟨u, d⟩ := a
      by_cases hd : (d : Int) = n
      · simp only [GetSteps.loop, Bfs.loop, hd, if_true, decide_True]
        exact ih _ _ _
      · cases hf : find relations_ u with
        | none => simp [GetSteps.loop, Bfs.loop, stepsOut, nbrsAt, hf, hd]
        | some adj =>
          simp only [GetSteps.loop, Bfs.loop, hd, if_false, decide_False, nbrsAt, hf,
            Option.map_some', GetSteps_scan_eq, Bool.false_eq_true]
          exact ih _ _ _

/-- The loop of `GetSteps` from a person with an entry, for a depth `m`: it ends with exactly
the persons at distance `m`. -/
theorem steps_loop_value (people : List Int) (ts : List (Int × Int × String)) (p : Int) (m : Nat)
    (h1 : (find (build people ts).relations_ p).isSome = true) :
    ∃ xs, GetSteps.loop (build people ts).relations_ (m : Int) (fuelOf (build people ts))
        [(p, 0)] (setInsert p []) [] = .ok xs ∧
      ∀ x, x ∈ xs ↔ Dist (Adj ts anyLabel) p x m := by
  have G := graph_nbrsAt people ts (fun _ => true) anyLabel (by simp [anyLabel]) [] (by simp)
  have hstop : ∀ j : Nat, (fun k : Nat => decide ((k : Int) = (m : Int))) j = true ↔ j = m := by
    intro j
    simp
  obtain ⟨out, hout, hpost⟩ := @Bfs.run_spec _ _ (fun _ => false)
    (fun k : Nat => decide ((k : Int) = (m : Int))) p _ _ G rfl (by simp)
    (by unfold nbrsAt; rw [Option.isSome_map']; exact h1) (fuelOf (build people ts))
    (by rw [keysOf_length]; rfl)
  rw [GetSteps_loop_eq, hout]
  cases out with
  | found k =>
    obtain ⟨t, ht, _⟩ := hpost
    simp at ht
  | done V res =>
    obtain ⟨cur, d, I⟩ := hpost
    exact ⟨res, rfl, Bfs.done_steps G m hstop I⟩

/-- The value of `GetSteps` from a person with an entry, for a depth `m`. -/
theorem steps_value (people : List Int) (ts : List (Int × Int × String)) (p : Int) (m : Nat)
    (h1 : (find (build people ts).relations_ p).isSome = true) :
    ∃ xs, GetSteps (build people ts) p (m : Int) = .ok xs ∧
      ∀ x, x ∈ xs ↔ Dist (Adj ts anyLabel) p x m := by
  obtain ⟨xs, hxs, hmem⟩ := steps_loop_value people ts p m h1
  have hnone : (find (build people ts).relations_ p).isNone = false := by
    cases hh : find (build people ts).relations_ p with
    | none => simp [hh] at h1
    | some a => rfl
  have hneg : ¬ ((m : Int) < 0) := by omega
  unfold GetSteps
  simp only [hnone, hneg, decide_False, Bool.or_self, Bool.false_eq_true, if_false, hxs]
  by_cases h0 : (m : Int) = 0
  · refine ⟨[p], by simp [h0], ?_⟩
    have hm : m = 0 := by omega
    subst hm
    intro x
    rw [Dist.zero_iff]
    simp
  · exact ⟨xs, by simp [h0], hmem⟩

/-- The nodes of a shortest path: one at every distance up to its length,
each after the first at the end of an edge. -/
theorem Dist.prefixes {E : Int → Int → Prop} {a : Int} :
    ∀ (k : Nat) (b : Int), Dist E a b k →
      ∀ i, i ≤ k → ∃ v, Dist E a v i ∧ (1 ≤ i → ∃ u, E u v) := by
  intro k
  induction k with
  | zero =>
    intro b h i hi
    have : i = 0 := by omega
    subst this
    exact ⟨b, h, fun h1 => absurd h1 (by omega)⟩
  | succ k ih =>
    intro b h i hi
    obtain ⟨u, hu, hub⟩ := h.pred
    by_cases hik : i = k + 1
    · subst hik
      exact ⟨b, h, fun _ => ⟨u, hub⟩⟩
    · exact ih u hu i (by omega)

/-- A shortest path visits pairwise distinct nodes: it has fewer edges than
there are nodes touched by an edge. -/
theorem Dist.lt_card {E : Int → Int → Prop} (hs : ∀ x y, E x y → E y x) (T : Finset Int)
    (hT : ∀ u v, E u v → v ∈ T) {a b : Int} {k : Nat} (h : Dist E a b k) (hk : 1 ≤ k) :
    k + 1 ≤ T.card := by
  have hne : a ≠ b := by
    intro hab
    subst hab
    have := h.unique (Dist.zero_iff.2 rfl)
    omega
  have ha : a ∈ T := by
    obtain ⟨⟨c, hc⟩, _⟩ := Reach.ends hs ⟨k, h.1⟩ hne
    exact hT c a (hs a c hc)
  have hex : ∀ i, ∃ v, i ≤ k → (Dist E a v i ∧ v ∈ T) := by
    intro i
    by_cases hi : i ≤ k
    · obtain ⟨v, hv, hedge⟩ := Dist.prefixes k b h i hi
      refine ⟨v, fun _ => ⟨hv, ?_⟩⟩
      by_cases h0 : i = 0
      · subst h0
        rw [Dist.zero_iff.1 hv]
        exact ha
      · obtain ⟨u, hu⟩ := hedge (by omega)
        exact hT u v hu
    · exact ⟨a, fun h' => absurd h' hi⟩
  choose f hf using hex
  have hcard : (Finset.range (k + 1)).card ≤ T.card := Finset.card_le_card_of_injOn f
    (fun i hi => (hf i (by have := Finset.mem_range.1 hi; omega)).2)
    (fun i hi j hj hij => by
      have hi' : i ≤ k := by
        have := Finset.mem_range.1 (Finset.mem_coe.1 hi)
        omega
      have hj' : j ≤ k := by
        have := Finset.mem_range.1 (Finset.mem_coe.1 hj)
        omega
      have h1 := (hf i hi').1
      have h2 := (hf j hj').1
      rw [hij] at h1
      exact h1.unique h2)
  rw [Finset.card_range] at hcard
  exact hcard

/-- With `int` IDs a shortest path has fewer than 4294967296 edges. -/
theorem dist_lt_of_isInt {ts : List (Int × Int × String)} {keep : String → Prop}
    (hids : ∀ t ∈ ts, isInt t.1 ∧ isInt t.2.1) {a b : Int} {k : Nat}
    (h : Dist (Adj ts keep) a b k) : k < 4294967296 := by
  by_cases hk : 1 ≤ k
  · have hT : ∀ u v, Adj ts keep u v → v ∈ Finset.Icc (-2147483648 : Int) 2147483647 := by
      rintro u v ⟨l, _, hl | hl⟩
      · have := (hids _ hl).2
        simp only [isInt] at this
        exact Finset.mem_Icc.2 this
      · have := (hids _ hl).1
        simp only [isInt] at this
        exact Finset.mem_Icc.2 this
    have hc := Dist.lt_card Adj.symm _ hT h hk
    rw [Int.card_Icc] at hc
    have h1 : (((2147483647 + 1 - (-2147483648 : Int)).toNat : Nat) : Int)
        = 2147483647 + 1 - (-2147483648 : Int) := Int.toNat_of_nonneg (by norm_num)
    omega
  · omega

/-- C5: for a graph built from a person list and triples of `int` IDs, an ID
`p` with an entry in the adjacency map, an `int` depth `n ≥ 0` and any ID
`x`: `GetSteps(p, n)` and `GetRelated(p, x)` return, and `x` occurs in the
former if and only if the shortest unfiltered distance from `p` to `x` is
exactly `n`, that is if and only if `GetRelated(p, x) = n`. -/
theorem GetSteps_iff_distance (people : List Int) (ts : List (Int × Int × String)) (p : Int)
    (n : Int) (x : Int) (hp : hasEntry (build people ts) p) (hn : 0 ≤ n)
    (hn32 : n ≤ 2147483647) (hids : ∀ t ∈ ts, isInt t.1 ∧ isInt t.2.1) :
    ∃ xs r, GetSteps (build people ts) p n = .ok xs ∧ GetRelated (build people ts) p x = .ok r ∧
      (x ∈ xs ↔ Dist (Adj ts anyLabel) p x n.toNat) ∧ (x ∈ xs ↔ r = n) := by
  obtain ⟨m, hm⟩ := Int.eq_ofNat_of_zero_le hn
  subst hm
  obtain ⟨xs, hxs, hmem⟩ := steps_value people ts p m hp
  simp only [Int.toNat_ofNat]
  by_cases hpx : p = x
  · subst hpx
    refine ⟨xs, 0, hxs, by simp [GetRelated], hmem p, ?_⟩
    rw [hmem p]
    constructor
    · intro h
      have := (Dist.zero_iff.2 rfl : Dist (Adj ts anyLabel) p p 0).unique h
      omega
    · intro h
      have : m = 0 := by omega
      subst this
      exact Dist.zero_iff.2 rfl
  · rcases GetRelated_value people ts p x hpx with ⟨k, hr, hk⟩ | ⟨hr, hno⟩
    · refine ⟨xs, wrapInt (k : Int), hxs, hr, hmem x, ?_⟩
      rw [hmem x]
      have hk32 := dist_lt_of_isInt hids hk
      constructor
      · intro h
        have := hk.unique h
        subst this
        exact wrapInt_of_small _ (by omega) hn32
      · intro h
        have : k = m := by
          unfold wrapInt at h
          omega
        subst this
        exact hk
    · refine ⟨xs, -1, hxs, hr, hmem x, ?_⟩
      rw [hmem x]
      constructor
      · intro h
        exact absurd ⟨m, h.1⟩ hno
      · intro h
        omega

theorem GetSteps_iff_distance_witness :
    hasEntry (build [1, 2, 3, 4] [(1, 2, "sibling"), (2, 3, "friend")]) 1 ∧ (0 : Int) ≤ 2 ∧
      (2 : Int) ≤ 2147483647 ∧
      (∀ t ∈ [((1 : Int), (2 : Int), "sibling"), (2, 3, "friend")], isInt t.1 ∧ isInt t.2.1) ∧
      ∃ xs r, GetSteps (build [1, 2, 3, 4] [(1, 2, "sibling"), (2, 3, "friend")]) 1 2 = .ok xs ∧
        GetRelated (build [1, 2, 3, 4] [(1, 2, "sibling"), (2, 3, "friend")]) 1 3 = .ok r ∧
        (3 ∈ xs ↔ Dist (Adj [(1, 2, "sibling"), (2, 3, "friend")] anyLabel) 1 3 (2 : Int).toNat) ∧
        (3 ∈ xs ↔ r = 2) :=
  ⟨by decide, by decide, by decide, by decide,
    GetSteps_iff_distance [1, 2, 3, 4] [(1, 2, "sibling"), (2, 3, "friend")] 1 2 3 (by decide)
      (by decide) (by decide) (by decide)⟩

/-- C10, as stated, fails: for people = [5] and no relation the person 5 has
no entry in the adjacency map, and `GetSteps(5, 0)` is empty instead of
`{5}`. -/
theorem GetSteps_zero_isolated :
    GetSteps (build [5] []) 5 0 = .ok [] ∧ GetSteps (build [5] []) 5 0 ≠ .ok [5] := by
  decide

/-- C10, amended: `GetSteps(p, 0)` is exactly `[p]` when `p` has an entry in
the adjacency map, and is empty when it has none. -/
theorem GetSteps_zero (people : List Int) (ts : List (Int × Int × String)) (p : Int) :
    GetSteps (build people ts) p 0
      = .ok (if (find (build people ts).relations_ p).isSome then [p] else []) := by
  cases hf : find (build people ts).relations_ p with
  | none => simp [GetSteps, hf]
  | some adj =>
    obtain ⟨xs, hxs, -⟩ := steps_value people ts p 0 (by rw [hf]; rfl)
    have h0 : ((0 : Nat) : Int) = 0 := rfl
    rw [h0] at hxs
    rw [hxs]
    unfold GetSteps at hxs
    simp only [hf, Option.isNone_some, Bool.false_eq_true, lt_self_iff_false, decide_False,
      Bool.or_self, if_false] at hxs
    cases hl : GetSteps.loop (build people ts).relations_ 0 (fuelOf (build people ts)) [(p, 0)]
        (setInsert p []) [] with
    | ok r =>
      rw [hl] at hxs
      simp only [if_true] at hxs
      rw [← hxs]
      simp
    | outOfRange =>
      rw [hl] at hxs
      simp at hxs
    | outOfFuel =>
      rw [hl] at hxs
      simp at hxs

/-! ## Symmetry of the distance -/

theorem dist_value_symm (ts : List (Int × Int × String)) (keep : String → Prop)
    (a b : Int) (r1 r2 : Res Int)
    (h1 : (∃ k : Nat, r1 = .ok (wrapInt (k : Int)) ∧ Dist (Adj ts keep) a b k) ∨
      (r1 = .ok (-1) ∧ ¬ Reach (Adj ts keep) a b))
    (h2 : (∃ k : Nat, r2 = .ok (wrapInt (k : Int)) ∧ Dist (Adj ts keep) b a k) ∨
      (r2 = .ok (-1) ∧ ¬ Reach (Adj ts keep) b a)) :
    ∃ v, r1 = .ok v ∧ r2 = .ok v := by
  rcases h1 with ⟨k, hr1, hd1⟩ | ⟨hr1, hn1⟩
  · rcases h2 with ⟨k', hr2, hd2⟩ | ⟨hr2, hn2⟩
    · have := hd1.unique (hd2.swap Adj.symm)
      subst this
      exact ⟨_, hr1, hr2⟩
    · exact absurd (Reach.inv Adj.symm ⟨k, hd1.1⟩) hn2
  · rcases h2 with ⟨k', hr2, hd2⟩ | ⟨hr2, hn2⟩
    · exact absurd (Reach.inv Adj.symm ⟨k', hd2.1⟩) hn1
    · exact ⟨_, hr1, hr2⟩

/-- C9: for a graph built from a person list and triples and any IDs `a`,
`b`: `GetRelated(a, b)` and `GetRelated(b, a)` return the same value, and for
every label `rel` so do `GetRelated(a, b, rel)` and `GetRelated(b, a, rel)`. -/
theorem GetRelated_symmetric (people : List Int) (ts : List (Int × Int × String)) (a b : Int) :
    (∃ v, GetRelated (build people ts) a b = .ok v ∧ GetRelated (build people ts) b a = .ok v) ∧
      ∀ rel, ∃ v, GetRelatedRel (build people ts) a b rel = .ok v ∧
        GetRelatedRel (build people ts) b a rel = .ok v := by
  by_cases hne : a = b
  · subst hne
    exact ⟨⟨0, by simp [GetRelated]⟩, fun rel => ⟨0, by simp [GetRelatedRel]⟩⟩
  · constructor
    · exact dist_value_symm ts anyLabel a b _ _
        (GetRelated_value people ts a b hne) (GetRelated_value people ts b a (Ne.symm hne))
    · intro rel
      exact dist_value_symm ts (onlyLabel rel) a b _ _ (GetRelatedRel_value people ts rel a b hne)
        (GetRelatedRel_value people ts rel b a (Ne.symm hne))

/-! ## Counting components -/

/-- Two systems of representatives of the same classes have the same size:
first half, an injection. -/
theorem repSystem_length_le {R : Int → Int → Prop} (hsymm : ∀ x y, R x y → R y x)
    (htrans : ∀ x y z, R x y → R y z → R x z) :
    ∀ (l1 l2 : List Int), l1.Pairwise (fun a b => ¬ R a b) → (∀ a ∈ l1, ∃ b ∈ l2, R b a) →
      l1.length ≤ l2.length := by
  intro l1
  induction l1 with
  | nil =>
    intro l2 _ _
    simp
  | cons a l1 ih =>
    intro l2 hp hex
    obtain ⟨b, hb, hba⟩ := hex a (List.mem_cons_self _ _)
    have hp' := List.pairwise_cons.1 hp
    have h1 : l1.length ≤ (l2.erase b).length := by
      apply ih (l2.erase b) hp'.2
      intro a' ha'
      obtain ⟨b', hb', hba'⟩ := hex a' (List.mem_cons_of_mem _ ha')
      refine ⟨b', ?_, hba'⟩
      have hne : b' ≠ b := by
        intro h
        subst h
        exact hp'.1 a' ha' (htrans _ _ _ (hsymm _ _ hba) hba')
      exact (List.mem_erase_of_ne hne).2 hb'
    have h2 := List.length_erase_of_mem hb
    have h3 : 0 < l2.length := List.length_pos_of_mem hb
    simp only [List.length_cons]
    omega

theorem repSystem_length_unique {R : Int → Int → Prop} (hsymm : ∀ x y, R x y → R y x)
    (htrans : ∀ x y z, R x y → R y z → R x z) {nodes : Int → Prop} {l1 l2 : List Int}
    (h1 : IsRepSystem R nodes l1) (h2 : IsRepSystem R nodes l2) : l1.length = l2.length := by
  apply Nat.le_antisymm
  · exact repSystem_length_le hsymm htrans l1 l2 h1.2.1 (fun a ha => h2.2.2 a (h1.1 a ha))
  · exact repSystem_length_le hsymm htrans l2 l1 h2.2.1 (fun a ha => h1.2.2 a (h2.1 a ha))

/-- A component search from `s`, started with a visited set closed under the
edges: it ends, having added exactly what `s` reaches. -/
theorem component_search {E : Int → Int → Prop} {N : Int → Option (List Int)} {U V0 : List Int}
    (G : Bfs.Graph E N U V0) (hN : ∀ u, (N u).isSome = true) (fuel : Nat)
    (hF : U.length + 1 ≤ fuel) (s : Int) :
    ∃ V', visitedOut (Bfs.loop N (fun _ => false) (fun _ => false) fuel [(s, 0)]
        (setInsert s V0) []) = .ok V' ∧ ∀ x, x ∈ V' ↔ x ∈ V0 ∨ Reach E s x := by
  obtain ⟨out, hout, hpost⟩ := @Bfs.run_spec E N (fun _ => false) (fun _ => false) s U V0 G rfl
    (by simp) (hN s) fuel hF
  rw [hout]
  cases out with
  | found k =>
    obtain ⟨t, ht, _⟩ := hpost
    simp at ht
  | done V res =>
    obtain ⟨cur, d, I⟩ := hpost
    exact ⟨V, rfl, Bfs.done_reach G (fun _ => rfl) I⟩

/-- The component count over the seeds: it ends, and it has counted the members of a
system of representatives of the seeds. -/
theorem componentCount_spec {E : Int → Int → Prop} {N : Int → Option (List Int)} {U : List Int}
    (hsymm : ∀ x y, E x y → E y x)
    (G : ∀ V0 : List Int, (∀ v ∈ V0, ∀ w, E v w → w ∈ V0) → Bfs.Graph E N U V0)
    (hN : ∀ u, (N u).isSome = true) (fuel : Nat) (hF : U.length + 1 ≤ fuel) :
    ∀ (seeds V reps past : List Int),
      (∀ x, x ∈ V ↔ ∃ r ∈ reps, Reach E r x) → reps.Pairwise (fun a b => ¬ Reach E a b) →
      (∀ r ∈ reps, r ∈ past) → (∀ v ∈ past, v ∈ V) →
      ∃ reps', componentCount N fuel seeds V reps.length = .ok reps'.length ∧
        IsRepSystem (Reach E) (fun v => v ∈ past ∨ v ∈ seeds) reps' := by
  intro seeds
  induction seeds with
  | nil =>
    intro V reps past hV hP hR hD
    refine ⟨reps, by simp [componentCount], fun r hr => Or.inl (hR r hr), hP, ?_⟩
    intro v hv
    rcases hv with hv | hv
    · exact (hV v).1 (hD v hv)
    · simp at hv
  | cons s rest ih =>
    intro V reps past hV hP hR hD
    have hnodes : ∀ v, (v ∈ past ++ [s] ∨ v ∈ rest) ↔ (v ∈ past ∨ v ∈ s :: rest) := by
      intro v
      simp only [List.mem_append, List.mem_singleton, List.mem_cons]
      tauto
    by_cases hs : s ∈ V
    · obtain ⟨reps', h1, h2, h3, h4⟩ := ih V reps (past ++ [s]) hV hP
        (fun r hr => List.mem_append_left _ (hR r hr))
        (by
          intro v hv
          rcases List.mem_append.1 hv with h | h
          · exact hD v h
          · have : v = s := by simpa using h
            subst this
            exact hs)
      refine ⟨reps', by simpa [componentCount, hs] using h1, ?_, h3, ?_⟩
      · intro r hr
        exact (hnodes r).1 (h2 r hr)
      · intro v hv
        exact h4 v ((hnodes v).2 hv)
    · have hclosed : ∀ v ∈ V, ∀ w, E v w → w ∈ V := by
        intro v hv w hvw
        obtain ⟨r, hr, hrv⟩ := (hV v).1 hv
        exact (hV w).2 ⟨r, hr, hrv.step hvw⟩
      obtain ⟨V', hV', hmem⟩ := component_search (G V hclosed) hN fuel hF s
      obtain ⟨reps', h1, h2, h3, h4⟩ := ih V' (s :: reps) (past ++ [s])
        (by
          intro x
          rw [hmem x, hV x]
          constructor
          · rintro (⟨r, hr, h⟩ | h)
            · exact ⟨r, List.mem_cons_of_mem _ hr, h⟩
            · exact ⟨s, List.mem_cons_self _ _, h⟩
          · rintro ⟨r, hr, h⟩
            rcases List.mem_cons.1 hr with h' | h'
            · subst h'
              exact Or.inr h
            · exact Or.inl ⟨r, h', h⟩)
        (by
          refine List.pairwise_cons.2 ⟨?_, hP⟩
          intro r hr hsr
          exact hs ((hV s).2 ⟨r, hr, Reach.inv hsymm hsr⟩))
        (by
          intro r hr
          rcases List.mem_cons.1 hr with h | h
          · subst h
            simp
          · exact List.mem_append_left _ (hR r h))
        (by
          intro v hv
          rcases List.mem_append.1 hv with h | h
          · exact (hmem v).2 (Or.inl (hD v h))
          · have : v = s := by simpa using h
            subst this
            exact (hmem v).2 (Or.inr (Reach.refl E v)))
      refine ⟨reps', ?_, ?_, h3, ?_⟩
      · simp only [List.length_cons] at h1
        simp only [componentCount, hs, if_false, hV']
        exact h1
      · intro r hr
        exact (hnodes r).1 (h2 r hr)
      · intro v hv
        exact h4 v ((hnodes v).2 hv)

/-- The component count from the empty visited set. -/
theorem componentCount_value {E : Int → Int → Prop} {N : Int → Option (List Int)} {U : List Int}
    (hsymm : ∀ x y, E x y → E y x)
    (G : ∀ V0 : List Int, (∀ v ∈ V0, ∀ w, E v w → w ∈ V0) → Bfs.Graph E N U V0)
    (hN : ∀ u, (N u).isSome = true) (fuel : Nat) (hF : U.length + 1 ≤ fuel) (seeds : List Int) :
    ∃ reps, componentCount N fuel seeds [] 0 = .ok reps.length ∧
      IsRepSystem (Reach E) (fun v => v ∈ seeds) reps := by
  obtain ⟨reps, h1, h2, h3, h4⟩ := componentCount_spec hsymm G hN fuel hF seeds [] [] []
    (by simp) List.Pairwise.nil (by simp) (by simp)
  refine ⟨reps, by simpa using h1, ?_, h3, ?_⟩
  · intro r hr
    simpa using h2 r hr
  · intro v hv
    exact h4 v (Or.inr hv)

/-! ## The unfiltered and the label-set group counts are component counts -/

theorem CountGroups_scan_eq (d : Nat) :
    ∀ (adj : List (Int × String)) (q : List (Int × Nat)) (V : List Int),
      Step.erase (Bfs.scan (fun _ => false) d ((adj.filter (fun _ => true)).map Prod.fst) q V)
        = .next (CountGroups.scan adj (q.map Prod.fst) V) := by
  intro adj
  induction adj with
  | nil =>
    intro q V
    simp [CountGroups.scan, Bfs.scan, Step.erase]
  | cons pair rest ih =>
    intro q V
    by_cases h2 : pair.1 ∈ V
    · simpa [CountGroups.scan, Bfs.scan, h2] using ih q V
    · simpa [CountGroups.scan, Bfs.scan, h2] using ih (q ++ [(pair.1, d + 1)]) _

theorem CountGroups_bfs_eq (relations_ : AdjMap (Int × String)) :
    ∀ (fuel : Nat) (q : List (Int × Nat)) (V : List Int),
      CountGroups.bfs relations_ fuel (q.map Prod.fst) V = visitedOut
        (Bfs.loop (nbrsOf relations_ (fun _ => true)) (fun _ => false) (fun _ => false)
          fuel q V []) := by
  intro fuel
  induction fuel with
  | zero =>
    intro q V
    cases q with
    | nil => simp [CountGroups.bfs, Bfs.loop, visitedOut]
    | cons a q => simp [CountGroups.bfs, Bfs.loop, visitedOut]
  | succ fuel ih =>
    intro q V
    cases q with
    | nil => simp [CountGroups.bfs, Bfs.loop, visitedOut]
    | cons a q =>
      obtain ⟨u, d⟩ := a
      cases hf : find relations_ u with
      | none =>
        simp only [List.map_cons, CountGroups.bfs, Bfs.loop, nbrsOf, hf, Option.getD_none,
          List.filter_nil, List.map_nil, Bfs.scan, Bool.false_eq_true, if_false]
        exact ih q V
      | some adj =>
        have hs := CountGroups_scan_eq d adj q V
        cases hb : Bfs.scan (fun _ => false) d
            ((adj.filter (fun _ => true)).map Prod.fst) q V with
        | ret k =>
          rw [hb] at hs
          simp [Step.erase] at hs
        | next st =>
          rw [hb] at hs
          simp only [Step.erase, Step.next.injEq] at hs
          simp only [List.map_cons, CountGroups.bfs, Bfs.loop, nbrsOf, hf, Option.getD_some, hb,
            ← hs, Bool.false_eq_true, if_false]
          exact ih st.1 st.2

theorem CountGroups_outer_eq (relations_ : AdjMap (Int × String)) (fuel : Nat) :
    ∀ (seeds V : List Int) (n : Nat),
      CountGroups.outer relations_ fuel seeds V n
        = componentCount (nbrsOf relations_ (fun _ => true)) fuel seeds V n := by
  intro seeds
  induction seeds with
  | nil =>
    intro V n
    simp [CountGroups.outer, componentCount]
  | cons s rest ih =>
    intro V n
    by_cases hs : s ∈ V
    · simpa [CountGroups.outer, componentCount, hs] using ih V n
    · have hb := CountGroups_bfs_eq relations_ fuel [(s, 0)] (setInsert s V)
      simp only [List.map_cons, List.map_nil] at hb
      simp only [CountGroups.outer, componentCount, hs, if_false, hb]
      cases visitedOut (Bfs.loop (nbrsOf relations_ (fun _ => true)) (fun _ => false)
          (fun _ => false) fuel [(s, 0)] (setInsert s V) []) with
      | ok V' => exact ih V' (n + 1)
      | outOfRange => rfl
      | outOfFuel => rfl

theorem CountGroupsRels_scan_eq (rels : List String) (d : Nat) :
    ∀ (adj : List (Int × String)) (q : List (Int × Nat)) (V : List Int),
      Step.erase (Bfs.scan (fun _ => false) d
          ((adj.filter (fun pair => decide (pair.2 ∈ rels))).map Prod.fst) q V)
        = .next (CountGroupsRels.scan rels adj (q.map Prod.fst) V) := by
  intro adj
  induction adj with
  | nil =>
    intro q V
    simp [CountGroupsRels.scan, Bfs.scan, Step.erase]
  | cons pair rest ih =>
    intro q V
    by_cases h0 : pair.2 ∈ rels
    · by_cases h2 : pair.1 ∈ V
      · simpa [CountGroupsRels.scan, Bfs.scan, h0, h2] using ih q V
      · simpa [CountGroupsRels.scan, Bfs.scan, h0, h2] using ih (q ++ [(pair.1, d + 1)]) _
    · simpa [CountGroupsRels.scan, h0] using ih q V

theorem CountGroupsRels_bfs_eq (relations_ : AdjMap (Int × String)) (rels : List String) :
    ∀ (fuel : Nat) (q : List (Int × Nat)) (V : List Int),
      CountGroupsRels.bfs relations_ rels fuel (q.map Prod.fst) V = visitedOut
        (Bfs.loop (nbrsOf relations_ (fun l => decide (l ∈ rels))) (fun _ => false)
          (fun _ => false) fuel q V []) := by
  intro fuel
  induction fuel with
  | zero =>
    intro q V
    cases q with
    | nil => simp [CountGroupsRels.bfs, Bfs.loop, visitedOut]
    | cons a q => simp [CountGroupsRels.bfs, Bfs.loop, visitedOut]
  | succ fuel ih =>
    intro q V
    cases q with
    | nil => simp [CountGroupsRels.bfs, Bfs.loop, visitedOut]
    | cons a q =>
      obtain ⟨u, d⟩ := a
      cases hf : find relations_ u with
      | none =>
        simp only [List.map_cons, CountGroupsRels.bfs, Bfs.loop, nbrsOf, hf, Option.getD_none,
          List.filter_nil, List.map_nil, Bfs.scan, Bool.false_eq_true, if_false]
        exact ih q V
      | some adj =>
        have hs := CountGroupsRels_scan_eq rels d adj q V
        cases hb : Bfs.scan (fun _ => false) d
            ((adj.filter (fun pair => decide (pair.2 ∈ rels))).map Prod.fst) q V with
        | ret k =>
          rw [hb] at hs
          simp [Step.erase] at hs
        | next st =>
          rw [hb] at hs
          simp only [Step.erase, Step.next.injEq] at hs
          simp only [List.map_cons, CountGroupsRels.bfs, Bfs.loop, nbrsOf, hf, Option.getD_some,
            hb, ← hs, Bool.false_eq_true, if_false]
          exact ih st.1 st.2

theorem CountGroupsRels_outer_eq (relations_ : AdjMap (Int × String)) (rels : List String)
    (fuel : Nat) :
    ∀ (seeds V : List Int) (n : Nat),
      CountGroupsRels.outer relations_ rels fuel seeds V n
        = componentCount (nbrsOf relations_ (fun l => decide (l ∈ rels))) fuel seeds V n := by
  intro seeds
  induction seeds with
  | nil =>
    intro V n
    simp [CountGroupsRels.outer, componentCount]
  | cons s rest ih =>
    intro V n
    by_cases hs : s ∈ V
    · simpa [CountGroupsRels.outer, componentCount, hs] using ih V n
    · have hb := CountGroupsRels_bfs_eq relations_ rels fuel [(s, 0)] (setInsert s V)
      simp only [List.map_cons, List.map_nil] at hb
      simp only [CountGroupsRels.outer, componentCount, hs, if_false, hb]
      cases visitedOut (Bfs.loop (nbrsOf relations_ (fun l => decide (l ∈ rels)))
          (fun _ => false) (fun _ => false) fuel [(s, 0)] (setInsert s V) []) with
      | ok V' => exact ih V' (n + 1)
      | outOfRange => rfl
      | outOfFuel => rfl

/-- The component count of a built graph, behind the guard on the lookup,
for the filter `keep`. -/
theorem componentCount_build (people : List Int) (ts : List (Int × Int × String))
    (keepB : String → Bool) (keep : String → Prop) (hk : ∀ l, keepB l = true ↔ keep l)
    (seeds : List Int) :
    ∃ reps, componentCount (nbrsOf (build people ts).relations_ keepB) (fuelOf (build people ts))
        seeds [] 0 = .ok reps.length ∧
      IsRepSystem (Reach (Adj ts keep)) (fun v => v ∈ seeds) reps :=
  componentCount_value Adj.symm (fun V0 h => graph_nbrsOf people ts keepB keep hk V0 h)
    (fun _ => rfl) _ (by rw [keysOf_length]; rfl) seeds

theorem IsRepSystem.congr {R : Int → Int → Prop} {nodes nodes' : Int → Prop} {reps : List Int}
    (h : ∀ v, nodes v ↔ nodes' v) (hr : IsRepSystem R nodes reps) : IsRepSystem R nodes' reps :=
  ⟨fun r hr' => (h r).1 (hr.1 r hr'), hr.2.1, fun v hv => hr.2.2 v ((h v).2 hv)⟩

theorem reach_equiv (E : Int → Int → Prop) (hs : ∀ x y, E x y → E y x) :
    (∀ x y, Reach E x y → Reach E y x) ∧ (∀ x y z, Reach E x y → Reach E y z → Reach E x z) :=
  ⟨fun _ _ h => Reach.inv hs h, fun _ _ _ h1 h2 => h1.trans h2⟩

/-! ## The node set of the unfiltered count -/

theorem mem_foldl_setInsert {α : Type} (f : α → Int) (x : Int) :
    ∀ (l : List α) (acc : List Int),
      x ∈ l.foldl (fun acc a => setInsert (f a) acc) acc ↔ x ∈ acc ∨ ∃ a ∈ l, x = f a := by
  intro l
  induction l with
  | nil =>
    intro acc
    simp
  | cons a l ih =>
    intro acc
    rw [List.foldl_cons, ih, mem_setInsert]
    simp only [List.mem_cons, exists_eq_or_imp]
    tauto

theorem mem_foldl_nodes (x : Int) :
    ∀ (m : AdjMap (Int × String)) (acc : List Int),
      x ∈ m.foldl (fun all_nodes rel =>
          rel.2.foldl (fun all_nodes edge => setInsert edge.1 all_nodes)
            (setInsert rel.1 all_nodes)) acc
        ↔ x ∈ acc ∨ ∃ e ∈ m, x = e.1 ∨ ∃ p ∈ e.2, x = p.1 := by
  intro m
  induction m with
  | nil =>
    intro acc
    simp
  | cons e m ih =>
    intro acc
    rw [List.foldl_cons, ih, mem_foldl_setInsert (fun edge : Int × String => edge.1),
      mem_setInsert]
    constructor
    · rintro (((h | h) | ⟨p, hp, h⟩) | ⟨e', he', h⟩)
      · exact Or.inr ⟨e, List.mem_cons_self _ _, Or.inl h⟩
      · exact Or.inl h
      · exact Or.inr ⟨e, List.mem_cons_self _ _, Or.inr ⟨p, hp, h⟩⟩
      · exact Or.inr ⟨e', List.mem_cons_of_mem _ he', h⟩
    · rintro (h | ⟨e', he', h⟩)
      · exact Or.inl (Or.inl (Or.inr h))
      · rcases List.mem_cons.1 he' with h' | h'
        · subst h'
          rcases h with h | ⟨p, hp, h⟩
          · exact Or.inl (Or.inl (Or.inl h))
          · exact Or.inl (Or.inr ⟨p, hp, h⟩)
        · exact Or.inr ⟨e', h', h⟩

theorem mem_allNodes (g : IlliniBook) (x : Int) :
    x ∈ CountGroups.allNodes g ↔
      x ∈ g.people_ ∨ ∃ e ∈ g.relations_, x = e.1 ∨ ∃ p ∈ e.2, x = p.1 := by
  unfold CountGroups.allNodes
  rw [mem_foldl_setInsert (fun node : Int => node), mem_foldl_nodes]
  constructor
  · rintro ((h | h) | ⟨a, ha, h⟩)
    · simp at h
    · exact Or.inr h
    · subst h
      exact Or.inl ha
  · rintro (h | h)
    · exact Or.inr ⟨x, h, rfl⟩
    · exact Or.inl (Or.inr h)

theorem mem_of_find {β : Type} (m : AdjMap β) (k : Int) (vs : List β) (h : find m k = some vs) :
    (k, vs) ∈ m := by
  induction m with
  | nil => simp [find] at h
  | cons e rest ih =>
    obtain ⟨k', vs'⟩ := e
    by_cases hk : k = k'
    · subst hk
      simp only [find, if_true, Option.some.injEq] at h
      subst h
      exact List.mem_cons_self _ _
    · simp only [find, hk, if_false] at h
      exact List.mem_cons_of_mem _ (ih h)

theorem find_of_mem {β : Type} (m : AdjMap β) (hm : KeySorted m) (k : Int) (vs : List β)
    (h : (k, vs) ∈ m) : find m k = some vs := by
  induction m with
  | nil => simp at h
  | cons e rest ih =>
    obtain ⟨k', vs'⟩ := e
    have hs := List.pairwise_cons.1 hm
    rcases List.mem_cons.1 h with h | h
    · obtain ⟨h1, h2⟩ := Prod.mk.inj h
      subst h1
      subst h2
      simp [find]
    · have hlt := hs.1 (k, vs) h
      simp only at hlt
      have hk : k ≠ k' := by omega
      simp only [find, hk, if_false]
      exact ih hs.2 h

/-- An ID has an entry in the map of a built graph exactly when it is an
endpoint of a declared triple. -/
theorem hasEntry_iff (people : List Int) (ts : List (Int × Int × String)) (u : Int) :
    (find (build people ts).relations_ u).isSome = true ↔ ∃ t ∈ ts, u = t.1 ∨ u = t.2.1 := by
  constructor
  · intro h
    obtain ⟨adj, hadj⟩ := Option.isSome_iff_exists.1 h
    have hb := find_build people ts u
    rw [hadj] at hb
    cases hh : halfEdgesOf u ts with
    | nil =>
      rw [hh] at hb
      simp [extendWith] at hb
    | cons a r =>
      have hmem : (a.1, a.2) ∈ halfEdgesOf u ts := by
        rw [hh]
        exact List.mem_cons_self _ _
      rcases (mem_halfEdgesOf u a.1 a.2 ts).1 hmem with h1 | h1
      · exact ⟨_, h1, Or.inl rfl⟩
      · exact ⟨_, h1, Or.inr rfl⟩
  · rintro ⟨⟨a, b, l⟩, ht, h | h⟩
    · simp only at h
      subst h
      exact build_entry (w := b) (l := l) (Or.inl ht)
    · simp only at h
      subst h
      exact build_entry (w := a) (l := l) (Or.inr ht)

theorem mem_allNodes_build (people : List Int) (ts : List (Int × Int × String)) (x : Int) :
    x ∈ CountGroups.allNodes (build people ts) ↔ isNode people ts x := by
  rw [mem_allNodes]
  unfold isNode
  have hpeople : (build people ts).people_ = people := rfl
  rw [hpeople]
  constructor
  · rintro (h | ⟨e, he, h | ⟨p, hp, h⟩⟩)
    · exact Or.inl h
    · right
      apply (hasEntry_iff people ts x).1
      have := find_of_mem _ (keySorted_build people ts) e.1 e.2 he
      rw [h, this]
      rfl
    · right
      have hf := find_of_mem _ (keySorted_build people ts) e.1 e.2 he
      have hp' : (p.1, p.2) ∈ e.2 := hp
      rcases (build_find_some hf p.1 p.2).1 hp' with h1 | h1
      · exact ⟨_, h1, Or.inr h⟩
      · exact ⟨_, h1, Or.inl h⟩
  · rintro (h | h)
    · exact Or.inl h
    · right
      obtain ⟨adj, hadj⟩ := Option.isSome_iff_exists.1 ((hasEntry_iff people ts x).2 h)
      exact ⟨(x, adj), mem_of_find _ _ _ hadj, Or.inl rfl⟩

/-- C6: for every person list and triple list, `CountGroups()` returns the
number of connected components of the undirected graph whose nodes are the
listed persons and the edge endpoints and whose edges are all declared
triples: it is the size of a system of representatives of the components,
and of every such system. -/
theorem CountGroups_components (people : List Int) (ts : List (Int × Int × String)) :
    ∃ n, CountGroups (build people ts) = .ok n ∧
      (∃ reps, IsRepSystem (Reach (Adj ts anyLabel)) (isNode people ts) reps ∧ reps.length = n) ∧
      ∀ reps, IsRepSystem (Reach (Adj ts anyLabel)) (isNode people ts) reps → reps.length = n := by
  obtain ⟨reps, h1, h2⟩ := componentCount_build people ts (fun _ => true) anyLabel
    (by simp [anyLabel]) (CountGroups.allNodes (build people ts))
  have h3 : IsRepSystem (Reach (Adj ts anyLabel)) (isNode people ts) reps :=
    h2.congr (mem_allNodes_build people ts)
  refine ⟨reps.length, ?_, ⟨reps, h3, rfl⟩, ?_⟩
  · unfold CountGroups
    rw [CountGroups_outer_eq]
    exact h1
  · intro reps' h
    have he := reach_equiv (Adj ts anyLabel) Adj.symm
    exact repSystem_length_unique he.1 he.2 h h3

/-! ## The single-label group count -/

theorem find_touch {β : Type} (m : AdjMap β) (hm : KeySorted m) (k p : Int) :
    (find (touch m k) p).getD [] = (find m p).getD [] := by
  induction m with
  | nil =>
    by_cases h : p = k <;> simp [find, touch, h]
  | cons e rest ih =>
    obtain ⟨k', vs⟩ := e
    have hs := List.pairwise_cons.1 hm
    by_cases h1 : k = k'
    · simp [touch, h1]
    · by_cases h2 : k < k'
      · by_cases h4 : p = k
        · have h3 : find ((k', vs) :: rest) k = none := by
            apply find_eq_none_of_lt
            intro e he
            rcases List.mem_cons.1 he with h | h
            · rw [h]
              exact h2
            · have := hs.1 e h
              simp only at this
              omega
          subst h4
          rw [h3]
          simp [touch, h1, h2, find]
        · simp [touch, h1, h2, find, h4]
      · by_cases h5 : p = k'
        · simp [touch, h1, h2, find, h5]
        · simp only [touch, h1, h2, if_false, find, h5]
          exact ih hs.2

theorem key_of_mem_touch {β : Type} (m : AdjMap β) (k : Int) (e : Int × List β)
    (he : e ∈ touch m k) : e.1 = k ∨ ∃ e' ∈ m, e'.1 = e.1 := by
  induction m with
  | nil =>
    simp only [touch, List.mem_singleton] at he
    subst he
    exact Or.inl rfl
  | cons a rest ih =>
    obtain ⟨k', vs⟩ := a
    by_cases h1 : k = k'
    · subst h1
      simp only [touch, if_true] at he
      exact Or.inr ⟨e, he, rfl⟩
    · by_cases h2 : k < k'
      · simp only [touch, h1, h2, if_true, if_false, List.mem_cons] at he
        rcases he with h | h | h
        · subst h
          exact Or.inl rfl
        · subst h
          exact Or.inr ⟨(k', vs), List.mem_cons_self _ _, rfl⟩
        · exact Or.inr ⟨e, List.mem_cons_of_mem _ h, rfl⟩
      · simp only [touch, h1, h2, if_false, List.mem_cons] at he
        rcases he with h | h
        · subst h
          exact Or.inr ⟨(k', vs), List.mem_cons_self _ _, rfl⟩
        · rcases ih h with h | ⟨e', he', h⟩
          · exact Or.inl h
          · exact Or.inr ⟨e', List.mem_cons_of_mem _ he', h⟩

theorem keySorted_touch {β : Type} (m : AdjMap β) (hm : KeySorted m) (k : Int) :
    KeySorted (touch m k) := by
  induction m with
  | nil => simp [touch, KeySorted]
  | cons a rest ih =>
    obtain ⟨k', vs⟩ := a
    have hs := List.pairwise_cons.1 hm
    by_cases h1 : k = k'
    · subst h1
      simp only [touch, if_true]
      exact hm
    · by_cases h2 : k < k'
      · simp only [touch, h1, h2, if_true, if_false]
        refine List.pairwise_cons.2 ⟨?_, hm⟩
        intro e he
        rcases List.mem_cons.1 he with h | h
        · subst h
          exact h2
        · have := hs.1 e h
          simp only at this ⊢
          omega
      · simp only [touch, h1, h2, if_false]
        refine List.pairwise_cons.2 ⟨?_, ih hs.2⟩
        intro e he
        rcases key_of_mem_touch rest k e he with h | ⟨e', he', h⟩
        · simp only
          omega
        · have := hs.1 e' he'
          simp only at this ⊢
          omega

theorem CountGroupsRel_scan_eq (d : Nat) :
    ∀ (ns : List Int) (q : List (Int × Nat)) (V : List Int),
      Step.erase (Bfs.scan (fun _ => false) d ns q V)
        = .next (CountGroupsRel.scan ns (q.map Prod.fst) V) := by
  intro ns
  induction ns with
  | nil =>
    intro q V
    simp [CountGroupsRel.scan, Bfs.scan, Step.erase]
  | cons w rest ih =>
    intro q V
    by_cases h2 : w ∈ V
    · simpa [CountGroupsRel.scan, Bfs.scan, h2] using ih q V
    · simpa [CountGroupsRel.scan, Bfs.scan, h2] using ih (q ++ [(w, d + 1)]) _

theorem CountGroupsRel_bfs_eq (conn0 : AdjMap Int) :
    ∀ (fuel : Nat) (conn : AdjMap Int) (q : List (Int × Nat)) (V : List Int),
      KeySorted conn → (∀ u, (find conn u).getD [] = (find conn0 u).getD []) →
      ∃ conn', KeySorted conn' ∧ (∀ u, (find conn' u).getD [] = (find conn0 u).getD []) ∧
        CountGroupsRel.bfs fuel conn (q.map Prod.fst) V = Res.map (fun V' => (conn', V'))
          (visitedOut (Bfs.loop (connNbrs conn0) (fun _ => false) (fun _ => false) fuel q V [])) := by
  intro fuel
  induction fuel with
  | zero =>
    intro conn q V hs he
    cases q with
    | nil => exact ⟨conn, hs, he, by simp [CountGroupsRel.bfs, Bfs.loop, visitedOut, Res.map]⟩
    | cons a q => exact ⟨conn, hs, he, by simp [CountGroupsRel.bfs, Bfs.loop, visitedOut, Res.map]⟩
  | succ fuel ih =>
    intro conn q V hs he
    cases q with
    | nil => exact ⟨conn, hs, he, by simp [CountGroupsRel.bfs, Bfs.loop, visitedOut, Res.map]⟩
    | cons a q =>
      obtain ⟨u, d⟩ := a
      have hl : (find (touch conn u) u).getD [] = (find conn0 u).getD [] := by
        rw [find_touch conn hs, he]
      have hsc := CountGroupsRel_scan_eq d ((find conn0 u).getD []) q V
      cases hb : Bfs.scan (fun _ => false) d ((find conn0 u).getD []) q V with
      | ret k =>
        rw [hb] at hsc
        simp [Step.erase] at hsc
      | next st =>
        rw [hb] at hsc
        simp only [Step.erase, Step.next.injEq] at hsc
        obtain ⟨conn', h1, h2, h3⟩ := ih (touch conn u) st.1 st.2 (keySorted_touch conn hs u)
          (fun p => by rw [find_touch conn hs, he])
        refine ⟨conn', h1, h2, ?_⟩
        simp only [List.map_cons, CountGroupsRel.bfs, Bfs.loop, connNbrs, hl, hb, ← hsc,
          Bool.false_eq_true, if_false]
        exact h3

theorem CountGroupsRel_outer_eq (conn0 : AdjMap Int) (fuel : Nat) :
    ∀ (seeds : List Int) (conn : AdjMap Int) (V : List Int) (n : Nat),
      KeySorted conn → (∀ u, (find conn u).getD [] = (find conn0 u).getD []) →
      CountGroupsRel.outer fuel seeds conn V n
        = componentCount (connNbrs conn0) fuel seeds V n := by
  intro seeds
  induction seeds with
  | nil =>
    intro conn V n _ _
    simp [CountGroupsRel.outer, componentCount]
  | cons s rest ih =>
    intro conn V n hs he
    by_cases hsV : s ∈ V
    · simpa [CountGroupsRel.outer, componentCount, hsV] using ih conn V n hs he
    · obtain ⟨conn', h1, h2, h3⟩ := CountGroupsRel_bfs_eq conn0 fuel conn [(s, 0)]
        (setInsert s V) hs he
      simp only [List.map_cons, List.map_nil] at h3
      simp only [CountGroupsRel.outer, componentCount, hsV, if_false, h3]
      cases visitedOut (Bfs.loop (connNbrs conn0) (fun _ => false)
          (fun _ => false) fuel [(s, 0)] (setInsert s V) []) with
      | ok V' =>
        simp only [Res.map]
        exact ih conn' V' (n + 1) h1 h2
      | outOfRange => rfl
      | outOfFuel => rfl

theorem mem_find_pushBack {β : Type} (m : AdjMap β) (hm : KeySorted m) (k : Int) (y x : β)
    (u : Int) :
    x ∈ (find (pushBack m k y) u).getD [] ↔ x ∈ (find m u).getD [] ∨ (u = k ∧ x = y) := by
  rw [find_pushBack m hm]
  by_cases h : u = k
  · subst h
    simp
  · simp [h]

theorem connections_inner (r : String) (k : Int) :
    ∀ (adj : List (Int × String)) (conn : AdjMap Int), KeySorted conn →
      KeySorted (adj.foldl (fun conn rel =>
          if rel.2 = r then pushBack (pushBack conn k rel.1) rel.1 k else conn) conn) ∧
      ∀ u x, x ∈ (find (adj.foldl (fun conn rel =>
          if rel.2 = r then pushBack (pushBack conn k rel.1) rel.1 k else conn) conn) u).getD []
        ↔ x ∈ (find conn u).getD [] ∨
          ∃ p ∈ adj, p.2 = r ∧ ((u = k ∧ x = p.1) ∨ (u = p.1 ∧ x = k)) := by
  intro adj
  induction adj with
  | nil =>
    intro conn hs
    simp [hs]
  | cons p adj ih =>
    intro conn hs
    rw [List.foldl_cons]
    by_cases hp : p.2 = r
    · simp only [hp, if_true]
      have hs1 := keySorted_pushBack conn hs k p.1
      have hs2 := keySorted_pushBack _ hs1 p.1 k
      obtain ⟨h1, h2⟩ := ih _ hs2
      refine ⟨h1, ?_⟩
      intro u x
      rw [h2, mem_find_pushBack _ hs1, mem_find_pushBack _ hs]
      constructor
      · rintro (((h | h) | h) | ⟨p', hp', h⟩)
        · exact Or.inl h
        · exact Or.inr ⟨p, List.mem_cons_self _ _, hp, Or.inl h⟩
        · exact Or.inr ⟨p, List.mem_cons_self _ _, hp, Or.inr h⟩
        · exact Or.inr ⟨p', List.mem_cons_of_mem _ hp', h⟩
      · rintro (h | ⟨p', hp', hr, h⟩)
        · exact Or.inl (Or.inl (Or.inl h))
        · rcases List.mem_cons.1 hp' with h' | h'
          · subst h'
            rcases h with h | h
            · exact Or.inl (Or.inl (Or.inr h))
            · exact Or.inl (Or.inr h)
          · exact Or.inr ⟨p', h', hr, h⟩
    · simp only [hp, if_false]
      obtain ⟨h1, h2⟩ := ih conn hs
      refine ⟨h1, ?_⟩
      intro u x
      rw [h2]
      constructor
      · rintro (h | ⟨p', hp', h⟩)
        · exact Or.inl h
        · exact Or.inr ⟨p', List.mem_cons_of_mem _ hp', h⟩
      · rintro (h | ⟨p', hp', hr, h⟩)
        · exact Or.inl h
        · rcases List.mem_cons.1 hp' with h' | h'
          · subst h'
            exact absurd hr hp
          · exact Or.inr ⟨p', h', hr, h⟩

theorem connections_outer (r : String) :
    ∀ (m : AdjMap (Int × String)) (conn : AdjMap Int), KeySorted conn →
      KeySorted (m.foldl (fun conn pair => pair.2.foldl (fun conn rel =>
          if rel.2 = r then pushBack (pushBack conn pair.1 rel.1) rel.1 pair.1 else conn) conn)
        conn) ∧
      ∀ u x, x ∈ (find (m.foldl (fun conn pair => pair.2.foldl (fun conn rel =>
          if rel.2 = r then pushBack (pushBack conn pair.1 rel.1) rel.1 pair.1 else conn) conn)
        conn) u).getD []
        ↔ x ∈ (find conn u).getD [] ∨
          ∃ e ∈ m, ∃ p ∈ e.2, p.2 = r ∧ ((u = e.1 ∧ x = p.1) ∨ (u = p.1 ∧ x = e.1)) := by
  intro m
  induction m with
  | nil =>
    intro conn hs
    simp [hs]
  | cons e m ih =>
    intro conn hs
    rw [List.foldl_cons]
    obtain ⟨hs1, hin⟩ := connections_inner r e.1 e.2 conn hs
    obtain ⟨h1, h2⟩ := ih _ hs1
    refine ⟨h1, ?_⟩
    intro u x
    rw [h2, hin]
    constructor
    · rintro ((h | h) | ⟨e', he', h⟩)
      · exact Or.inl h
      · exact Or.inr ⟨e, List.mem_cons_self _ _, h⟩
      · exact Or.inr ⟨e', List.mem_cons_of_mem _ he', h⟩
    · rintro (h | ⟨e', he', h⟩)
      · exact Or.inl (Or.inl h)
      · rcases List.mem_cons.1 he' with h' | h'
        · subst h'
          exact Or.inl (Or.inr h)
        · exact Or.inr ⟨e', h', h⟩

theorem keySorted_connections (relations_ : AdjMap (Int × String)) (r : String) :
    KeySorted (CountGroupsRel.connections relations_ r) :=
  (connections_outer r relations_ [] List.Pairwise.nil).1

/-- The map `connections_by_relationship` of a built graph holds, under
each person, its neighbors over the triples labelled `r`. -/
theorem mem_connections (people : List Int) (ts : List (Int × Int × String)) (r : String)
    (u x : Int) :
    x ∈ (find (CountGroupsRel.connections (build people ts).relations_ r) u).getD []
      ↔ Adj ts (onlyLabel r) u x := by
  unfold CountGroupsRel.connections
  rw [(connections_outer r (build people ts).relations_ [] List.Pairwise.nil).2]
  simp only [find, Option.getD_none, List.not_mem_nil, false_or]
  constructor
  · rintro ⟨e, he, p, hp, hr, h⟩
    have hf := find_of_mem _ (keySorted_build people ts) e.1 e.2 he
    have hp' : (p.1, p.2) ∈ e.2 := hp
    have ht := (build_find_some hf p.1 p.2).1 hp'
    rcases h with ⟨h1, h2⟩ | ⟨h1, h2⟩
    · subst h1
      subst h2
      exact ⟨p.2, hr, ht⟩
    · subst h1
      subst h2
      exact ⟨p.2, hr, ht.symm⟩
  · rintro ⟨l, hl, ht⟩
    obtain ⟨adj, hadj⟩ := Option.isSome_iff_exists.1
      (adj_entry people (⟨l, hl, ht⟩ : Adj ts (onlyLabel r) u x)).1
    exact ⟨(u, adj), mem_of_find _ _ _ hadj, (x, l), (build_find_some hadj x l).2 ht, hl,
      Or.inl ⟨rfl, rfl⟩⟩

theorem graph_connNbrs (people : List Int) (ts : List (Int × Int × String)) (r : String)
    (V0 : List Int) (hV0 : ∀ v ∈ V0, ∀ w, Adj ts (onlyLabel r) v w → w ∈ V0) :
    Bfs.Graph (Adj ts (onlyLabel r))
      (connNbrs (CountGroupsRel.connections (build people ts).relations_ r))
      (keysOf (build people ts).relations_) V0 where
  nbr := by
    intro u ns hns w
    unfold connNbrs at hns
    simp only [Option.some.injEq] at hns
    subst hns
    exact mem_connections people ts r u w
  entry := by
    intro u w _
    rfl
  univ := by
    intro u w h
    exact (find_isSome_iff _ _).1 (adj_entry people h).2
  closed := hV0

/-- The value of the single-label count: the size of a system of representatives of the
listed persons. -/
theorem CountGroupsRel_value (people : List Int) (ts : List (Int × Int × String)) (r : String) :
    ∃ reps, CountGroupsRel (build people ts) r = .ok reps.length ∧
      IsRepSystem (Reach (Adj ts (onlyLabel r))) (fun v => v ∈ people) reps := by
  obtain ⟨reps, h1, h2⟩ := componentCount_value (E := Adj ts (onlyLabel r)) Adj.symm
    (fun V0 h => graph_connNbrs people ts r V0 h) (fun _ => rfl) (fuelOf (build people ts))
    (by rw [keysOf_length]; rfl) people
  refine ⟨reps, ?_, h2⟩
  unfold CountGroupsRel
  rw [CountGroupsRel_outer_eq (CountGroupsRel.connections (build people ts).relations_ r) _ _ _ _ _
    (keySorted_connections _ _) (fun _ => rfl)]
  exact h1

/-- A node without any edge is reached only from itself. -/
theorem Reach.isolated {E : Int → Int → Prop} (hs : ∀ x y, E x y → E y x) {a b : Int}
    (h : Reach E a b) (hb : ∀ w, ¬ E b w) : a = b := by
  by_contra hne
  obtain ⟨_, ⟨c, hc⟩⟩ := h.ends hs hne
  exact hb c hc

/-- C7: for every person list, triple list and label `rel`,
`CountGroups(rel)` returns the number of classes of listed persons under
reachability along edges labelled `rel` (paths may pass through unlisted
persons): the size of a system of representatives of these classes, and of
every such system.  Every representative is a listed person, so a
component without listed person is not counted; a listed person without
edge labelled `rel` is a representative, a group of its own. -/
theorem CountGroupsRel_classes (people : List Int) (ts : List (Int × Int × String))
    (rel : String) :
    ∃ n, CountGroupsRel (build people ts) rel = .ok n ∧
      (∃ reps, IsRepSystem (Reach (Adj ts (onlyLabel rel))) (fun v => v ∈ people) reps ∧
        reps.length = n) ∧
      (∀ reps, IsRepSystem (Reach (Adj ts (onlyLabel rel))) (fun v => v ∈ people) reps →
        reps.length = n ∧ (∀ r ∈ reps, r ∈ people) ∧
        ∀ v ∈ people, (∀ w, ¬ Adj ts (onlyLabel rel) v w) → v ∈ reps) := by
  obtain ⟨reps, h1, h2⟩ := CountGroupsRel_value people ts rel
  refine ⟨reps.length, h1, ⟨reps, h2, rfl⟩, ?_⟩
  intro reps' h
  have he := reach_equiv (Adj ts (onlyLabel rel)) Adj.symm
  refine ⟨repSystem_length_unique he.1 he.2 h h2, h.1, ?_⟩
  intro v hv hiso
  obtain ⟨r, hr, hrv⟩ := h.2.2 v hv
  have := hrv.isolated Adj.symm hiso
  subst this
  exact hr

/-- C8: for a graph built from a person list and triples and a label `rel`,
the label-set count called with the singleton `[rel]` and the single-label
count return the same number. -/
theorem CountGroupsRels_singleton (people : List Int) (ts : List (Int × Int × String))
    (rel : String) :
    ∃ n, CountGroupsRels (build people ts) [rel] = .ok n ∧
      CountGroupsRel (build people ts) rel = .ok n := by
  obtain ⟨reps, h1, h2⟩ := CountGroupsRel_value people ts rel
  obtain ⟨reps', h3, h4⟩ := componentCount_build people ts (fun l => decide (l ∈ [rel]))
    (onlyLabel rel) (by simp [onlyLabel]) people
  have he := reach_equiv (Adj ts (onlyLabel rel)) Adj.symm
  have hlen := repSystem_length_unique he.1 he.2 h4 h2
  refine ⟨reps.length, ?_, h1⟩
  unfold CountGroupsRels
  rw [CountGroupsRels_outer_eq, ← hlen]
  exact h3

/-! ## Self queries, unknown persons, and the relation between the queries -/

/-- C11: for every graph, every ID `p` and every label `rel`, whether or not
`p` appears in the graph: `AreRelated(p, p)` and `AreRelated(p, p, rel)`
return true, `GetRelated(p, p)` and `GetRelated(p, p, rel)` return 0. -/
theorem self_queries (g : IlliniBook) (p : Int) (rel : String) :
    AreRelated g p p = .ok true ∧ AreRelatedRel g p p rel = .ok true ∧
      GetRelated g p p = .ok 0 ∧ GetRelatedRel g p p rel = .ok 0 := by
  simp [AreRelated, AreRelatedRel, GetRelated, GetRelatedRel]

theorem isNone_of_not_hasEntry {g : IlliniBook} {p1 p2 : Int}
    (h : ¬ hasEntry g p1 ∨ ¬ hasEntry g p2) :
    ((find g.relations_ p1).isNone || (find g.relations_ p2).isNone) = true := by
  unfold hasEntry at h
  rcases h with h | h
  · cases hf : find g.relations_ p1 with
    | none => simp
    | some a =>
      rw [hf] at h
      simp at h
  · cases hf : find g.relations_ p2 with
    | none => simp
    | some a =>
      rw [hf] at h
      simp at h

/-- C12: for every graph and IDs `p1 ≠ p2` of which at least one has no
entry in the adjacency map: `AreRelated` returns false and `GetRelated`
returns `-1`, unfiltered and for every label. -/
theorem unknown_person_queries (g : IlliniBook) (p1 p2 : Int) (rel : String) (hne : p1 ≠ p2)
    (h : ¬ hasEntry g p1 ∨ ¬ hasEntry g p2) :
    AreRelated g p1 p2 = .ok false ∧ AreRelatedRel g p1 p2 rel = .ok false ∧
      GetRelated g p1 p2 = .ok (-1) ∧ GetRelatedRel g p1 p2 rel = .ok (-1) := by
  have h1 := isNone_of_not_hasEntry h
  simp [AreRelated, AreRelatedRel, GetRelated, GetRelatedRel, hne, h1]

theorem unknown_person_queries_witness :
    (1 : Int) ≠ 7 ∧
      (¬ hasEntry (build [1, 2, 3, 4] [(1, 2, "sibling"), (2, 3, "friend")]) 1 ∨
        ¬ hasEntry (build [1, 2, 3, 4] [(1, 2, "sibling"), (2, 3, "friend")]) 7) ∧
      (AreRelated (build [1, 2, 3, 4] [(1, 2, "sibling"), (2, 3, "friend")]) 1 7 = .ok false ∧
        AreRelatedRel (build [1, 2, 3, 4] [(1, 2, "sibling"), (2, 3, "friend")]) 1 7 "friend"
          = .ok false ∧
        GetRelated (build [1, 2, 3, 4] [(1, 2, "sibling"), (2, 3, "friend")]) 1 7 = .ok (-1) ∧
        GetRelatedRel (build [1, 2, 3, 4] [(1, 2, "sibling"), (2, 3, "friend")]) 1 7 "friend"
          = .ok (-1)) :=
  ⟨by decide, by decide,
    unknown_person_queries (build [1, 2, 3, 4] [(1, 2, "sibling"), (2, 3, "friend")]) 1 7
      "friend" (by decide) (by decide)⟩

/-- C14: for every graph, every ID `p` and every integer `n`: when `p` has no
entry in the adjacency map or `n` is negative, `GetSteps(p, n)` returns the
empty vector. -/
theorem GetSteps_empty (g : IlliniBook) (p : Int) (n : Int) (h : ¬ hasEntry g p ∨ n < 0) :
    GetSteps g p n = .ok [] := by
  have h1 : ((find g.relations_ p).isNone || decide (n < 0)) = true := by
    unfold hasEntry at h
    rcases h with h | h
    · cases hf : find g.relations_ p with
      | none => simp
      | some a =>
        rw [hf] at h
        simp at h
    · simp [h]
  unfold GetSteps
  rw [h1]
  rfl

theorem GetSteps_empty_witness :
    (¬ hasEntry (build [1, 2, 3, 4] [(1, 2, "sibling"), (2, 3, "friend")]) 1 ∨ (-2 : Int) < 0) ∧
      GetSteps (build [1, 2, 3, 4] [(1, 2, "sibling"), (2, 3, "friend")]) 1 (-2) = .ok [] :=
  ⟨by decide,
    GetSteps_empty (build [1, 2, 3, 4] [(1, 2, "sibling"), (2, 3, "friend")]) 1 (-2)
      (by decide)⟩

/-- The value of the unfiltered connectivity query on a built graph. -/
theorem AreRelated_value (people : List Int) (ts : List (Int × Int × String)) (p1 p2 : Int) :
    ∃ b, AreRelated (build people ts) p1 p2 = .ok b ∧
      (b = true ↔ p1 = p2 ∨ Reach (Adj ts anyLabel) p1 p2) := by
  refine bool_value people ts (fun _ => true) anyLabel (by simp [anyLabel]) p1 p2 _ ?_
  unfold AreRelated
  have h := AreRelated_loop_eq (build people ts).relations_ p2 (fuelOf (build people ts))
    [(p1, 0)] (setInsert p1 [])
  simp only [List.map_cons, List.map_nil] at h
  rw [h]

/-- The value of the filtered connectivity query on a built graph. -/
theorem AreRelatedRel_value (people : List Int) (ts : List (Int × Int × String))
    (rel : String) (p1 p2 : Int) :
    ∃ b, AreRelatedRel (build people ts) p1 p2 rel = .ok b ∧
      (b = true ↔ p1 = p2 ∨ Reach (Adj ts (onlyLabel rel)) p1 p2) := by
  refine bool_value people ts (fun l => decide (l = rel)) (onlyLabel rel) (by simp [onlyLabel])
    p1 p2 _ ?_
  unfold AreRelatedRel
  have h := AreRelatedRel_loop_eq (build people ts).relations_ p2 rel (fuelOf (build people ts))
    [(p1, 0)] (setInsert p1 [])
  simp only [List.map_cons, List.map_nil] at h
  rw [h]

theorem Reach.widen {E F : Int → Int → Prop} (hEF : ∀ x y, E x y → F x y) {a b : Int}
    (h : Reach E a b) : Reach F a b := by
  obtain ⟨n, hn⟩ := h
  exact ⟨n, hn.mono hEF⟩

theorem Adj.any {ts : List (Int × Int × String)} {keep : String → Prop} (x y : Int)
    (h : Adj ts keep x y) : Adj ts anyLabel x y := by
  obtain ⟨l, _, h⟩ := h
  exact ⟨l, trivial, h⟩

/-- C13: for a graph built from a person list and triples, IDs `a`, `b` and a
label `rel`: when the filtered `AreRelated(a, b, rel)` returns true, the
unfiltered `AreRelated(a, b)` returns true. -/
theorem filtered_implies_unfiltered (people : List Int) (ts : List (Int × Int × String))
    (a b : Int) (rel : String) (h : AreRelatedRel (build people ts) a b rel = .ok true) :
    AreRelated (build people ts) a b = .ok true := by
  obtain ⟨b1, h1, hb1⟩ := AreRelatedRel_value people ts rel a b
  obtain ⟨b2, h2, hb2⟩ := AreRelated_value people ts a b
  rw [h1] at h
  have hb : b1 = true := Res.ok.inj h
  have hreach := hb1.1 hb
  have : b2 = true := by
    apply hb2.2
    rcases hreach with h' | h'
    · exact Or.inl h'
    · exact Or.inr (h'.widen Adj.any)
  rw [h2, this]

theorem filtered_implies_unfiltered_witness :
    AreRelatedRel (build [1, 2, 3, 4] [(1, 2, "sibling"), (2, 3, "friend")]) 1 2 "sibling"
        = .ok true ∧
      AreRelated (build [1, 2, 3, 4] [(1, 2, "sibling"), (2, 3, "friend")]) 1 2 = .ok true :=
  ⟨by decide,
    filtered_implies_unfiltered [1, 2, 3, 4] [(1, 2, "sibling"), (2, 3, "friend")] 1 2 "sibling"
      (by decide)⟩

theorem bool_dist_agree {E : Int → Int → Prop} {a b : Int} (hne : a ≠ b) {rb : Res Bool}
    {rd : Res Int} (hfit : ∀ k, Dist E a b k → k < 4294967295)
    (h1 : ∃ v, rb = .ok v ∧ (v = true ↔ a = b ∨ Reach E a b))
    (h2 : (∃ k : Nat, rd = .ok (wrapInt (k : Int)) ∧ Dist E a b k) ∨
      (rd = .ok (-1) ∧ ¬ Reach E a b)) :
    ∃ v d, rb = .ok v ∧ rd = .ok d ∧ (v = true ↔ d ≠ -1) := by
  obtain ⟨v, hv, hiff⟩ := h1
  rcases h2 with ⟨k, hk, hd⟩ | ⟨hk, hn⟩
  · refine ⟨v, wrapInt (k : Int), hv, hk, ?_⟩
    have hlt := hfit k hd
    constructor
    · intro _
      unfold wrapInt
      omega
    · intro _
      exact hiff.2 (Or.inr ⟨k, hd.1⟩)
  · refine ⟨v, -1, hv, hk, ?_⟩
    constructor
    · intro h
      rcases hiff.1 h with h' | h'
      · exact absurd h' hne
      · exact absurd h' hn
    · intro h
      exact absurd rfl h

/-- C19, as stated, fails: on the path of 4294967295 edges through all
`int` IDs -2147483648, ..., 2147483647 the two ends are connected,
`AreRelated` returns true, and the 32-bit distance of `GetRelated` comes
out as -1. -/
theorem connected_at_distance_minus_one :
    AreRelated (build [] (pathFrom (-2147483648) 4294967295)) (-2147483648) 2147483647
        = .ok true ∧
      GetRelated (build [] (pathFrom (-2147483648) 4294967295)) (-2147483648) 2147483647
        = .ok (-1) := by
  have hd : Dist (Adj (pathFrom (-2147483648) 4294967295) anyLabel) (-2147483648) 2147483647
      4294967295 := dist_pathFrom anyLabel trivial (-2147483648) 4294967295
  constructor
  · obtain ⟨v, hv, hiff⟩ := AreRelated_value [] (pathFrom (-2147483648) 4294967295)
      (-2147483648) 2147483647
    rw [hv, hiff.2 (Or.inr ⟨_, hd.1⟩)]
  · rcases GetRelated_value [] (pathFrom (-2147483648) 4294967295) (-2147483648) 2147483647
      (by omega) with ⟨k, hk, hk'⟩ | ⟨_, hn⟩
    · have := hk'.unique hd
      subst this
      rw [hk]
      rfl
    · exact absurd ⟨_, hd.1⟩ hn

/-- C19, amended: for a graph built from a person list and triples and any
IDs `a`, `b`: when the shortest path between them, if there is one, has
fewer than 4294967295 edges, `AreRelated(a, b)` and `GetRelated(a, b)`
return and the former is true if and only if the latter is not `-1`; the
same holds for every label `rel` between `AreRelated(a, b, rel)` and
`GetRelated(a, b, rel)`, when the shortest path over edges labelled `rel`,
if there is one, has fewer than 4294967295 edges. -/
theorem connected_iff_distance (people : List Int) (ts : List (Int × Int × String)) (a b : Int) :
    ((∀ k, Dist (Adj ts anyLabel) a b k → k < 4294967295) →
      ∃ v d, AreRelated (build people ts) a b = .ok v ∧ GetRelated (build people ts) a b = .ok d ∧
        (v = true ↔ d ≠ -1)) ∧
      ∀ rel, (∀ k, Dist (Adj ts (onlyLabel rel)) a b k → k < 4294967295) →
        ∃ v d, AreRelatedRel (build people ts) a b rel = .ok v ∧
          GetRelatedRel (build people ts) a b rel = .ok d ∧ (v = true ↔ d ≠ -1) := by
  by_cases hne : a = b
  · subst hne
    constructor
    · intro _
      exact ⟨true, 0, by simp [AreRelated], by simp [GetRelated], by simp⟩
    · intro rel _
      exact ⟨true, 0, by simp [AreRelatedRel], by simp [GetRelatedRel], by simp⟩
  · constructor
    · intro hfit
      exact bool_dist_agree hne hfit (AreRelated_value people ts a b)
        (GetRelated_value people ts a b hne)
    · intro rel hfit
      exact bool_dist_agree hne hfit (AreRelatedRel_value people ts rel a b)
        (GetRelatedRel_value people ts rel a b hne)

theorem connected_iff_distance_witness :
    (∀ k, Dist (Adj [(1, 2, "sibling"), (2, 3, "friend")] anyLabel) 1 3 k → k < 4294967295) ∧
      ∃ v d, AreRelated (build [1, 2, 3, 4] [(1, 2, "sibling"), (2, 3, "friend")]) 1 3 = .ok v ∧
        GetRelated (build [1, 2, 3, 4] [(1, 2, "sibling"), (2, 3, "friend")]) 1 3 = .ok d ∧
        (v = true ↔ d ≠ -1) :=
  ⟨fun k hk => by have := scenario_fits anyLabel trivial trivial k hk; omega,
    (connected_iff_distance [1, 2, 3, 4] [(1, 2, "sibling"), (2, 3, "friend")] 1 3).1
      (fun k hk => by have := scenario_fits anyLabel trivial trivial k hk; omega)⟩

/-- The fixed-depth query on a built graph always returns. -/
theorem GetSteps_returns (people : List Int) (ts : List (Int × Int × String)) (p : Int)
    (n : Int) : ∃ xs, GetSteps (build people ts) p n = .ok xs := by
  by_cases h : ¬ hasEntry (build people ts) p ∨ n < 0
  · have h1 : ((find (build people ts).relations_ p).isNone || decide (n < 0)) = true := by
      unfold hasEntry at h
      rcases h with h | h
      · cases hf : find (build people ts).relations_ p with
        | none => simp
        | some a =>
          rw [hf] at h
          simp at h
      · simp [h]
    refine ⟨[], ?_⟩
    unfold GetSteps
    rw [h1]
    rfl
  · have hp : hasEntry (build people ts) p := by
      by_contra hc
      exact h (Or.inl hc)
    have hn : 0 ≤ n := by
      by_contra hc
      exact h (Or.inr (by omega))
    obtain ⟨m, hm⟩ := Int.eq_ofNat_of_zero_le hn
    subst hm
    obtain ⟨xs, hxs, _⟩ := steps_value people ts p m hp
    exact ⟨xs, hxs⟩

/-- C15: for a graph built from a person list and triples, no query fails,
whatever the IDs, the label and the depth (unknown IDs and negative depths
included): `AreRelated`, `GetRelated`, their filtered forms and `GetSteps`
all return a value, so no lookup `relations_.at(current)` made by their
searches is on an ID without entry (the model would yield the out-of-range
result). -/
theorem queries_never_fail (people : List Int) (ts : List (Int × Int × String)) (p1 p2 : Int)
    (rel : String) (n : Int) :
    ((∃ v, AreRelated (build people ts) p1 p2 = .ok v) ∧
      (∃ v, AreRelatedRel (build people ts) p1 p2 rel = .ok v) ∧
      (∃ v, GetRelated (build people ts) p1 p2 = .ok v) ∧
      (∃ v, GetRelatedRel (build people ts) p1 p2 rel = .ok v) ∧
      (∃ v, GetSteps (build people ts) p1 n = .ok v)) ∧
    (AreRelated (build people ts) p1 p2 ≠ .outOfRange ∧
      AreRelatedRel (build people ts) p1 p2 rel ≠ .outOfRange ∧
      GetRelated (build people ts) p1 p2 ≠ .outOfRange ∧
      GetRelatedRel (build people ts) p1 p2 rel ≠ .outOfRange ∧
      GetSteps (build people ts) p1 n ≠ .outOfRange) := by
  obtain ⟨v1, h1, _⟩ := AreRelated_value people ts p1 p2
  obtain ⟨v2, h2, _⟩ := AreRelatedRel_value people ts rel p1 p2
  obtain ⟨v5, h5⟩ := GetSteps_returns people ts p1 n
  have h3 : ∃ v, GetRelated (build people ts) p1 p2 = .ok v := by
    by_cases hne : p1 = p2
    · exact ⟨0, by simp [GetRelated, hne]⟩
    · rcases GetRelated_value people ts p1 p2 hne with ⟨k, hk, _⟩ | ⟨hk, _⟩
      · exact ⟨_, hk⟩
      · exact ⟨_, hk⟩
  have h4 : ∃ v, GetRelatedRel (build people ts) p1 p2 rel = .ok v := by
    by_cases hne : p1 = p2
    · exact ⟨0, by simp [GetRelatedRel, hne]⟩
    · rcases GetRelatedRel_value people ts rel p1 p2 hne with ⟨k, hk, _⟩ | ⟨hk, _⟩
      · exact ⟨_, hk⟩
      · exact ⟨_, hk⟩
  obtain ⟨v3, h3⟩ := h3
  obtain ⟨v4, h4⟩ := h4
  refine ⟨⟨⟨v1, h1⟩, ⟨v2, h2⟩, ⟨v3, h3⟩, ⟨v4, h4⟩, ⟨v5, h5⟩⟩, ?_⟩
  rw [h1, h2, h3, h4, h5]
  simp

/-- C17: the scenario people = [1,2,3,4], relations = [(1,2,"sibling"),
(2,3,"friend")]: `AreRelated(1,3)` is true, `GetRelated(1,3)` is 2,
`AreRelated(1,3,"sibling")` is false, `CountGroups()` is 2,
`CountGroups("sibling")` is 3, `GetSteps(1,1)` is [2] and `GetSteps(1,2)` is
[3]. -/
theorem scenario_sibling_friend :
    AreRelated (build [1, 2, 3, 4] [(1, 2, "sibling"), (2, 3, "friend")]) 1 3 = .ok true ∧
      GetRelated (build [1, 2, 3, 4] [(1, 2, "sibling"), (2, 3, "friend")]) 1 3 = .ok 2 ∧
      AreRelatedRel (build [1, 2, 3, 4] [(1, 2, "sibling"), (2, 3, "friend")]) 1 3 "sibling"
        = .ok false ∧
      CountGroups (build [1, 2, 3, 4] [(1, 2, "sibling"), (2, 3, "friend")]) = .ok 2 ∧
      CountGroupsRel (build [1, 2, 3, 4] [(1, 2, "sibling"), (2, 3, "friend")]) "sibling"
        = .ok 3 ∧
      GetSteps (build [1, 2, 3, 4] [(1, 2, "sibling"), (2, 3, "friend")]) 1 1 = .ok [2] ∧
      GetSteps (build [1, 2, 3, 4] [(1, 2, "sibling"), (2, 3, "friend")]) 1 2 = .ok [3] := by
  decide

/-! ## The adjacency map of a built graph -/

theorem halfEdgesOf_eq_declaredFrom (p : Int) (ts : List (Int × Int × String)) :
    halfEdgesOf p ts = declaredFrom p ts := by
  induction ts with
  | nil => rfl
  | cons t ts ih =>
    unfold declaredFrom at ih ⊢
    by_cases h1 : t.1 = p <;> by_cases h2 : t.2.1 = p <;>
      simp [halfEdgesOf, halfEdges, List.filter_cons, h1, h2, ih]

theorem count_halfEdgesOf (a b : Int) (l : String) (ts : List (Int × Int × String)) :
    (halfEdgesOf a ts).count (b, l) = ts.count (a, b, l) + ts.count (b, a, l) := by
  induction ts with
  | nil => simp [halfEdgesOf]
  | cons t ts ih =>
    obtain ⟨x, y, m⟩ := t
    have hc : ∀ (c : Prop) [Decidable c] (u v : Int × String),
        (if c then [u] else []).count v = if c ∧ u = v then 1 else 0 := by
      intro c _ u v
      by_cases h : c <;> by_cases h' : u = v <;> simp [h, h', List.count_singleton]
    simp only [halfEdgesOf, List.count_append, ih, List.count_cons, hc, beq_iff_eq,
      Prod.mk.injEq]
    by_cases h1 : x = a <;> by_cases h2 : y = a <;> by_cases h3 : x = b <;>
      by_cases h4 : y = b <;> by_cases h5 : m = l <;>
      simp [h1, h2, h3, h4, h5] <;> (try split_ifs) <;> omega

/-- C16: construction yields an adjacency map in which the list stored
under each ID `p` is exactly the sequence of declared half-edges leaving `p`
(for each triple `(A, B, label)` first `A -> (B, label)`, then
`B -> (A, label)`), in declaration order and without deduplication, an ID
having no entry exactly when that sequence is empty; consequently
`(b, label)` occurs in the list of `a` as many times as `(a, label)` occurs
in the list of `b`. -/
theorem build_adjacency (people : List Int) (ts : List (Int × Int × String)) :
    (∀ p, (find (build people ts).relations_ p).getD [] = declaredFrom p ts ∧
        (find (build people ts).relations_ p = none ↔ declaredFrom p ts = [])) ∧
      ∀ a b l, ((find (build people ts).relations_ a).getD []).count (b, l)
        = ((find (build people ts).relations_ b).getD []).count (a, l) := by
  have key : ∀ p, (find (build people ts).relations_ p).getD [] = halfEdgesOf p ts ∧
      (find (build people ts).relations_ p = none ↔ halfEdgesOf p ts = []) := by
    intro p
    rw [find_build]
    cases halfEdgesOf p ts with
    | nil => simp [extendWith]
    | cons x r => simp [extendWith]
  constructor
  · intro p
    rw [← halfEdgesOf_eq_declaredFrom]
    exact key p
  · intro a b l
    rw [(key a).1, (key b).1, count_halfEdgesOf, count_halfEdgesOf]
    omega

/-! ## No person is collected twice -/

theorem Bfs.scan_nodup (tgt : Int → Bool) (d : Nat) (res : List Int) :
    ∀ (pend : List Int) (q : List (Int × Nat)) (V : List Int),
      (res ++ q.map Prod.fst).Nodup → (∀ x ∈ res ++ q.map Prod.fst, x ∈ V) →
      ∀ q' V', Bfs.scan tgt d pend q V = .next (q', V') →
        (res ++ q'.map Prod.fst).Nodup ∧ ∀ x ∈ res ++ q'.map Prod.fst, x ∈ V' := by
  intro pend
  induction pend with
  | nil =>
    intro q V hn hV q' V' h
    simp only [Bfs.scan, Step.next.injEq, Prod.mk.injEq] at h
    obtain ⟨h1, h2⟩ := h
    subst h1
    subst h2
    exact ⟨hn, hV⟩
  | cons w rest ih =>
    intro q V hn hV q' V' h
    by_cases ht : tgt w = true
    · simp [Bfs.scan, ht] at h
    · have ht' : tgt w = false := by simpa using ht
      by_cases hw : w ∈ V
      · have h1 : Bfs.scan tgt d (w :: rest) q V = Bfs.scan tgt d rest q V := by
          simp [Bfs.scan, ht', hw]
        rw [h1] at h
        exact ih q V hn hV q' V' h
      · have h1 : Bfs.scan tgt d (w :: rest) q V
            = Bfs.scan tgt d rest (q ++ [(w, d + 1)]) (setInsert w V) := by
          simp [Bfs.scan, ht', hw]
        rw [h1] at h
        refine ih _ _ ?_ ?_ q' V' h
        · have hnot : w ∉ res ++ q.map Prod.fst := fun hm => hw (hV w hm)
          have heq : res ++ (q ++ [(w, d + 1)]).map Prod.fst
              = (res ++ q.map Prod.fst) ++ [w] := by simp
          rw [heq]
          refine List.nodup_append.2 ⟨hn, List.nodup_singleton w, ?_⟩
          intro x hx hx'
          have : x = w := by simpa using hx'
          subst this
          exact hnot hx
        · intro x hx
          have heq : res ++ (q ++ [(w, d + 1)]).map Prod.fst
              = (res ++ q.map Prod.fst) ++ [w] := by simp
          rw [heq] at hx
          rcases List.mem_append.1 hx with h' | h'
          · exact (mem_setInsert _ _ _).2 (Or.inr (hV x h'))
          · have : x = w := by simpa using h'
            subst this
            exact (mem_setInsert _ _ _).2 (Or.inl rfl)

theorem Bfs.loop_nodup (N : Int → Option (List Int)) (tgt : Int → Bool) (stop : Nat → Bool) :
    ∀ (fuel : Nat) (q : List (Int × Nat)) (V res : List Int),
      (res ++ q.map Prod.fst).Nodup → (∀ x ∈ res ++ q.map Prod.fst, x ∈ V) →
      ∀ V' res', Bfs.loop N tgt stop fuel q V res = .ok (.done V' res') → res'.Nodup := by
  intro fuel
  induction fuel with
  | zero =>
    intro q V res hn hV V' res' h
    cases q with
    | nil =>
      simp only [Bfs.loop, Res.ok.injEq, Bfs.Out.done.injEq] at h
      rw [← h.2]
      simpa using hn
    | cons a q => simp [Bfs.loop] at h
  | succ fuel ih =>
    intro q V res hn hV V' res' h
    cases q with
    | nil =>
      simp only [Bfs.loop, Res.ok.injEq, Bfs.Out.done.injEq] at h
      rw [← h.2]
      simpa using hn
    | cons a q =>
      obtain ⟨u, k⟩ := a
      have heq : (res ++ [u]) ++ q.map Prod.fst = res ++ ((u, k) :: q).map Prod.fst := by simp
      by_cases hst : stop k = true
      · have h1 : Bfs.loop N tgt stop (fuel + 1) ((u, k) :: q) V res
            = Bfs.loop N tgt stop fuel q V (res ++ [u]) := by
          simp [Bfs.loop, hst]
        rw [h1] at h
        refine ih q V (res ++ [u]) ?_ ?_ V' res' h
        · rw [heq]
          exact hn
        · intro x hx
          rw [heq] at hx
          exact hV x hx
      · have hst' : stop k = false := by simpa using hst
        have hsub : (res ++ q.map Prod.fst).Sublist (res ++ ((u, k) :: q).map Prod.fst) := by
          simp only [List.map_cons]
          exact List.Sublist.append_left (List.sublist_cons_self u _) res
        cases hN : N u with
        | none => simp [Bfs.loop, hst', hN] at h
        | some ns =>
          cases hsc : Bfs.scan tgt k ns q V with
          | ret r => simp [Bfs.loop, hst', hN, hsc] at h
          | next st =>
            obtain ⟨q', V2⟩ := st
            have h1 : Bfs.loop N tgt stop (fuel + 1) ((u, k) :: q) V res
                = Bfs.loop N tgt stop fuel q' V2 res := by
              simp [Bfs.loop, hst', hN, hsc]
            rw [h1] at h
            obtain ⟨h2, h3⟩ := Bfs.scan_nodup tgt k res ns q V (hn.sublist hsub)
              (fun x hx => hV x (hsub.subset hx)) q' V2 hsc
            exact ih q' V2 res h2 h3 V' res' h

/-- Whatever the graph, a returned result of `GetSteps` has no repetition. -/
theorem GetSteps_nodup_of_ok (g : IlliniBook) (p : Int) (n : Int) (xs : List Int)
    (h : GetSteps g p n = .ok xs) : xs.Nodup := by
  unfold GetSteps at h
  by_cases hg : ((find g.relations_ p).isNone || decide (n < 0)) = true
  · rw [if_pos hg] at h
    rw [← Res.ok.inj h]
    exact List.nodup_nil
  · rw [if_neg hg, GetSteps_loop_eq] at h
    cases hl : Bfs.loop (nbrsAt g.relations_ (fun _ => true)) (fun _ => false)
        (fun k => decide ((k : Int) = n)) (fuelOf g) [(p, 0)] (setInsert p []) [] with
    | ok out =>
      rw [hl] at h
      cases out with
      | found k =>
        simp only [stepsOut] at h
        by_cases h0 : n = 0
        · simp only [h0, if_true, Res.ok.injEq] at h
          rw [← h]
          exact List.nodup_singleton p
        · simp only [h0, if_false, Res.ok.injEq] at h
          rw [← h]
          exact List.nodup_nil
      | done V res =>
        simp only [stepsOut] at h
        by_cases h0 : n = 0
        · simp only [h0, if_true, Res.ok.injEq] at h
          rw [← h]
          exact List.nodup_singleton p
        · simp only [h0, if_false, Res.ok.injEq] at h
          rw [← h]
          refine Bfs.loop_nodup _ _ _ (fuelOf g) [(p, 0)] (setInsert p []) [] (by simp) ?_ V res hl
          intro x hx
          have : x = p := by simpa using hx
          subst this
          exact (mem_setInsert _ _ _).2 (Or.inl rfl)
    | outOfRange =>
      rw [hl] at h
      simp [stepsOut] at h
    | outOfFuel =>
      rw [hl] at h
      simp [stepsOut] at h

/-- C18: for a graph built from a person list and triples, every ID `p` and
every integer `n`, `GetSteps(p, n)` returns a sequence in which no ID occurs
more than once (repeated edges and self-loops included). -/
theorem GetSteps_nodup (people : List Int) (ts : List (Int × Int × String)) (p : Int) (n : Int) :
    ∃ xs, GetSteps (build people ts) p n = .ok xs ∧ xs.Nodup := by
  obtain ⟨xs, hxs⟩ := GetSteps_returns people ts p n
  exact ⟨xs, hxs, GetSteps_nodup_of_ok _ p n xs hxs⟩

/-! ## The label-set count against the unfiltered count -/

theorem IsRepSystem.congr_rel {R R' : Int → Int → Prop} {nodes : Int → Prop} {reps : List Int}
    (h : ∀ a b, R a b ↔ R' a b) (hr : IsRepSystem R nodes reps) : IsRepSystem R' nodes reps := by
  refine ⟨hr.1, hr.2.1.imp ?_, ?_⟩
  · intro a b hab hR'
    exact hab ((h a b).2 hR')
  · intro v hv
    obtain ⟨r, hr', hrv⟩ := hr.2.2 v hv
    exact ⟨r, hr', (h r v).1 hrv⟩

/-- C20: when every edge endpoint is a listed person and the collection `L`
contains every label of the triples, `CountGroups(L)` and `CountGroups()`
return the same number; without the condition on the endpoints they can
differ: people = [], relations = [(1,2,"a")] gives `CountGroups() = 1` and
`CountGroups(["a"]) = 0`. -/
theorem CountGroupsRels_all_labels :
    (∀ (people : List Int) (ts : List (Int × Int × String)) (L : List String),
      (∀ t ∈ ts, t.1 ∈ people ∧ t.2.1 ∈ people) → (∀ t ∈ ts, t.2.2 ∈ L) →
      ∃ n, CountGroupsRels (build people ts) L = .ok n ∧ CountGroups (build people ts) = .ok n) ∧
    (CountGroups (build [] [(1, 2, "a")]) = .ok 1 ∧
      CountGroupsRels (build [] [(1, 2, "a")]) ["a"] = .ok 0) := by
  refine ⟨?_, by decide⟩
  intro people ts L hend hlab
  obtain ⟨reps1, h1, h2⟩ := componentCount_build people ts (fun l => decide (l ∈ L))
    (inLabels L) (by simp [inLabels]) people
  obtain ⟨reps2, h3, h4⟩ := componentCount_build people ts (fun _ => true) anyLabel
    (by simp [anyLabel]) (CountGroups.allNodes (build people ts))
  have hnodes : ∀ v, v ∈ CountGroups.allNodes (build people ts) ↔ v ∈ people := by
    intro v
    rw [mem_allNodes_build]
    constructor
    · rintro (h | ⟨t, ht, h | h⟩)
      · exact h
      · rw [h]
        exact (hend t ht).1
      · rw [h]
        exact (hend t ht).2
    · intro h
      exact Or.inl h
  have hrel : ∀ a b, Reach (Adj ts (inLabels L)) a b ↔ Reach (Adj ts anyLabel) a b := by
    intro a b
    constructor
    · intro h
      exact h.widen Adj.any
    · intro h
      refine h.widen ?_
      rintro x y ⟨l, _, hl⟩
      refine ⟨l, ?_, hl⟩
      rcases hl with hl | hl
      · exact hlab _ hl
      · exact hlab _ hl
  have h5 : IsRepSystem (Reach (Adj ts anyLabel)) (fun v => v ∈ people) reps1 :=
    h2.congr_rel hrel
  have h6 : IsRepSystem (Reach (Adj ts anyLabel)) (fun v => v ∈ people) reps2 :=
    h4.congr hnodes
  have he := reach_equiv (Adj ts anyLabel) Adj.symm
  have hlen := repSystem_length_unique he.1 he.2 h5 h6
  refine ⟨reps1.length, ?_, ?_⟩
  · unfold CountGroupsRels
    rw [CountGroupsRels_outer_eq]
    exact h1
  · unfold CountGroups
    rw [CountGroups_outer_eq, hlen]
    exact h3

theorem CountGroupsRels_all_labels_witness :
    (∀ t ∈ [((1 : Int), (2 : Int), "a"), (2, 3, "b")], t.1 ∈ [(1 : Int), 2, 3, 4] ∧
        t.2.1 ∈ [(1 : Int), 2, 3, 4]) ∧
      (∀ t ∈ [((1 : Int), (2 : Int), "a"), (2, 3, "b")], t.2.2 ∈ ["b", "a", "c"]) ∧
      ∃ n, CountGroupsRels (build [1, 2, 3, 4] [(1, 2, "a"), (2, 3, "b")]) ["b", "a", "c"] = .ok n ∧
        CountGroups (build [1, 2, 3, 4] [(1, 2, "a"), (2, 3, "b")]) = .ok n :=
  ⟨by decide, by decide,
    CountGroupsRels_all_labels.1 [1, 2, 3, 4] [(1, 2, "a"), (2, 3, "b")] ["b", "a", "c"]
      (by decide) (by decide)⟩

end IlliniBook
